import Mathlib

/-!
# shine: SOCKS5 front end, address preamble and cipher engine

A shallow embedding of the Go sources `shine/encrypt.go`, `shine/util.go`,
`shine/config.go`, `cmd/client/client.go` and `cmd/server/server.go`, followed
by theorems about them.

Conventions of the embedding:

* a Go `byte` is a `Fin 256`, so that byte arithmetic wraps modulo 256 as in Go;
* a Go `[]byte` and a Go `string` are both `List Byte` (a Go string is an
  arbitrary byte sequence); a `nil` slice or pointer is `none`;
* a Go `int` that is never negative in the code is a `Nat`;
* a run-time panic (slice bounds, nil dereference) is the value `none` of an
  `Option` result;
* the standard library is modelled, not translated: MD5 and the AES block
  function are parameters, `io.ReadAtLeast`, `io.ReadFull`, `net.JoinHostPort`,
  `strconv.Itoa`, `net.Conn.Write`, the CFB stream of `crypto/cipher` and the
  ASCII path of `strings.ToLower` follow their documented behaviour, and the
  Unicode path of `strings.ToLower` is a parameter;
* `shine.DialWithRawAddress`, `net.Dial` and the buffer pool are parameters, a
  `*Cipher` is an index into a heap of ciphers, and a goroutine started with
  `go` is only counted.
-/

set_option maxRecDepth 100000

namespace Shine

/-! ## Bytes, slices and strings -/

/-- A Go `byte`. -/
abbrev Byte := Fin 256

/-- A Go `string`: an immutable sequence of bytes. -/
abbrev GoString := List Byte

/-- The Go string written as an ASCII literal. -/
def str (s : String) : GoString := s.data.map (fun c => Fin.ofNat c.toNat)

/-- Go `make([]byte, n)`: `n` zero bytes. -/
def make (n : Nat) : List Byte := List.replicate n 0

/-- Go builtin `copy(dst, src)`: the new contents of `dst`. It copies
`min(len(dst), len(src))` bytes and leaves the tail of `dst` alone. -/
def copy (dst src : List Byte) : List Byte :=
  src.take dst.length ++ dst.drop src.length

/-- Go `copy(dst[off:], src)`, seen from `dst`. -/
def copyAt (dst : List Byte) (off : Nat) (src : List Byte) : List Byte :=
  dst.take off ++ copy (dst.drop off) src

/-- Go `buf[i]` on a buffer that is known to be longer than `i`. -/
def byteAt (buf : List Byte) (i : Nat) : Byte := buf.getD i 0

/-- The bytes of `buf[lo:hi]`, without the bounds check. -/
def sliceRaw (buf : List Byte) (lo hi : Nat) : List Byte :=
  (buf.take hi).drop lo

/-- Go `buf[lo:hi]` on a slice whose length equals its capacity: `none` is the
run-time panic "slice bounds out of range". -/
def slice (buf : List Byte) (lo hi : Nat) : Option (List Byte) :=
  if lo ≤ hi ∧ hi ≤ buf.length then some (sliceRaw buf lo hi) else none

/-! ## Key derivation (`shine/encrypt.go`) -/

/-- MD5 as an abstract function from byte strings to 16-byte strings. -/
structure MD5 where
  /-- The digest of a byte string. -/
  sum : List Byte → List Byte
  /-- A digest has `md5.Size = 16` bytes. -/
  size_eq : ∀ d, (sum d).length = 16

/-- Go `md5.Size`. -/
def md5Len : Nat := 16

/-- Function `md5sum` of `encrypt.go`. -/
def md5sum (h : MD5) (d : List Byte) : List Byte := h.sum d

/-- The block count `cnt` computed at the top of `evpBytesToKey`. -/
def evpCnt (keyLen : Nat) : Nat :=
  let cnt := keyLen / md5Len
  if keyLen % md5Len ≥ 0 then cnt + 1 else cnt

/-- The `for i := 1; i < cnt; i++` loop of `evpBytesToKey`; the first argument
is the number of iterations left, `cnt - i`. Every slice taken here is within
bounds whatever the data, so the slices are taken unchecked. -/
def evpLoop (h : MD5) (password : GoString) : Nat → Nat → List Byte → List Byte → List Byte
  | 0, _, _, m => m
  | k + 1, start, d, m =>
    let start := start + md5Len
    let d := copy d (sliceRaw m (start - md5Len) start)
    let d := copyAt d md5Len password
    let m := copyAt m start (md5sum h d)
    evpLoop h password k start d m

/-- Function `evpBytesToKey` of `encrypt.go`. -/
def evpBytesToKey (h : MD5) (password : GoString) (keyLen : Nat) : List Byte :=
  let cnt := evpCnt keyLen
  let m := make (cnt * md5Len)
  let m := copy m (md5sum h password)
  let d := make (md5Len + password.length)
  let m := evpLoop h password (cnt - 1) 0 d m
  sliceRaw m 0 keyLen

/-- The digest `D(i+1)` of the iterated construction, as the specification
words it: `D1 = MD5(password)`, `Di = MD5(D(i-1) ‖ password)`. -/
def evpDigest (h : MD5) (password : GoString) : Nat → List Byte
  | 0 => h.sum password
  | i + 1 => h.sum (evpDigest h password i ++ password)

/-- The concatenation `D1 ‖ D2 ‖ … ‖ Dn`. -/
def evpStream (h : MD5) (password : GoString) : Nat → List Byte
  | 0 => []
  | n + 1 => evpStream h password n ++ evpDigest h password n

/-- A toy digest (the length of the input, sixteen times), to run the
definitions on. -/
def toyMD5 : MD5 where
  sum d := List.replicate 16 (Fin.ofNat d.length)
  size_eq _ := List.length_replicate _ _

/-! ## Errors -/

/-- The error values the code can return. -/
inductive Err
  /-- Go `io.EOF`. -/
  | eof
  /-- Go `io.ErrUnexpectedEOF`. -/
  | unexpectedEOF
  /-- Go `io.ErrShortBuffer`. -/
  | shortBuffer
  /-- Client `errAddrType`: "socks addr type not supported". -/
  | errAddrType
  /-- Client `errVer`: "socks version not supported". -/
  | errVer
  /-- Client `errAuthExtraData`: "socks authentication get extra data". -/
  | errAuthExtraData
  /-- Client `errReqExtraData`: "socks request get extra data". -/
  | errReqExtraData
  /-- Client `errCmd`: "socks command not supported". -/
  | errCmd
  /-- Server `fmt.Errorf("addr type %d not supported", addressType)`. -/
  | addrTypeNotSupported (addressType : Byte)
  /-- Cipher `errors.New("empty password")`. -/
  | emptyPassword
  /-- Cipher `errors.New("Unsupported encryption method: " + method)`. -/
  | unsupportedMethod (method : GoString)
  /-- Go `aes.KeySizeError`. -/
  | keySize (n : Nat)
  /-- Go `errors.New(msg)` with a formatted message. -/
  | text (msg : GoString)
  /-- An error of the operating system, the network or a library, by number. -/
  | external (code : Nat)
  deriving DecidableEq, Repr

/-! ## Readers and connections (`io`, `net`) -/

/-- An `io.Reader` as the code sees it: the fragments that successive `Read`
calls deliver, in order, followed by `io.EOF`. A fragment longer than the
buffer passed to `Read` is delivered in part and its rest stays at the front.
An empty fragment is a `Read` that returns `0, nil`. -/
abbrev Reader := List (List Byte)

/-- All the bytes a reader will ever deliver. -/
def Reader.bytes (r : Reader) : List Byte := r.flatten

/-- What a read leaves behind: the count `n`, the error, the buffer and the
reader after the call. -/
structure ReadResult where
  /-- Number of bytes read. -/
  n : Nat
  /-- The error, `none` for `nil`. -/
  err : Option Err
  /-- The buffer after the call. -/
  buf : List Byte
  /-- The reader after the call. -/
  rd : Reader
  deriving DecidableEq, Repr

/-- The loop of `io.ReadAtLeast`,
`for n < min && err == nil { nn, err = r.Read(buf[n:]); n += nn }`,
followed by its error adjustment. It is entered with `min ≤ len(buf)`, so a
`Read` that fills the buffer ends the loop. -/
def readLoop (min : Nat) : Reader → List Byte → Nat → ReadResult
  | [], buf, n =>
    if n < min then
      -- `Read` returns `0, io.EOF`
      { n := n, err := some (if n > 0 then Err.unexpectedEOF else Err.eof), buf := buf, rd := [] }
    else { n := n, err := none, buf := buf, rd := [] }
  | c :: rest, buf, n =>
    if n < min then
      if c.length ≤ buf.length - n then
        readLoop min rest (copyAt buf n c) (n + c.length)
      else
        { n := buf.length, err := none, buf := copyAt buf n c,
          rd := c.drop (buf.length - n) :: rest }
    else { n := n, err := none, buf := buf, rd := c :: rest }

/-- Go `io.ReadAtLeast(r, buf, min)`. -/
def readAtLeast (r : Reader) (buf : List Byte) (min : Nat) : ReadResult :=
  if buf.length < min then { n := 0, err := some Err.shortBuffer, buf := buf, rd := r }
  else readLoop min r buf 0

/-- Go `io.ReadFull(r, buf)`. -/
def readFull (r : Reader) (buf : List Byte) : ReadResult :=
  readAtLeast r buf buf.length

/-- Go `io.ReadFull(r, buf[lo:hi])`, seen from `buf`; `none` when the slice
expression panics. -/
def readFullAt (r : Reader) (buf : List Byte) (lo hi : Nat) : Option ReadResult :=
  match slice buf lo hi with
  | none => none
  | some sub =>
    let res := readFull r sub
    some { res with buf := buf.take lo ++ res.buf ++ buf.drop hi }

/-- A `net.Conn` towards a peer: what the peer sends, what has been written to
it so far, and how the `Write` calls to come end. -/
structure Conn where
  /-- The read side. -/
  rd : Reader
  /-- The bytes written so far. -/
  wr : List Byte
  /-- How the coming `Write` calls end, in order: `none` is a call that writes
  all its bytes and returns a `nil` error, `some (n, e)` a call that stops
  after `n` bytes and returns the error `e`. A call beyond the list succeeds. -/
  wout : List (Option (Nat × Err))
  deriving DecidableEq, Repr

/-- Go `con.Write(b)`: the connection afterwards and the returned error. -/
def Conn.write (con : Conn) (b : List Byte) : Conn × Option Err :=
  match con.wout.headD none with
  | none => ({ con with wr := con.wr ++ b, wout := con.wout.tail }, none)
  | some (n, e) => ({ con with wr := con.wr ++ b.take n, wout := con.wout.tail }, some e)

/-- Go `strconv.Itoa` on a non-negative number. -/
def itoa (n : Nat) : GoString := (Nat.toDigits 10 n).map (fun c => Fin.ofNat c.toNat)

/-- Go `net.JoinHostPort`: a host containing a colon is put in brackets. -/
def joinHostPort (host port : GoString) : GoString :=
  if (58 : Byte) ∈ host then [91] ++ host ++ [93, 58] ++ port
  else host ++ [58] ++ port

/-- Go `binary.BigEndian.Uint16(b)`: `uint16(b[1]) | uint16(b[0])<<8`. -/
def beUint16 (b : List Byte) : Nat :=
  (byteAt b 1).val ||| ((byteAt b 0).val <<< 8)

/-! ## The local agent (`cmd/client/client.go`) -/

namespace Client

/-- Constant `socksVer5`. -/
def socksVer5 : Byte := 5
/-- Constant `socksCmdConnect`. -/
def socksCmdConnect : Byte := 1

/-- Constant `idVer` of `handShake`. -/
def idVer : Nat := 0
/-- Constant `idNMethod` of `handShake`. -/
def idNMethod : Nat := 1

/-- Function `handShake` of `client.go`. The result is the returned error and the
connection afterwards; `none` is a panic. -/
def handShake (con : Conn) : Option (Option Err × Conn) :=
  let buf := make 258
  let r := readAtLeast con.rd buf (idNMethod + 1)
  let con := { con with rd := r.rd }
  let buf := r.buf
  let n := r.n
  if r.err.isSome then some (r.err, con) else
  if byteAt buf idVer ≠ socksVer5 then some (some Err.errVer, con) else
  let nmethod := (byteAt buf idNMethod).val
  let msgLen := nmethod + 2
  if n = msgLen then
    let w := con.write [socksVer5, 0]
    some (w.2, w.1)
  else if n < msgLen then
    match readFullAt con.rd buf n msgLen with
    | none => none
    | some r2 =>
      let con := { con with rd := r2.rd }
      if r2.err.isSome then some (r2.err, con) else
      let w := con.write [socksVer5, 0]
      some (w.2, w.1)
  else some (some Err.errAuthExtraData, con)

/-- Constant `idVar` of `getRequest`. -/
def idVar : Nat := 0
/-- Constant `idCmd`. -/
def idCmd : Nat := 1
/-- Constant `idAtyp`. -/
def idAtyp : Nat := 3
/-- Constant `idIP0`. -/
def idIP0 : Nat := 4
/-- Constant `idDmLen`. -/
def idDmLen : Nat := 4
/-- Constant `idDm0`. -/
def idDm0 : Nat := 5
/-- Constant `typeIPv4`. -/
def typeIPv4 : Byte := 1
/-- Constant `typeDm`. -/
def typeDm : Byte := 3
/-- Constant `typeIPv6`. -/
def typeIPv6 : Byte := 4
/-- Go `net.IPv4len`. -/
def IPv4len : Nat := 4
/-- Go `net.IPv6len`. -/
def IPv6len : Nat := 16
/-- Constant `lenIPv4`. -/
def lenIPv4 : Nat := 3 + 1 + IPv4len + 2
/-- Constant `lenIPv6`. -/
def lenIPv6 : Nat := 3 + 1 + IPv6len + 2
/-- Constant `lenDmBase`. -/
def lenDmBase : Nat := 3 + 1 + 1 + 2

/-- The three results of `getRequest`. -/
structure Request where
  /-- The captured preamble, `none` for a nil slice. -/
  rawAddress : Option (List Byte)
  /-- The display form `host:port`. -/
  address : GoString
  /-- The error, `none` for `nil`. -/
  err : Option Err
  deriving DecidableEq, Repr

/-- The first `switch buf[idAtyp]` of `getRequest`: the expected request
length, or `none` for the `default` branch. -/
def reqLenOf (buf : List Byte) : Option Nat :=
  if byteAt buf idAtyp = typeIPv4 then some lenIPv4
  else if byteAt buf idAtyp = typeIPv6 then some lenIPv6
  else if byteAt buf idAtyp = typeDm then some ((byteAt buf idDmLen).val + lenDmBase)
  else none

/-- The second `switch buf[idAtyp]` of `getRequest`: the host text. In
`buf[idDm0 : idDm0+buf[idDmLen]]` the upper bound is a `byte` expression (the
constant takes the type of `buf[idDmLen]`), so the sum is taken modulo 256.
`none` is a slice panic. -/
def hostOf (ipString : List Byte → GoString) (buf : List Byte) : Option GoString :=
  if byteAt buf idAtyp = typeIPv4 then (slice buf idIP0 (idIP0 + IPv4len)).map ipString
  else if byteAt buf idAtyp = typeIPv6 then (slice buf idIP0 (idIP0 + IPv6len)).map ipString
  else if byteAt buf idAtyp = typeDm then
    slice buf idDm0 ((Fin.ofNat idDm0 + byteAt buf idDmLen : Byte)).val
  else some []

/-- The tail of `getRequest`, from `rawAddress = buf[idAtyp:reqLen]` on. -/
def finish (ipString : List Byte → GoString) (buf : List Byte) (reqLen : Nat) (con : Conn) :
    Option (Request × Conn) :=
  match slice buf idAtyp reqLen with
  | none => none
  | some rawAddress =>
    match hostOf ipString buf with
    | none => none
    | some address =>
      match slice buf (reqLen - 2) reqLen with
      | none => none
      | some pb =>
        let port := beUint16 pb
        let address := joinHostPort address (itoa port)
        some ({ rawAddress := some rawAddress, address := address, err := none }, con)

/-- Function `getRequest` of `client.go`; `ipString` stands for `net.IP.String`. The
result is the three returned values and the connection afterwards; `none` is a
panic. -/
def getRequest (ipString : List Byte → GoString) (conn : Conn) : Option (Request × Conn) :=
  let buf := make 262
  let r := readAtLeast conn.rd buf (idDmLen + 1)
  let conn := { conn with rd := r.rd }
  let buf := r.buf
  let n := r.n
  if r.err.isSome then some ({ rawAddress := none, address := [], err := r.err }, conn) else
  if byteAt buf idVar ≠ socksVer5 then
    some ({ rawAddress := none, address := [], err := some Err.errVer }, conn) else
  if byteAt buf idCmd ≠ socksCmdConnect then
    some ({ rawAddress := none, address := [], err := some Err.errCmd }, conn) else
  match reqLenOf buf with
  | none => some ({ rawAddress := none, address := [], err := some Err.errAddrType }, conn)
  | some reqLen =>
    if reqLen = n then finish ipString buf reqLen conn
    else if reqLen > n then
      match readFullAt conn.rd buf n reqLen with
      | none => none
      | some r2 =>
        let conn := { conn with rd := r2.rd }
        if r2.err.isSome then
          some ({ rawAddress := none, address := [], err := r2.err }, conn)
        else finish ipString r2.buf reqLen conn
    else some ({ rawAddress := none, address := [], err := some Err.errReqExtraData }, conn)

end Client

/-! ## The remote agent (`cmd/server/server.go`) -/

namespace Server

/-- Constant `idType`. -/
def idType : Nat := 0
/-- Constant `idIP0`. -/
def idIP0 : Nat := 1
/-- Constant `idDmLen`. -/
def idDmLen : Nat := 1
/-- Constant `idDm0`. -/
def idDm0 : Nat := 2
/-- Constant `typeIPv4`. -/
def typeIPv4 : Byte := 1
/-- Constant `typeDm`. -/
def typeDm : Byte := 3
/-- Constant `typeIPv6`. -/
def typeIPv6 : Byte := 4
/-- Constant `lenPort`. -/
def lenPort : Nat := 2
/-- Constant `lenIPv4`. -/
def lenIPv4 : Nat := Client.IPv4len + lenPort
/-- Constant `lenIPv6`. -/
def lenIPv6 : Nat := Client.IPv6len + lenPort

/-- The two results of the remote `getRequest` and the reader afterwards. -/
structure Decoded where
  /-- The `host:port` string. -/
  address : GoString
  /-- The error, `none` for `nil`. -/
  err : Option Err
  /-- The decrypted stream after the call. -/
  rd : Reader
  deriving DecidableEq, Repr

/-- The second `switch addressType` of the remote `getRequest`: the host
text; `none` is a slice panic. -/
def hostOf (ipString : List Byte → GoString) (buf : List Byte) (addressType : Byte) :
    Option GoString :=
  if addressType = typeIPv4 then (slice buf idIP0 (idIP0 + Client.IPv4len)).map ipString
  else if addressType = typeIPv6 then (slice buf idIP0 (idIP0 + Client.IPv6len)).map ipString
  else if addressType = typeDm then slice buf idDm0 (idDm0 + (byteAt buf idDmLen).val)
  else some []

/-- The tail of the remote `getRequest`, from the read of
`buf[reqStart:reqEnd]` on. -/
def finish (ipString : List Byte → GoString) (conn : Reader) (buf : List Byte)
    (addressType : Byte) (reqStart reqEnd : Nat) : Option Decoded :=
  match readFullAt conn buf reqStart reqEnd with
  | none => none
  | some r =>
    if r.err.isSome then some { address := [], err := r.err, rd := r.rd } else
    let buf := r.buf
    match hostOf ipString buf addressType with
    | none => none
    | some address =>
      match slice buf (reqEnd - 2) reqEnd with
      | none => none
      | some pb =>
        let port := beUint16 pb
        some { address := joinHostPort address (itoa port), err := none, rd := r.rd }

/-- Function `getRequest` of `server.go`, reading the decrypted stream `conn`;
`ipString` stands for `net.IP.String`. `none` is a panic. -/
def getRequest (ipString : List Byte → GoString) (conn : Reader) : Option Decoded :=
  let buf := make 259
  match readFullAt conn buf 0 (idType + 1) with
  | none => none
  | some r =>
    if r.err.isSome then some { address := [], err := r.err, rd := r.rd } else
    let conn := r.rd
    let buf := r.buf
    let addressType := byteAt buf idType
    if addressType = typeIPv4 then
      finish ipString conn buf addressType idIP0 (idIP0 + lenIPv4)
    else if addressType = typeIPv6 then
      finish ipString conn buf addressType idIP0 (idIP0 + lenIPv6)
    else if addressType = typeDm then
      match readFullAt conn buf (idType + 1) (idDmLen + 1) with
      | none => none
      | some r1 =>
        if r1.err.isSome then some { address := [], err := r1.err, rd := r1.rd } else
        let conn := r1.rd
        let buf := r1.buf
        finish ipString conn buf addressType idDm0 (idDm0 + (byteAt buf idDmLen).val + lenPort)
    else some { address := [], err := some (Err.addrTypeNotSupported addressType), rd := conn }

/-- The number of bytes the specification lets the remote decoder take from a
stream: 1 (ATYP), then 6 more for IPv4, 18 more for IPv6, the length byte `L`
and `L + 2` more for a domain, and nothing more for any other ATYP. -/
def preambleLen (t : List Byte) : Nat :=
  if byteAt t 0 = 1 then 1 + 6
  else if byteAt t 0 = 4 then 1 + 18
  else if byteAt t 0 = 3 then 1 + 1 + ((byteAt t 1).val + 2)
  else 1

end Server

/-! ## The cipher engine (`shine/encrypt.go`) -/

/-- Type `DecOrEnc` of `encrypt.go`. -/
inductive DecOrEnc
  /-- Constant `Decrypt`. -/
  | Decrypt
  /-- Constant `Encrypt`. -/
  | Encrypt
  deriving DecidableEq, Repr

/-- AES as an abstract block function: for a key, a map on 16-byte blocks. -/
structure AES where
  /-- The block encryption under a key. -/
  encryptBlock : List Byte → List Byte → List Byte

/-- Go `aes.BlockSize`. -/
def blockSize : Nat := 16

/-- Go `aes.NewCipher(key)`: the keyed block function, or `aes.KeySizeError`
for a key that is not 16, 24 or 32 bytes long. -/
def aesNewCipher (aes : AES) (key : List Byte) : Except Err (List Byte → List Byte) :=
  if key.length = 16 ∨ key.length = 24 ∨ key.length = 32 then Except.ok (aes.encryptBlock key)
  else Except.error (Err.keySize key.length)

/-- The state of a CFB stream of Go `crypto/cipher` (type `cfb`). -/
structure Stream where
  /-- The keyed block function `b.Encrypt`. -/
  b : List Byte → List Byte
  /-- The feedback register, one block. -/
  next : List Byte
  /-- The current key-stream block. -/
  out : List Byte
  /-- How many bytes of `out` are used up. -/
  outUsed : Nat
  /-- The direction. -/
  decrypt : Bool

/-- Go `newCFB` of `crypto/cipher`, behind `NewCFBEncrypter` and
`NewCFBDecrypter`; `none` is its panic on an IV that is not one block long. -/
def newCFB (block : List Byte → List Byte) (iv : List Byte) (decrypt : Bool) : Option Stream :=
  if iv.length ≠ blockSize then none
  else some { b := block, out := make blockSize, next := copy (make blockSize) iv,
              outUsed := blockSize, decrypt := decrypt }

/-- One byte of `XORKeyStream`: refill the key-stream block when it is used up,
xor, and feed the ciphertext byte back into the register. -/
def Stream.step (x : Stream) (s : Byte) : Stream × Byte :=
  let x := if x.outUsed = x.out.length then
    { x with out := copy x.out (x.b x.next), outUsed := 0 } else x
  let d := s ^^^ byteAt x.out x.outUsed
  let fb := if x.decrypt then s else d
  ({ x with next := x.next.set x.outUsed fb, outUsed := x.outUsed + 1 }, d)

/-- The loop of `XORKeyStream` over `src`, byte by byte. -/
def Stream.run (x : Stream) : List Byte → Stream × List Byte
  | [] => (x, [])
  | s :: src =>
    let r := x.step s
    let rs := Stream.run r.1 src
    (rs.1, r.2 :: rs.2)

/-- Go `x.XORKeyStream(dst, src)`: the stream and `dst` afterwards; `none` is
the panic on a `dst` shorter than `src`. -/
def Stream.XORKeyStream (x : Stream) (dst src : List Byte) : Option (Stream × List Byte) :=
  if dst.length < src.length then none
  else some ((x.run src).1, copy dst (x.run src).2)

/-- Function `newAESCFBStream` of `encrypt.go`: the stream and the error; `none` is a
panic. -/
def newAESCFBStream (aes : AES) (key iv : List Byte) (doe : DecOrEnc) :
    Option (Option Stream × Option Err) :=
  match aesNewCipher aes key with
  | Except.error err => some (none, some err)
  | Except.ok block =>
    if doe = DecOrEnc.Encrypt then (newCFB block iv false).map (fun s => (some s, none))
    else (newCFB block iv true).map (fun s => (some s, none))

/-- Type `cipherInfo` of `encrypt.go`. -/
structure CipherInfo where
  /-- Key length in bytes. -/
  keyLen : Nat
  /-- IV length in bytes. -/
  ivLen : Nat
  /-- The stream factory. -/
  newStream : List Byte → List Byte → DecOrEnc → Option (Option Stream × Option Err)

/-- The table `cipherMethod` of `encrypt.go`. -/
def cipherMethod (aes : AES) : List (GoString × CipherInfo) :=
  [ (str "aes-128-cfb", ⟨16, 16, newAESCFBStream aes⟩),
    (str "aes-192-cfb", ⟨24, 16, newAESCFBStream aes⟩),
    (str "aes-256-cfb", ⟨32, 16, newAESCFBStream aes⟩) ]

/-- Function `CheckCipherMethod` of `encrypt.go`: the returned error. -/
def CheckCipherMethod (aes : AES) (method : GoString) : Option Err :=
  let method := if method = [] then str "aes-256-cfb" else method
  match (cipherMethod aes).lookup method with
  | none => some (Err.unsupportedMethod method)
  | some _ => none

/-- Type `Cipher` of `encrypt.go`. -/
structure Cipher where
  /-- The encryptor, `none` until `initEncrypt`. -/
  enc : Option Stream
  /-- The decryptor, `none` until `initDecrypt`. -/
  dec : Option Stream
  /-- The derived key. -/
  key : List Byte
  /-- The cached IV of the encryptor, `none` for nil. -/
  iv : Option (List Byte)
  /-- The table entry. -/
  info : CipherInfo

/-- Function `NewCipher` of `encrypt.go`: the cipher and the error. -/
def NewCipher (h : MD5) (aes : AES) (method password : GoString) : Option Cipher × Option Err :=
  if password = [] then (none, some Err.emptyPassword)
  else
    match (cipherMethod aes).lookup method with
    | none => (none, some (Err.unsupportedMethod method))
    | some info =>
      let key := evpBytesToKey h password info.keyLen
      (some { enc := none, dec := none, key := key, iv := none, info := info }, none)

/-- Method `Cipher.initEncrypt`: the returned IV and error, the cipher afterwards and
the random source `rand.Reader` afterwards; `none` is a panic. -/
def Cipher.initEncrypt (c : Cipher) (rand : Reader) :
    Option ((Option (List Byte) × Option Err) × Cipher × Reader) :=
  match c.iv with
  | none =>
    let r := readFull rand (make c.info.ivLen)
    if r.err.isSome then some ((none, r.err), c, r.rd)
    else
      let iv := r.buf
      let c := { c with iv := some iv }
      (c.info.newStream c.key iv DecOrEnc.Encrypt).map
        (fun p => ((some iv, p.2), { c with enc := p.1 }, r.rd))
  | some iv =>
    (c.info.newStream c.key iv DecOrEnc.Encrypt).map
      (fun p => ((some iv, p.2), { c with enc := p.1 }, rand))

/-- Method `Cipher.initDecrypt`: the returned error and the cipher afterwards. -/
def Cipher.initDecrypt (c : Cipher) (iv : List Byte) : Option (Option Err × Cipher) :=
  (c.info.newStream c.key iv DecOrEnc.Decrypt).map (fun p => (p.2, { c with dec := p.1 }))

/-- Method `Cipher.encrypt`: the cipher and `dst` afterwards; a nil encryptor
panics. -/
def Cipher.encrypt (c : Cipher) (dst src : List Byte) : Option (Cipher × List Byte) :=
  match c.enc with
  | none => none
  | some x => (x.XORKeyStream dst src).map (fun p => ({ c with enc := some p.1 }, p.2))

/-- Method `Cipher.decrypt`: the cipher and `dst` afterwards; a nil decryptor
panics. -/
def Cipher.decrypt (c : Cipher) (dst src : List Byte) : Option (Cipher × List Byte) :=
  match c.dec with
  | none => none
  | some x => (x.XORKeyStream dst src).map (fun p => ({ c with dec := some p.1 }, p.2))

/-- Method `Cipher.Copy` of `encrypt.go`. -/
def Cipher.Copy (c : Cipher) : Cipher :=
  { c with enc := none, dec := none }

/-- Encrypt a sequence of chunks in order, each into a fresh buffer of its own
length, as a writer does. -/
def encryptAll (c : Cipher) : List (List Byte) → Option (Cipher × List (List Byte))
  | [] => some (c, [])
  | p :: ps =>
    match c.encrypt (make p.length) p with
    | none => none
    | some r =>
      match encryptAll r.1 ps with
      | none => none
      | some rs => some (rs.1, r.2 :: rs.2)

/-- Decrypt a sequence of chunks in order, each into a fresh buffer of its own
length, as a reader does. -/
def decryptAll (c : Cipher) : List (List Byte) → Option (Cipher × List (List Byte))
  | [] => some (c, [])
  | q :: qs =>
    match c.decrypt (make q.length) q with
    | none => none
    | some r =>
      match decryptAll r.1 qs with
      | none => none
      | some rs => some (rs.1, r.2 :: rs.2)

/-- An encryptor and a decryptor that hold the same register and key stream. -/
def Stream.Sync (xe xd : Stream) : Prop :=
  xe.b = xd.b ∧ xe.next = xd.next ∧ xe.out = xd.out ∧ xe.outUsed = xd.outUsed ∧
  xe.decrypt = false ∧ xd.decrypt = true

/-- The ASCII-lowercased form of a string: the letters `A` to `Z` become `a` to
`z`, every other byte stays. -/
def asciiLower (s : GoString) : GoString :=
  s.map (fun b => if 65 ≤ b.val ∧ b.val ≤ 90 then b + 32 else b)

/-- Go `strings.ToLower`. A string whose bytes are all below `utf8.RuneSelf`
(0x80) is lowered byte by byte; any other string is
`strings.Map(unicode.ToLower, s)`, which is the argument `mapLower`: the case
tables of Unicode are not modelled. -/
def toLower (mapLower : GoString → GoString) (s : GoString) : GoString :=
  if s.all (fun b => b.val < 128) then asciiLower s else mapLower s

/-- A part of `strings.Map(unicode.ToLower, s)`, to run the definitions on: it
lowers the ASCII letters and the letters `À` to `Þ` of Latin-1 (UTF-8 `C3 80` to
`C3 9E` without the sign `C3 97`, lowered by adding 0x20 to the second byte) and
keeps every other byte. `prev` is the byte before the string. -/
def latinLowerFrom (prev : Byte) : GoString → GoString
  | [] => []
  | b :: rest =>
    (if prev.val = 0xC3 ∧ 0x80 ≤ b.val ∧ b.val ≤ 0x9E ∧ b.val ≠ 0x97 then b + 32
      else if 65 ≤ b.val ∧ b.val ≤ 90 then b + 32 else b) :: latinLowerFrom b rest

/-- The lowering that stands for `mapLower` when the definitions are run. -/
def latinLower (s : GoString) : GoString := latinLowerFrom 0 s

/-- A toy block function (each byte of the block plus the key length plus
one), to run the cipher on. -/
def toyAES : AES where
  encryptBlock key block := block.map (fun x => x + Fin.ofNat key.length + 1)

/-- Go `net.IP.String` on a 4-byte address: dotted decimal. It stands for
`ipString` when the decoders are run on IPv4 examples. -/
def ipv4String (b : List Byte) : GoString :=
  List.intercalate [46] (b.map (fun x => itoa x.val))

/-! ## Configuration (`shine/config.go`) -/

/-- Type `Config` of `config.go`. -/
structure Config where
  /-- Field `server`. -/
  Server : GoString
  /-- Field `server_port`. -/
  ServerPort : Int
  /-- Field `local_port`. -/
  LocalPort : Int
  /-- Field `password`. -/
  Password : GoString
  /-- Field `method`. -/
  Method : GoString
  /-- Field `timeout`. -/
  Timeout : Int
  deriving DecidableEq, Repr

/-- Function `ParseConfig` of `config.go`: the configuration and the error.
`file` is what `os.Open` and `ioutil.ReadAll` give (the data or an error),
`unmarshal` stands for `json.Unmarshal(data, config)` and `mapLower` for the
Unicode part of `strings.ToLower`. The assignment to the global `readTimeout`
is left out. -/
def ParseConfig (mapLower : GoString → GoString)
    (unmarshal : List Byte → Config → Except Err Config)
    (file : Except Err (List Byte)) : Option Config × Option Err :=
  match file with
  | Except.error err => (none, some err)
  | Except.ok data =>
    let config : Config :=
      { Server := [], ServerPort := 0, LocalPort := 0, Password := [],
        Method := str "aes-256-cfb", Timeout := 15 }
    match unmarshal data config with
    | Except.error err => (none, some err)
    | Except.ok config => (some { config with Method := toLower mapLower config.Method }, none)

/-! ## Cipher pointers (`*Cipher`) -/

/-- The ciphers allocated so far, addressed by their index (a `*Cipher`), and
the random source `rand.Reader`. -/
structure CipherHeap where
  /-- The allocated ciphers. -/
  cells : List Cipher
  /-- The random source. -/
  rand : Reader

/-- A call on a cipher pointer. -/
inductive CipherOp
  /-- The call `p.Copy()`. -/
  | copy (p : Nat)
  /-- The call `p.initEncrypt()`. -/
  | initEncrypt (p : Nat)
  deriving DecidableEq, Repr

/-- The call `p.Copy()` on the heap: it allocates `nc` and returns its
pointer; `none` is a nil dereference. -/
def CipherHeap.copyCall (h : CipherHeap) (p : Nat) : Option (CipherHeap × Nat) :=
  match h.cells[p]? with
  | none => none
  | some c => some ({ h with cells := h.cells ++ [c.Copy] }, h.cells.length)

/-- The call `p.initEncrypt()` on the heap: the returned IV and error, and the
heap afterwards; `none` is a panic. -/
def CipherHeap.initEncryptCall (h : CipherHeap) (p : Nat) :
    Option ((Option (List Byte) × Option Err) × CipherHeap) :=
  match h.cells[p]? with
  | none => none
  | some c =>
    match c.initEncrypt h.rand with
    | none => none
    | some r => some (r.1, { cells := h.cells.set p r.2.1, rand := r.2.2 })

/-- One call on the heap, its result dropped. -/
def CipherHeap.step (h : CipherHeap) : CipherOp → Option CipherHeap
  | CipherOp.copy p => (h.copyCall p).map (fun r => r.1)
  | CipherOp.initEncrypt p => (h.initEncryptCall p).map (fun r => r.2)

/-- A sequence of calls on the heap, in order. -/
def CipherHeap.run (h : CipherHeap) : List CipherOp → Option CipherHeap
  | [] => some h
  | op :: ops =>
    match h.step op with
    | none => none
    | some h1 => CipherHeap.run h1 ops

/-! ## The dial retry (`cmd/client/client.go`) -/

/-- Type `ServerCipher` of `client.go`. -/
structure ServerCipher where
  /-- The address of the remote agent. -/
  Server : GoString
  /-- The cipher template. -/
  Cipher : Cipher

/-- The arguments of one call of `shine.DialWithRawAddress`. -/
structure DialCall where
  /-- The preamble to send. -/
  rawAddress : List Byte
  /-- The address dialled. -/
  server : GoString
  /-- The cipher handed over. -/
  cipher : Cipher

/-- The network as `connectToServer` sees it: the error of the `k`-th dial
(`none` when it succeeds) and the calls made so far. -/
structure Dialer where
  /-- The error of the `k`-th dial, counted from 0. -/
  outcome : Nat → Option Err
  /-- The calls made so far. -/
  calls : List DialCall

/-- The call `shine.DialWithRawAddress(rawAddress, server, cipher)`, a
parameter of the model: the `k`-th call returns the connection number `k` or
the `k`-th error. -/
def Dialer.dial (d : Dialer) (rawAddress : List Byte) (server : GoString) (cipher : Cipher) :
    (Option Nat × Option Err) × Dialer :=
  let d1 : Dialer := { d with calls := d.calls ++ [⟨rawAddress, server, cipher⟩] }
  match d.outcome d.calls.length with
  | none => ((some d.calls.length, none), d1)
  | some err => ((none, some err), d1)

/-- Variable `tryConnectCount` of `client.go`. -/
def tryConnectCount : Nat := 3

/-- The loop `for i := 0; i < tryConnectCount; i++` of `connectToServer` and
the return after it; the first argument is the number of iterations left. -/
def connectLoop (sc : ServerCipher) (rawAddress : List Byte) (address : GoString) :
    Nat → Dialer → (Option Nat × Option Err) × Dialer
  | 0, d =>
    ((none, some (Err.text (str "still failed to connect to " ++ address ++ str " after "
      ++ itoa tryConnectCount ++ str " attempts"))), d)
  | i + 1, d =>
    let r := d.dial rawAddress sc.Server sc.Cipher.Copy
    if r.1.2.isSome then connectLoop sc rawAddress address i r.2
    else r

/-- Function `connectToServer` of `client.go`: the connection, the error and
the network afterwards. -/
def connectToServer (sc : ServerCipher) (rawAddress : List Byte) (address : GoString)
    (d : Dialer) : (Option Nat × Option Err) × Dialer :=
  connectLoop sc rawAddress address tryConnectCount d

/-! ## The relay pump (`shine/util.go`) -/

/-- One end of a relay as a pump sees it: the results of the coming `Read`
calls (the bytes delivered and the error; after the list every `Read` returns
`0, io.EOF`), the arguments of the `Write` calls so far, the error of the
`k`-th `Write`, and the number of `Close` calls so far. -/
structure Endpoint where
  /-- The results of the coming reads. -/
  reads : List (List Byte × Option Err)
  /-- The arguments of the writes so far. -/
  writes : List (List Byte)
  /-- The error of the `k`-th write, counted from 0. -/
  writeErr : Nat → Option Err
  /-- The number of `Close` calls so far. -/
  closes : Nat

/-- The call `dst.Write(b)`: the error and the endpoint afterwards. -/
def Endpoint.write (e : Endpoint) (b : List Byte) : Option Err × Endpoint :=
  (e.writeErr e.writes.length, { e with writes := e.writes ++ [b] })

/-- The call `c.Close()`. -/
def Endpoint.close (e : Endpoint) : Endpoint :=
  { e with closes := e.closes + 1 }

/-- The `for` loop of `PipeThenClose`: the reads left on `src` and `dst`
afterwards. A read delivers `n = min(len(data), len(buf))` bytes into `buf`. -/
def pipeLoop : List (List Byte × Option Err) → List Byte → Endpoint →
    List (List Byte × Option Err) × Endpoint
  | [], _, dst => ([], dst)
  | r :: rest, buf, dst =>
    let buf := copy buf r.1
    let n := min r.1.length buf.length
    let err := r.2
    let w : Option Err × Endpoint :=
      if n > 0 then dst.write (sliceRaw buf 0 n) else (none, dst)
    if n > 0 ∧ w.1.isSome then (rest, w.2)
    else if err.isSome then (rest, w.2)
    else pipeLoop rest buf w.2

/-- Function `PipeThenClose` of `util.go`: `src` and `dst` afterwards. `buf`
is the buffer `leakyBuf.Get()` hands out; read deadlines are left out. -/
def PipeThenClose (src dst : Endpoint) (buf : List Byte) : Endpoint × Endpoint :=
  let r := pipeLoop src.reads buf dst
  ({ src with reads := r.1 }, r.2.close)

/-! ## The remote session handler (`cmd/server/server.go`) -/

namespace Server

/-- What the remote `handleConnection` has done. -/
structure Session where
  /-- The addresses passed to `net.Dial`, in order. -/
  dials : List GoString
  /-- The number of relay pumps started (`go shine.PipeThenClose` and the
  pump run by the handler itself). -/
  pumps : Nat
  /-- The write and close side of the client-facing connection `conn`. -/
  conn : Endpoint
  /-- The destination connection `remote`, when the dial gave one. -/
  remote : Option Endpoint
  /-- The local variable `closed`. -/
  closed : Bool

/-- The body of `handleConnection` of `server.go`, up to its `return`. `conn`
is the decrypted stream of the client-facing connection and `connOut` its
write and close side; `dial` stands for `net.Dial("tcp", address)`. The pump
started with `go` runs concurrently and is only counted. `none` is a panic. -/
def handleBody (ipString : List Byte → GoString) (conn : Reader) (connOut : Endpoint)
    (dial : GoString → Except Err Endpoint) (buf : List Byte) : Option Session :=
  match getRequest ipString conn with
  | none => none
  | some d =>
    if d.err.isSome then
      some { dials := [], pumps := 0, conn := connOut, remote := none, closed := true }
    else if (0 : Byte) ∈ d.address then
      some { dials := [], pumps := 0, conn := connOut, remote := none, closed := true }
    else
      match dial d.address with
      | Except.error _ =>
        some { dials := [d.address], pumps := 0, conn := connOut, remote := none,
               closed := false }
      | Except.ok remote =>
        -- go shine.PipeThenClose(conn, remote); shine.PipeThenClose(remote, conn)
        let r := PipeThenClose remote connOut buf
        some { dials := [d.address], pumps := 2, conn := r.2, remote := some r.1,
               closed := true }

/-- The deferred functions of `handleConnection`, last registered first:
`if !closed { remote.Close() }`, registered once the dial has succeeded, and
`if !closed { conn.Close() }`. -/
def deferred (s : Session) : Session :=
  let s : Session := if !s.closed then { s with remote := s.remote.map Endpoint.close } else s
  if !s.closed then { s with conn := s.conn.close } else s

/-- Function `handleConnection` of `server.go`: its body, then its deferred
functions. -/
def handleConnection (ipString : List Byte → GoString) (conn : Reader) (connOut : Endpoint)
    (dial : GoString → Except Err Endpoint) (buf : List Byte) : Option Session :=
  (handleBody ipString conn connOut dial buf).map deferred

end Server

/-! # Theorems -/

/-! ### Lemmas on `copy` and the derivation loop -/

theorem length_make (n : Nat) : (make n).length = n := by
  simp [make]

theorem copy_of_length_le (dst src : List Byte) (hle : src.length ≤ dst.length) :
    copy dst src = src ++ dst.drop src.length := by
  simp [copy, List.take_of_length_le hle]

theorem length_copy (dst src : List Byte) : (copy dst src).length = dst.length := by
  simp [copy]; omega

theorem length_copyAt (dst : List Byte) (off : Nat) (src : List Byte) :
    (copyAt dst off src).length = dst.length := by
  simp [copyAt, length_copy]; omega

theorem length_evpDigest (h : MD5) (pw : GoString) (i : Nat) :
    (evpDigest h pw i).length = 16 := by
  cases i <;> simp [evpDigest, h.size_eq]

theorem length_evpStream (h : MD5) (pw : GoString) (n : Nat) :
    (evpStream h pw n).length = 16 * n := by
  induction n with
  | zero => simp [evpStream]
  | succ n ih => simp [evpStream, ih, length_evpDigest]; omega

theorem evpStream_take_of_le (h : MD5) (pw : GoString) (k : Nat) :
    ∀ n m, n ≤ m → k ≤ 16 * n → (evpStream h pw m).take k = (evpStream h pw n).take k := by
  intro n m hnm hk
  induction m with
  | zero =>
    have : n = 0 := by omega
    subst this; rfl
  | succ m ih =>
    rcases Nat.lt_or_ge n (m + 1) with hlt | hge
    · have hm : k ≤ (evpStream h pw m).length := by
        rw [length_evpStream]; omega
      rw [evpStream, List.take_append_of_le_length hm]
      exact ih (by omega)
    · have : n = m + 1 := by omega
      subst this; rfl

/-- One pass of the loop body appends the next digest to the filled prefix. -/
theorem evpLoop_spec (h : MD5) (pw : GoString) (k : Nat) :
    ∀ (j : Nat) (d z : List Byte), d.length = 16 + pw.length → 16 * k ≤ z.length →
      evpLoop h pw k (16 * j) d (evpStream h pw (j + 1) ++ z)
        = evpStream h pw (j + 1 + k) ++ z.drop (16 * k) := by
  induction k with
  | zero => intro j d z _ _; simp [evpLoop]
  | succ k ih =>
    intro j d z hd hz
    have hS : (evpStream h pw (j + 1)).length = 16 * j + 16 := by
      rw [length_evpStream]; omega
    have hj : (evpStream h pw j).length = 16 * j := length_evpStream h pw j
    have hD : (evpDigest h pw j).length = 16 := length_evpDigest h pw j
    -- the previous digest, read back from `m`
    have hprev : sliceRaw (evpStream h pw (j + 1) ++ z) (16 * j + md5Len - md5Len)
        (16 * j + md5Len) = evpDigest h pw j := by
      simp only [sliceRaw, md5Len, Nat.add_sub_cancel]
      rw [List.take_append_of_le_length (by omega), List.take_of_length_le (by omega)]
      rw [evpStream, List.drop_append_of_le_length (by omega), List.drop_of_length_le (by omega)]
      simp
    -- the scratch buffer `d` after both copies
    have hd1 : copyAt (copy d (evpDigest h pw j)) md5Len pw = evpDigest h pw j ++ pw := by
      rw [copy_of_length_le _ _ (by omega)]
      simp only [copyAt, md5Len]
      rw [List.take_append_of_le_length (by omega), List.take_of_length_le (by omega)]
      rw [List.drop_append_of_le_length (by omega), List.drop_of_length_le (by omega)]
      simp only [List.nil_append, hD]
      rw [copy_of_length_le _ _ (by simp; omega)]
      rw [List.drop_of_length_le (by simp; omega)]
      simp
    have hd2 : (copyAt (copy d (evpDigest h pw j)) md5Len pw).length = 16 + pw.length := by
      rw [length_copyAt, length_copy]; exact hd
    -- the new digest written into `m`
    have hm : copyAt (evpStream h pw (j + 1) ++ z) (16 * j + md5Len)
        (md5sum h (evpDigest h pw j ++ pw))
          = evpStream h pw (j + 1 + 1) ++ z.drop 16 := by
      have hn : (md5sum h (evpDigest h pw j ++ pw)).length = 16 := h.size_eq _
      simp only [copyAt, md5Len]
      rw [List.take_append_of_le_length (by omega), List.take_of_length_le (by omega)]
      rw [List.drop_append_of_le_length (by omega), List.drop_of_length_le (by omega)]
      simp only [List.nil_append]
      rw [copy_of_length_le _ _ (by omega), hn]
      have : evpStream h pw (j + 1 + 1)
          = evpStream h pw (j + 1) ++ h.sum (evpDigest h pw j ++ pw) := by
        simp [evpStream, evpDigest]
      rw [this]; simp [md5sum]
    simp only [evpLoop]
    rw [hprev, hd1, hm]
    have hstart : 16 * j + md5Len = 16 * (j + 1) := by simp [md5Len]; omega
    rw [hstart, ← hd1]
    rw [ih (j + 1) _ (z.drop 16) hd2 (by simp; omega)]
    rw [List.drop_drop]
    have e1 : j + 1 + 1 + k = j + 1 + (k + 1) := by omega
    have e2 : 16 + 16 * k = 16 * (k + 1) := by omega
    rw [e1, e2]

theorem evpCnt_eq (keyLen : Nat) : evpCnt keyLen = keyLen / 16 + 1 := by
  simp [evpCnt, md5Len]

/-- The key is the `keyLen`-byte prefix of the `cnt` digests the loop fills. -/
theorem evpBytesToKey_eq (h : MD5) (pw : GoString) (keyLen : Nat) :
    evpBytesToKey h pw keyLen = (evpStream h pw (keyLen / 16 + 1)).take keyLen := by
  have hsum : (md5sum h pw).length = 16 := h.size_eq _
  have h0 : copy (make ((keyLen / 16 + 1) * md5Len)) (md5sum h pw)
      = evpStream h pw (0 + 1) ++ make (16 * (keyLen / 16)) := by
    rw [copy_of_length_le _ _ (by simp [length_make, md5Len]; omega)]
    simp [evpStream, evpDigest, md5sum, make, md5Len, hsum]
    have := h.size_eq pw
    omega
  unfold evpBytesToKey
  simp only [evpCnt_eq, Nat.add_sub_cancel]
  rw [h0]
  have := evpLoop_spec h pw (keyLen / 16) 0 (make (md5Len + pw.length))
    (make (16 * (keyLen / 16))) (by simp [length_make, md5Len]) (by simp [length_make])
  simp only [Nat.mul_zero] at this
  rw [this]
  simp only [sliceRaw, List.drop_zero]
  rw [List.take_append_of_le_length (by rw [length_evpStream]; omega)]
  congr 2
  omega


/-! ### Lemmas on readers -/

theorem bytes_nil : Reader.bytes [] = [] := rfl
theorem bytes_cons (c : List Byte) (r : Reader) : Reader.bytes (c :: r) = c ++ Reader.bytes r := by
  simp [Reader.bytes]

theorem copyAt_fit (buf : List Byte) (n : Nat) (c : List Byte) (h : n + c.length ≤ buf.length) :
    copyAt buf n c = buf.take n ++ c ++ buf.drop (n + c.length) := by
  have hc : c.length ≤ (buf.drop n).length := by simp; omega
  rw [copyAt, copy_of_length_le _ _ hc, List.drop_drop, List.append_assoc]

theorem copyAt_over (buf : List Byte) (n : Nat) (c : List Byte) (hn : n ≤ buf.length)
    (h : buf.length - n < c.length) :
    copyAt buf n c = buf.take n ++ c.take (buf.length - n) := by
  simp [copyAt, copy]
  omega

theorem readLoop_spec (min : Nat) : ∀ (r : Reader) (buf : List Byte) (n : Nat),
    n ≤ buf.length → min ≤ buf.length →
      n ≤ (readLoop min r buf n).n ∧ (readLoop min r buf n).n ≤ buf.length ∧
      (readLoop min r buf n).n - n ≤ r.bytes.length ∧
      (readLoop min r buf n).buf
        = buf.take n ++ r.bytes.take ((readLoop min r buf n).n - n)
            ++ buf.drop (readLoop min r buf n).n ∧
      (readLoop min r buf n).rd.bytes = r.bytes.drop ((readLoop min r buf n).n - n) ∧
      ((readLoop min r buf n).err = none ↔ min ≤ (readLoop min r buf n).n) ∧
      (min ≤ n + r.bytes.length → min ≤ (readLoop min r buf n).n) ∧
      ((readLoop min r buf n).err ≠ none →
        (readLoop min r buf n).n = n + r.bytes.length ∧ (readLoop min r buf n).rd = []) := by
  intro r
  induction r with
  | nil =>
    intro buf n hn hmin
    by_cases hlt : n < min
    · simp [readLoop, hlt, bytes_nil, hn]
    · simp [readLoop, hlt, bytes_nil, hn]; omega
  | cons c rest ih =>
    intro buf n hn hmin
    by_cases hlt : n < min
    · by_cases hfit : c.length ≤ buf.length - n
      · have hlen : (copyAt buf n c).length = buf.length := length_copyAt _ _ _
        have := ih (copyAt buf n c) (n + c.length) (by rw [hlen]; omega) (by rw [hlen]; exact hmin)
        simp only [readLoop, hlt, hfit, if_true]
        obtain ⟨h1, h2, h3, h4, h5, h6, h7, h8⟩ := this
        generalize readLoop min rest (copyAt buf n c) (n + c.length) = res at *
        rw [hlen] at h2
        obtain ⟨k, hk⟩ : ∃ k, res.n = n + c.length + k := ⟨res.n - (n + c.length), by omega⟩
        have e1 : n + c.length + k - n = c.length + k := by omega
        have e2 : n + c.length + k - (n + c.length) = k := by omega
        have hP : (buf.take n ++ c).length = n + c.length := by simp; omega
        rw [hk] at h2 h3 h4 h5 h6 h7 h8 ⊢
        rw [e2] at h3 h4 h5
        rw [e1, bytes_cons, List.take_append, List.drop_append, List.length_append]
        refine ⟨by omega, h2, by omega, ?_, h5, h6, ?_, ?_⟩
        · rw [h4, copyAt_fit buf n c (by omega), List.take_left' hP]
          rw [← hP, List.drop_append, List.drop_drop, hP]
          simp [List.append_assoc]
        · intro hm; apply h7; omega
        · intro he; have := h8 he
          exact ⟨by omega, this.2⟩
      · simp only [readLoop, hlt, hfit, if_true, if_false]
        have hk : buf.length - n ≤ c.length := by omega
        refine ⟨hn, le_refl _, ?_, ?_, ?_, ?_, ?_, ?_⟩
        · rw [bytes_cons, List.length_append]; omega
        · rw [copyAt_over buf n c hn (by omega), bytes_cons,
            List.take_append_of_le_length hk]
          simp
        · rw [bytes_cons, bytes_cons, List.drop_append_of_le_length hk]
        · simp; exact hmin
        · intro _; exact hmin
        · simp
    · simp [readLoop, hlt, bytes_cons, hn]
      omega

theorem readAtLeast_spec (r : Reader) (buf : List Byte) (min : Nat) (hmin : min ≤ buf.length) :
    (readAtLeast r buf min).n ≤ buf.length ∧
    (readAtLeast r buf min).n ≤ r.bytes.length ∧
    (readAtLeast r buf min).buf
      = r.bytes.take (readAtLeast r buf min).n ++ buf.drop (readAtLeast r buf min).n ∧
    (readAtLeast r buf min).rd.bytes = r.bytes.drop (readAtLeast r buf min).n ∧
    ((readAtLeast r buf min).err = none ↔ min ≤ (readAtLeast r buf min).n) ∧
    (min ≤ r.bytes.length → min ≤ (readAtLeast r buf min).n) ∧
    ((readAtLeast r buf min).err ≠ none →
      (readAtLeast r buf min).n = r.bytes.length ∧ (readAtLeast r buf min).rd = []) := by
  have hnot : ¬ buf.length < min := by omega
  have := readLoop_spec min r buf 0 (Nat.zero_le _) hmin
  simp only [readAtLeast, hnot, if_false]
  simpa using this

theorem readFullAt_spec (r : Reader) (buf : List Byte) (lo hi : Nat) (h1 : lo ≤ hi)
    (h2 : hi ≤ buf.length) :
    ∃ res, readFullAt r buf lo hi = some res ∧
      (res.err = none ↔ hi - lo ≤ r.bytes.length) ∧
      (res.err = none →
        res.buf = buf.take lo ++ r.bytes.take (hi - lo) ++ buf.drop hi ∧
        res.rd.bytes = r.bytes.drop (hi - lo)) ∧
      (res.err ≠ none → res.rd = []) := by
  have hsl : slice buf lo hi = some (sliceRaw buf lo hi) := by simp [slice, h1, h2]
  have hlen : (sliceRaw buf lo hi).length = hi - lo := by
    simp [sliceRaw]; omega
  have hrf : readFull r (sliceRaw buf lo hi) = readAtLeast r (sliceRaw buf lo hi) (hi - lo) := by
    rw [readFull, hlen]
  obtain ⟨a1, a2, a3, a4, a5, a6, a7⟩ :=
    readAtLeast_spec r (sliceRaw buf lo hi) (hi - lo) (by omega)
  rw [hlen] at a1
  refine ⟨_, by simp only [readFullAt, hsl]; rfl, ?_, ?_, ?_⟩
  · show (readFull r (sliceRaw buf lo hi)).err = none ↔ _
    rw [hrf, a5]
    constructor
    · intro h; omega
    · intro h; exact a6 h
  · intro he
    change (readFull r (sliceRaw buf lo hi)).err = none at he
    show _ ++ (readFull r (sliceRaw buf lo hi)).buf ++ _ = _ ∧
      (readFull r (sliceRaw buf lo hi)).rd.bytes = _
    rw [hrf] at he ⊢
    have hn : (readAtLeast r (sliceRaw buf lo hi) (hi - lo)).n = hi - lo := by
      have := a5.1 he; omega
    rw [a3, a4, hn]
    rw [List.drop_of_length_le (by omega)]
    simp
  · intro he
    change (readFull r (sliceRaw buf lo hi)).err ≠ none at he
    show (readFull r (sliceRaw buf lo hi)).rd = []
    rw [hrf] at he ⊢
    exact (a7 he).2

/-! ### The local `getRequest` -/

theorem make_drop (n k : Nat) : (make n).drop k = make (n - k) := by
  simp [make]

theorem byteAt_append_left (a b : List Byte) (i : Nat) (h : i < a.length) :
    byteAt (a ++ b) i = byteAt a i := by
  simp [byteAt, List.getD_eq_getElem?_getD, List.getElem?_append_left h]

theorem byteAt_take (s : List Byte) (n i : Nat) (h : i < n) :
    byteAt (s.take n) i = byteAt s i := by
  simp [byteAt, List.getD_eq_getElem?_getD, List.getElem?_take, h]

theorem byteAt_drop (l : List Byte) (k i : Nat) : byteAt (l.drop k) i = byteAt l (k + i) := by
  simp [byteAt, List.getD_eq_getElem?_getD]

theorem byteAt_take_append (s z : List Byte) (n i : Nat) (h : i < n) (hn : n ≤ s.length) :
    byteAt (s.take n ++ z) i = byteAt s i := by
  rw [byteAt_append_left _ _ _ (by simp; omega), byteAt_take _ _ _ h]

theorem take_append_take_drop (s : List Byte) (a b : Nat) (h : a ≤ b) :
    s.take a ++ (s.drop a).take (b - a) = s.take b := by
  have : b = a + (b - a) := by omega
  conv => rhs; rw [this, List.take_add]

theorem sliceRaw_take_append (s z : List Byte) (lo hi : Nat) (hhi : hi ≤ s.length) :
    sliceRaw (s.take hi ++ z) lo hi = (s.take hi).drop lo := by
  simp [sliceRaw, List.take_append_eq_append_take, hhi]


namespace Client

/-- Unfolding of `getRequest` after its first read, with the result of that read named. -/
theorem getRequest_eq (ip : List Byte → GoString) (conn : Conn) (r : ReadResult)
    (hr : readAtLeast conn.rd (make 262) 5 = r) :
    getRequest ip conn =
      if r.err.isSome then some (⟨none, [], r.err⟩, ⟨r.rd, conn.wr, conn.wout⟩) else
      if byteAt r.buf 0 ≠ 5 then some (⟨none, [], some Err.errVer⟩, ⟨r.rd, conn.wr, conn.wout⟩) else
      if byteAt r.buf 1 ≠ 1 then some (⟨none, [], some Err.errCmd⟩, ⟨r.rd, conn.wr, conn.wout⟩) else
      match reqLenOf r.buf with
      | none => some (⟨none, [], some Err.errAddrType⟩, ⟨r.rd, conn.wr, conn.wout⟩)
      | some reqLen =>
        if reqLen = r.n then finish ip r.buf reqLen ⟨r.rd, conn.wr, conn.wout⟩
        else if reqLen > r.n then
          match readFullAt r.rd r.buf r.n reqLen with
          | none => none
          | some r2 =>
            if r2.err.isSome then some (⟨none, [], r2.err⟩, ⟨r2.rd, conn.wr, conn.wout⟩)
            else finish ip r2.buf reqLen ⟨r2.rd, conn.wr, conn.wout⟩
        else some (⟨none, [], some Err.errReqExtraData⟩, ⟨r.rd, conn.wr, conn.wout⟩) := by
  subst hr
  rfl

theorem getRequest_errVer (ip : List Byte → GoString) (conn : Conn) (r : ReadResult)
    (hr : readAtLeast conn.rd (make 262) 5 = r) (h0 : r.err = none)
    (h1 : byteAt r.buf 0 ≠ 5) :
    getRequest ip conn = some (⟨none, [], some Err.errVer⟩, ⟨r.rd, conn.wr, conn.wout⟩) := by
  rw [getRequest_eq ip conn r hr, h0, if_neg (by simp), if_pos h1]

theorem getRequest_errCmd (ip : List Byte → GoString) (conn : Conn) (r : ReadResult)
    (hr : readAtLeast conn.rd (make 262) 5 = r) (h0 : r.err = none)
    (h1 : byteAt r.buf 0 = 5) (h2 : byteAt r.buf 1 ≠ 1) :
    getRequest ip conn = some (⟨none, [], some Err.errCmd⟩, ⟨r.rd, conn.wr, conn.wout⟩) := by
  rw [getRequest_eq ip conn r hr, h0, if_neg (by simp), if_neg (by simp [h1]), if_pos h2]

theorem getRequest_errAddrType (ip : List Byte → GoString) (conn : Conn) (r : ReadResult)
    (hr : readAtLeast conn.rd (make 262) 5 = r) (h0 : r.err = none)
    (h1 : byteAt r.buf 0 = 5) (h2 : byteAt r.buf 1 = 1) (h3 : reqLenOf r.buf = none) :
    getRequest ip conn = some (⟨none, [], some Err.errAddrType⟩, ⟨r.rd, conn.wr, conn.wout⟩) := by
  rw [getRequest_eq ip conn r hr, h0, if_neg (by simp), if_neg (by simp [h1]),
    if_neg (by simp [h2]), h3]

theorem getRequest_errReqExtraData (ip : List Byte → GoString) (conn : Conn) (r : ReadResult)
    (reqLen : Nat)
    (hr : readAtLeast conn.rd (make 262) 5 = r) (h0 : r.err = none)
    (h1 : byteAt r.buf 0 = 5) (h2 : byteAt r.buf 1 = 1) (h3 : reqLenOf r.buf = some reqLen)
    (h4 : reqLen < r.n) :
    getRequest ip conn = some (⟨none, [], some Err.errReqExtraData⟩, ⟨r.rd, conn.wr, conn.wout⟩) := by
  rw [getRequest_eq ip conn r hr, h0, if_neg (by simp), if_neg (by simp [h1]),
    if_neg (by simp [h2]), h3]
  simp only []
  rw [if_neg (by omega), if_neg (by omega)]

theorem reqLenOf_le (buf : List Byte) (reqLen : Nat) (h : reqLenOf buf = some reqLen) :
    7 ≤ reqLen ∧ reqLen ≤ 262 := by
  unfold reqLenOf at h
  have := (byteAt buf idDmLen).isLt
  simp only [lenIPv4, lenIPv6, lenDmBase, IPv4len, IPv6len] at h
  split at h
  · cases h; omega
  · split at h
    · cases h; omega
    · split at h
      · cases h; omega
      · cases h

theorem finish_inv (ip : List Byte → GoString) (buf : List Byte) (reqLen : Nat) (con : Conn)
    (req : Request) (con' : Conn) (h : finish ip buf reqLen con = some (req, con')) :
    3 ≤ reqLen ∧ reqLen ≤ buf.length ∧ con' = con ∧ req.err = none ∧
    req.rawAddress = some (sliceRaw buf 3 reqLen) ∧
    ∃ host, hostOf ip buf = some host ∧
      req.address = joinHostPort host (itoa (beUint16 (sliceRaw buf (reqLen - 2) reqLen))) := by
  unfold finish at h
  cases h1 : slice buf idAtyp reqLen with
  | none => simp [h1] at h
  | some raw =>
    cases h2 : hostOf ip buf with
    | none => simp [h1, h2] at h
    | some host =>
      cases h3 : slice buf (reqLen - 2) reqLen with
      | none => simp [h1, h2, h3] at h
      | some pb =>
        simp only [h1, h2, h3, Option.some.injEq, Prod.mk.injEq] at h
        obtain ⟨hreq, hcon⟩ := h
        unfold slice at h1 h3
        simp only [idAtyp] at h1
        split at h1
        · rename_i hb
          split at h3
          · cases h1; cases h3
            subst hreq
            exact ⟨hb.1, hb.2, hcon.symm, rfl, rfl, host, rfl, rfl⟩
          · cases h3
        · cases h1


/-- The first read of `getRequest`, in terms of the bytes of the stream. -/
theorem firstRead_spec (rd : Reader) (r : ReadResult) (N min : Nat) (hmin : min ≤ N)
    (hr : readAtLeast rd (make N) min = r) (h0 : r.err = none) :
    min ≤ r.n ∧ r.n ≤ N ∧ r.n ≤ rd.bytes.length ∧
    r.buf = rd.bytes.take r.n ++ make (N - r.n) ∧ r.rd.bytes = rd.bytes.drop r.n := by
  obtain ⟨a1, a2, a3, a4, a5, a6, a7⟩ := readAtLeast_spec rd (make N) min (by simp [length_make, hmin])
  rw [hr] at a1 a2 a3 a4 a5
  rw [length_make] at a1
  rw [make_drop] at a3
  exact ⟨a5.1 h0, a1, a2, a3, a4⟩

theorem getRequest_run (ip : List Byte → GoString) (conn : Conn) (r : ReadResult)
    (reqLen : Nat)
    (hr : readAtLeast conn.rd (make 262) 5 = r) (h0 : r.err = none)
    (h1 : byteAt r.buf 0 = 5) (h2 : byteAt r.buf 1 = 1) (h3 : reqLenOf r.buf = some reqLen)
    (h4 : r.n ≤ reqLen) :
    (reqLen ≤ conn.rd.bytes.length →
      ∃ rd', rd'.bytes = conn.rd.bytes.drop reqLen ∧
        getRequest ip conn
          = finish ip (conn.rd.bytes.take reqLen ++ make (262 - reqLen)) reqLen ⟨rd', conn.wr, conn.wout⟩) ∧
    (conn.rd.bytes.length < reqLen →
      ∃ e, getRequest ip conn = some (⟨none, [], some e⟩, ⟨[], conn.wr, conn.wout⟩)) := by
  obtain ⟨b1, b2, b3, b4, b5⟩ := firstRead_spec conn.rd r 262 5 (by omega) hr h0
  obtain ⟨c1, c2⟩ := reqLenOf_le _ _ h3
  have hbl : r.buf.length = 262 := by rw [b4]; simp [length_make]; omega
  rw [getRequest_eq ip conn r hr, h0, if_neg (by simp), if_neg (by simp [h1]),
    if_neg (by simp [h2]), h3]
  simp only []
  rcases Nat.eq_or_lt_of_le h4 with heq | hlt
  · rw [if_pos heq.symm]
    constructor
    · intro _
      exact ⟨r.rd, by rw [b5, heq], by rw [b4, heq]⟩
    · intro hs; omega
  · rw [if_neg (by omega), if_pos (by omega)]
    obtain ⟨res, e1, e2, e3, e4⟩ := readFullAt_spec r.rd r.buf r.n reqLen h4 (by omega)
    rw [e1]
    simp only []
    have hrl : r.rd.bytes.length = conn.rd.bytes.length - r.n := by rw [b5]; simp
    constructor
    · intro hs
      have he : res.err = none := e2.2 (by omega)
      obtain ⟨f1, f2⟩ := e3 he
      rw [he, if_neg (by simp)]
      have hbuf : res.buf = conn.rd.bytes.take reqLen ++ make (262 - reqLen) := by
        rw [f1, b4, b5]
        rw [List.take_left' (by simp; omega)]
        rw [take_append_take_drop _ _ _ h4]
        have hl : reqLen = (conn.rd.bytes.take r.n).length + (reqLen - r.n) := by simp; omega
        have hm : 262 - r.n - (reqLen - r.n) = 262 - reqLen := by omega
        conv => lhs; rw [hl, List.drop_append, make_drop, hm]
        rw [← hl]
      refine ⟨res.rd, ?_, by rw [hbuf]⟩
      rw [f2, b5]
      simp only [List.drop_drop, Nat.add_sub_of_le h4, Nat.sub_add_cancel h4]
    · intro hs
      have he : res.err ≠ none := fun h => by have := e2.1 h; omega
      cases hres : res.err with
      | none => exact absurd hres he
      | some e =>
        refine ⟨e, ?_⟩
        rw [if_pos (by simp), e4 he]

/-- Every accepted request, traced back to the bytes of the stream. -/
theorem getRequest_ok_inv (ip : List Byte → GoString) (conn : Conn) (req : Request)
    (conn' : Conn) (h : getRequest ip conn = some (req, conn')) (hok : req.err = none) :
    ∃ reqLen, reqLen ≤ conn.rd.bytes.length ∧
      reqLenOf conn.rd.bytes = some reqLen ∧
      byteAt conn.rd.bytes 0 = 5 ∧ byteAt conn.rd.bytes 1 = 1 ∧
      conn'.rd.bytes = conn.rd.bytes.drop reqLen ∧ conn'.wr = conn.wr ∧
      finish ip (conn.rd.bytes.take reqLen ++ make (262 - reqLen)) reqLen conn'
        = some (req, conn') := by
  generalize hr : readAtLeast conn.rd (make 262) 5 = r
  by_cases h0 : r.err = none
  swap
  · rw [getRequest_eq ip conn r hr, if_pos (by cases h : r.err <;> simp_all)] at h
    cases h; exact absurd hok h0
  obtain ⟨b1, b2, b3, b4, b5⟩ := firstRead_spec conn.rd r 262 5 (by omega) hr h0
  have hb : ∀ i, i < 5 → byteAt r.buf i = byteAt conn.rd.bytes i := by
    intro i hi; rw [b4]; exact byteAt_take_append _ _ _ _ (by omega) b3
  have hrl : reqLenOf r.buf = reqLenOf conn.rd.bytes := by
    simp only [reqLenOf, idAtyp, idDmLen, hb 3 (by omega), hb 4 (by omega)]
  by_cases h1 : byteAt r.buf 0 = 5
  swap
  · rw [getRequest_errVer ip conn r hr h0 h1] at h
    cases h; cases hok
  by_cases h2 : byteAt r.buf 1 = 1
  swap
  · rw [getRequest_errCmd ip conn r hr h0 h1 h2] at h
    cases h; cases hok
  cases h3 : reqLenOf r.buf with
  | none =>
    rw [getRequest_errAddrType ip conn r hr h0 h1 h2 h3] at h
    cases h; cases hok
  | some reqLen =>
    rcases Nat.lt_or_ge reqLen r.n with h4 | h4
    · rw [getRequest_errReqExtraData ip conn r reqLen hr h0 h1 h2 h3 h4] at h
      cases h; cases hok
    · obtain ⟨g1, g2⟩ := getRequest_run ip conn r reqLen hr h0 h1 h2 h3 h4
      rcases Nat.lt_or_ge conn.rd.bytes.length reqLen with hs | hs
      · obtain ⟨e, he⟩ := g2 hs
        rw [he] at h; cases h; cases hok
      · obtain ⟨rd', hrd, hg⟩ := g1 hs
        rw [hg] at h
        have hc := (finish_inv ip _ _ _ _ _ h).2.2.1
        refine ⟨reqLen, hs, by rw [← hrl, h3], by rw [← hb 0 (by omega), h1],
          by rw [← hb 1 (by omega), h2], by rw [hc]; exact hrd, by rw [hc], ?_⟩
        rw [hc]; rw [hc] at h; exact h

end Client

/-! ### The remote `getRequest` -/

theorem readFullAt_extend (t : List Byte) (N k k' : Nat) (rd : Reader) (hk : k ≤ k')
    (hk' : k' ≤ N) (hrd : rd.bytes = t.drop k) (hkt : k ≤ t.length) :
    ∃ res, readFullAt rd (t.take k ++ make (N - k)) k k' = some res ∧
      (k' ≤ t.length → res.err = none ∧ res.buf = t.take k' ++ make (N - k') ∧
        res.rd.bytes = t.drop k') ∧
      (t.length < k' → res.err ≠ none ∧ res.rd = []) := by
  have hbl : (t.take k ++ make (N - k)).length = N := by simp [length_make]; omega
  obtain ⟨res, e1, e2, e3, e4⟩ := readFullAt_spec rd (t.take k ++ make (N - k)) k k' hk
    (by omega)
  have hrl : rd.bytes.length = t.length - k := by rw [hrd]; simp
  refine ⟨res, e1, ?_, ?_⟩
  · intro hs
    have he : res.err = none := e2.2 (by omega)
    obtain ⟨f1, f2⟩ := e3 he
    refine ⟨he, ?_, ?_⟩
    · rw [f1, hrd]
      rw [List.take_left' (by simp; omega)]
      rw [take_append_take_drop _ _ _ hk]
      have hl : k' = (t.take k).length + (k' - k) := by simp; omega
      have hm : N - k - (k' - k) = N - k' := by omega
      conv => lhs; rw [hl, List.drop_append, make_drop, hm]
      rw [← hl]
    · rw [f2, hrd]
      simp only [List.drop_drop, Nat.add_sub_of_le hk, Nat.sub_add_cancel hk]
  · intro hs
    have he : res.err ≠ none := fun h => by have := e2.1 h; omega
    exact ⟨he, e4 he⟩

theorem sliceRaw_of_take_append (t z : List Byte) (n lo hi : Nat) (h1 : hi ≤ n)
    (h2 : n ≤ t.length) : sliceRaw (t.take n ++ z) lo hi = sliceRaw t lo hi := by
  simp only [sliceRaw]
  rw [List.take_append_of_le_length (by simp; omega), List.take_take, Nat.min_eq_left h1]

theorem slice_of_take_append (t z : List Byte) (n lo hi : Nat) (h0 : lo ≤ hi) (h1 : hi ≤ n)
    (h2 : n ≤ t.length) : slice (t.take n ++ z) lo hi = some (sliceRaw t lo hi) := by
  have : hi ≤ (t.take n ++ z).length := by simp; omega
  simp only [slice, h0, this, and_self, if_true, sliceRaw_of_take_append t z n lo hi h1 h2]

theorem byteAt_sliceRaw (t : List Byte) (lo hi i : Nat) (h : lo + i < hi) :
    byteAt (sliceRaw t lo hi) i = byteAt t (lo + i) := by
  rw [sliceRaw, byteAt_drop, byteAt_take _ _ _ h]

theorem beUint16_eq (t : List Byte) (lo hi : Nat) (h : lo + 2 ≤ hi) :
    beUint16 (sliceRaw t lo hi) = 256 * (byteAt t lo).val + (byteAt t (lo + 1)).val := by
  rw [beUint16, byteAt_sliceRaw _ _ _ _ (by omega), byteAt_sliceRaw _ _ _ _ (by omega)]
  have hlt : (byteAt t (lo + 1)).val < 2 ^ 8 := (byteAt t (lo + 1)).isLt
  rw [Nat.add_zero, Nat.lor_comm, Nat.shiftLeft_eq, Nat.mul_comm,
    ← Nat.mul_add_lt_is_or hlt]
  simp


namespace Server

/-- The remote `getRequest` after its first read, with the result of that read
named. -/
theorem remote_getRequest_eq (ip : List Byte → GoString) (conn : Reader) (r : ReadResult)
    (hr : readFullAt conn (make 259) 0 1 = some r) :
    getRequest ip conn =
      if r.err.isSome then some ⟨[], r.err, r.rd⟩
      else if byteAt r.buf 0 = 1 then finish ip r.rd r.buf (byteAt r.buf 0) 1 7
      else if byteAt r.buf 0 = 4 then finish ip r.rd r.buf (byteAt r.buf 0) 1 19
      else if byteAt r.buf 0 = 3 then
        match readFullAt r.rd r.buf 1 2 with
        | none => none
        | some r1 =>
          if r1.err.isSome then some ⟨[], r1.err, r1.rd⟩
          else finish ip r1.rd r1.buf (byteAt r.buf 0) 2 (2 + (byteAt r1.buf 1).val + 2)
      else some ⟨[], some (Err.addrTypeNotSupported (byteAt r.buf 0)), r.rd⟩ := by
  have hr' : readFullAt conn (make 259) 0 (idType + 1) = some r := hr
  unfold getRequest
  simp only [hr']
  all_goals rfl

/-- The tail of the remote `getRequest` on a buffer that holds the first `k`
bytes of the stream `t`, when the stream supplies the `reqEnd` bytes. -/
theorem remote_finish_ok (ip : List Byte → GoString) (t : List Byte) (rd : Reader) (ty : Byte)
    (k reqEnd : Nat) (hk : k ≤ reqEnd) (h2 : 2 ≤ reqEnd) (hN : reqEnd ≤ 259)
    (hrd : rd.bytes = t.drop k) (hkt : k ≤ t.length) (hlen : reqEnd ≤ t.length) :
    ∃ rd', rd'.bytes = t.drop reqEnd ∧
      finish ip rd (t.take k ++ make (259 - k)) ty k reqEnd =
        match hostOf ip (t.take reqEnd ++ make (259 - reqEnd)) ty with
        | none => none
        | some host =>
          some ⟨joinHostPort host
            (itoa (256 * (byteAt t (reqEnd - 2)).val + (byteAt t (reqEnd - 2 + 1)).val)),
            none, rd'⟩ := by
  obtain ⟨res, e1, e2, -⟩ := readFullAt_extend t 259 k reqEnd rd hk hN hrd hkt
  obtain ⟨f1, f2, f3⟩ := e2 hlen
  refine ⟨res.rd, f3, ?_⟩
  simp only [finish, e1, f1, if_neg (by simp : ¬ (none : Option Err).isSome = true), f2]
  rw [slice_of_take_append t _ reqEnd (reqEnd - 2) reqEnd (by omega) (le_refl _) hlen]
  simp only [beUint16_eq t (reqEnd - 2) reqEnd (by omega)]

/-- The tail of the remote `getRequest` when the stream ends early. -/
theorem remote_finish_short (ip : List Byte → GoString) (t : List Byte) (rd : Reader) (ty : Byte)
    (k reqEnd : Nat) (hk : k ≤ reqEnd) (hN : reqEnd ≤ 259)
    (hrd : rd.bytes = t.drop k) (hkt : k ≤ t.length) (hlen : t.length < reqEnd) :
    ∃ e, finish ip rd (t.take k ++ make (259 - k)) ty k reqEnd = some ⟨[], some e, []⟩ := by
  obtain ⟨res, e1, -, e3⟩ := readFullAt_extend t 259 k reqEnd rd hk hN hrd hkt
  obtain ⟨f1, f2⟩ := e3 hlen
  cases he : res.err with
  | none => exact absurd he f1
  | some e =>
    refine ⟨e, ?_⟩
    simp only [finish, e1, he, f2]
    rfl


/-- The first read of the remote `getRequest`. -/
theorem remote_first (conn : Reader) :
    ∃ r, readFullAt conn (make 259) 0 1 = some r ∧
      (1 ≤ conn.bytes.length → r.err = none ∧ r.buf = conn.bytes.take 1 ++ make (259 - 1) ∧
        r.rd.bytes = conn.bytes.drop 1 ∧ byteAt r.buf 0 = byteAt conn.bytes 0) ∧
      (conn.bytes.length < 1 → r.err ≠ none ∧ r.rd = []) := by
  obtain ⟨r, e1, e2, e3⟩ := readFullAt_extend conn.bytes 259 0 1 conn (by omega) (by omega) rfl
    (by omega)
  refine ⟨r, e1, ?_, e3⟩
  intro h
  obtain ⟨f1, f2, f3⟩ := e2 h
  exact ⟨f1, f2, f3, by rw [f2]; exact byteAt_take_append _ _ _ _ (by omega) h⟩

theorem remote_empty (ip : List Byte → GoString) (conn : Reader) (h : conn.bytes.length < 1) :
    ∃ e, getRequest ip conn = some ⟨[], some e, []⟩ := by
  obtain ⟨r, e1, -, e3⟩ := remote_first conn
  obtain ⟨f1, f2⟩ := e3 h
  cases he : r.err with
  | none => exact absurd he f1
  | some e =>
    refine ⟨e, ?_⟩
    rw [remote_getRequest_eq ip conn r e1, he, f2]
    rfl

theorem remote_ipv4 (ip : List Byte → GoString) (conn : Reader)
    (h0 : byteAt conn.bytes 0 = 1) (h1 : 1 ≤ conn.bytes.length) :
    (7 ≤ conn.bytes.length → ∃ rd', rd'.bytes = conn.bytes.drop 7 ∧
      getRequest ip conn = some ⟨joinHostPort (ip (sliceRaw conn.bytes 1 5))
        (itoa (256 * (byteAt conn.bytes 5).val + (byteAt conn.bytes 6).val)), none, rd'⟩) ∧
    (conn.bytes.length < 7 → ∃ e, getRequest ip conn = some ⟨[], some e, []⟩) := by
  obtain ⟨r, e1, e2, -⟩ := remote_first conn
  obtain ⟨f1, f2, f3, f4⟩ := e2 h1
  rw [remote_getRequest_eq ip conn r e1, f1, if_neg (by simp), f4, h0, if_pos rfl, f2]
  constructor
  · intro hlen
    obtain ⟨rd', g1, g2⟩ := remote_finish_ok ip conn.bytes r.rd 1 1 7 (by omega) (by omega)
      (by omega) f3 h1 hlen
    refine ⟨rd', g1, ?_⟩
    rw [g2]
    simp only [hostOf, typeIPv4, if_true, idIP0, Client.IPv4len]
    rw [slice_of_take_append _ _ 7 1 (1 + 4) (by omega) (by omega) hlen]
    rfl
  · intro hlen
    exact remote_finish_short ip conn.bytes r.rd 1 1 7 (by omega) (by omega) f3 h1 hlen

theorem remote_ipv6 (ip : List Byte → GoString) (conn : Reader)
    (h0 : byteAt conn.bytes 0 = 4) (h1 : 1 ≤ conn.bytes.length) :
    (19 ≤ conn.bytes.length → ∃ rd', rd'.bytes = conn.bytes.drop 19 ∧
      getRequest ip conn = some ⟨joinHostPort (ip (sliceRaw conn.bytes 1 17))
        (itoa (256 * (byteAt conn.bytes 17).val + (byteAt conn.bytes 18).val)), none, rd'⟩) ∧
    (conn.bytes.length < 19 → ∃ e, getRequest ip conn = some ⟨[], some e, []⟩) := by
  obtain ⟨r, e1, e2, -⟩ := remote_first conn
  obtain ⟨f1, f2, f3, f4⟩ := e2 h1
  rw [remote_getRequest_eq ip conn r e1, f1, if_neg (by simp), f4, h0, if_neg (by decide),
    if_pos rfl, f2]
  constructor
  · intro hlen
    obtain ⟨rd', g1, g2⟩ := remote_finish_ok ip conn.bytes r.rd 4 1 19 (by omega) (by omega)
      (by omega) f3 h1 hlen
    refine ⟨rd', g1, ?_⟩
    rw [g2]
    simp only [hostOf, typeIPv4, typeIPv6, if_true, idIP0, Client.IPv6len,
      if_neg (by decide : ¬ (4 : Byte) = 1)]
    rw [slice_of_take_append _ _ 19 1 (1 + 16) (by omega) (by omega) hlen]
    rfl
  · intro hlen
    exact remote_finish_short ip conn.bytes r.rd 4 1 19 (by omega) (by omega) f3 h1 hlen

theorem remote_domain (ip : List Byte → GoString) (conn : Reader)
    (h0 : byteAt conn.bytes 0 = 3) (h1 : 1 ≤ conn.bytes.length) :
    (4 + (byteAt conn.bytes 1).val ≤ conn.bytes.length →
      ∃ rd', rd'.bytes = conn.bytes.drop (4 + (byteAt conn.bytes 1).val) ∧
      getRequest ip conn = some ⟨joinHostPort
          (sliceRaw conn.bytes 2 (2 + (byteAt conn.bytes 1).val))
          (itoa (256 * (byteAt conn.bytes (2 + (byteAt conn.bytes 1).val)).val
            + (byteAt conn.bytes (3 + (byteAt conn.bytes 1).val)).val)), none, rd'⟩) ∧
    (conn.bytes.length < 4 + (byteAt conn.bytes 1).val →
      ∃ e, getRequest ip conn = some ⟨[], some e, []⟩) := by
  obtain ⟨r, e1, e2, -⟩ := remote_first conn
  obtain ⟨f1, f2, f3, f4⟩ := e2 h1
  have hL := (byteAt conn.bytes 1).isLt
  rw [remote_getRequest_eq ip conn r e1, f1, if_neg (by simp), f4, h0, if_neg (by decide),
    if_neg (by decide), if_pos rfl, f2]
  obtain ⟨r1, k1, k2, k3⟩ := readFullAt_extend conn.bytes 259 1 2 r.rd (by omega) (by omega) f3 h1
  rw [k1]
  simp only []
  rcases Nat.lt_or_ge conn.bytes.length 2 with hs | hs
  · obtain ⟨m1, m2⟩ := k3 hs
    have hres : ∃ e, (if r1.err.isSome = true then (some ⟨[], r1.err, r1.rd⟩ : Option Decoded)
        else finish ip r1.rd r1.buf 3 2 (2 + (byteAt r1.buf 1).val + 2))
          = some ⟨[], some e, []⟩ := by
      cases he : r1.err with
      | none => exact absurd he m1
      | some e => exact ⟨e, by rw [m2]; rfl⟩
    exact ⟨fun h => by omega, fun _ => hres⟩
  · obtain ⟨m1, m2, m3⟩ := k2 hs
    have hb : byteAt r1.buf 1 = byteAt conn.bytes 1 := by
      rw [m2]; exact byteAt_take_append _ _ _ _ (by omega) hs
    rw [m1, if_neg (by simp), hb, m2]
    have hreq : 2 + (byteAt conn.bytes 1).val + 2 = 4 + (byteAt conn.bytes 1).val := by omega
    rw [hreq]
    constructor
    · intro hlen
      obtain ⟨rd', g1, g2⟩ := remote_finish_ok ip conn.bytes r1.rd 3 2
        (4 + (byteAt conn.bytes 1).val) (by omega) (by omega) (by omega) m3 hs hlen
      refine ⟨rd', g1, ?_⟩
      rw [g2]
      simp only [hostOf, typeIPv4, typeIPv6, typeDm, if_true, idDm0, idDmLen,
        if_neg (by decide : ¬ (3 : Byte) = 1), if_neg (by decide : ¬ (3 : Byte) = 4)]
      rw [byteAt_take_append _ _ _ _ (by omega) hlen]
      rw [slice_of_take_append _ _ _ 2 (2 + (byteAt conn.bytes 1).val) (by omega) (by omega) hlen]
      have i1 : 4 + (byteAt conn.bytes 1).val - 2 = 2 + (byteAt conn.bytes 1).val := by omega
      have i2 : 2 + (byteAt conn.bytes 1).val + 1 = 3 + (byteAt conn.bytes 1).val := by omega
      simp only [i1, i2]
    · intro hlen
      exact remote_finish_short ip conn.bytes r1.rd 3 2 (4 + (byteAt conn.bytes 1).val)
        (by omega) (by omega) m3 hs hlen

theorem remote_badType (ip : List Byte → GoString) (conn : Reader)
    (h1 : 1 ≤ conn.bytes.length) (ha : byteAt conn.bytes 0 ≠ 1) (hb : byteAt conn.bytes 0 ≠ 4)
    (hc : byteAt conn.bytes 0 ≠ 3) :
    ∃ rd', rd'.bytes = conn.bytes.drop 1 ∧
      getRequest ip conn
        = some ⟨[], some (Err.addrTypeNotSupported (byteAt conn.bytes 0)), rd'⟩ := by
  obtain ⟨r, e1, e2, -⟩ := remote_first conn
  obtain ⟨f1, f2, f3, f4⟩ := e2 h1
  refine ⟨r.rd, f3, ?_⟩
  rw [remote_getRequest_eq ip conn r e1, f1, if_neg (by simp), f4, if_neg ha, if_neg hb,
    if_neg hc]

end Server

/-! ### Key derivation -/

/-- C1: for every password and key length, `evpBytesToKey` returns exactly
`keyLen` bytes, the first `keyLen` bytes of `D1 ‖ D2 ‖ …` (of any number `n` of
digests that covers `keyLen`); for "foobar" and 32 that is
`MD5("foobar") ‖ MD5(MD5("foobar") ‖ "foobar")`. -/
theorem evpBytesToKey_derives (h : MD5) (password : GoString) (keyLen : Nat) :
    (evpBytesToKey h password keyLen).length = keyLen ∧
    (∀ n, keyLen ≤ 16 * n →
      evpBytesToKey h password keyLen = (evpStream h password n).take keyLen) ∧
    evpBytesToKey h (str "foobar") 32
      = h.sum (str "foobar") ++ h.sum (h.sum (str "foobar") ++ str "foobar") := by
  refine ⟨?_, ?_, ?_⟩
  · rw [evpBytesToKey_eq, List.length_take, length_evpStream]; omega
  · intro n hn
    rw [evpBytesToKey_eq]
    rcases Nat.le_total n (keyLen / 16 + 1) with hle | hle
    · exact evpStream_take_of_le h password keyLen n _ hle hn
    · exact (evpStream_take_of_le h password keyLen _ n hle (by omega)).symm
  · rw [evpBytesToKey_eq]
    have h1 := h.size_eq (str "foobar")
    have h2 := h.size_eq (h.sum (str "foobar") ++ str "foobar")
    simp only [evpStream, evpDigest, List.nil_append]
    rw [List.append_assoc, ← List.append_assoc (h.sum (str "foobar"))]
    rw [List.take_append_of_le_length (by simp [h1, h2])]
    exact List.take_of_length_le (by simp [h1, h2])

/-- The prefix statement of C1 at the toy digest, key length 24, two digests. -/
theorem evpBytesToKey_derives_witness :
    24 ≤ 16 * 2 ∧
    evpBytesToKey toyMD5 (str "ab") 24 = (evpStream toyMD5 (str "ab") 2).take 24 :=
  ⟨by decide, (evpBytesToKey_derives toyMD5 (str "ab") 24).2.1 2 (by decide)⟩


/-! ### C2: the captured preamble -/

/-- C2: for every request the local `getRequest` accepts, `rawAddress` is the
received request from offset 3 (ATYP) through its last port byte, unchanged:
the request is the first `3 + len(rawAddress)` bytes of the stream, the rest of
the stream is left unread, and the length is 7 (IPv4), 19 (IPv6) or `4 + L`
(domain of length `L`). The two requests of the specification yield
`01 7F 00 00 01 00 50` and `03 0B "example.com" 01 BB`. -/
theorem getRequest_rawAddress (ipString : List Byte → GoString) :
    (∀ (conn : Conn) (req : Client.Request) (conn' : Conn),
      Client.getRequest ipString conn = some (req, conn') → req.err = none →
      ∃ raw, req.rawAddress = some raw ∧
        3 + raw.length ≤ conn.rd.bytes.length ∧
        raw = sliceRaw conn.rd.bytes 3 (3 + raw.length) ∧
        conn'.rd.bytes = conn.rd.bytes.drop (3 + raw.length) ∧
        ((byteAt raw 0 = 1 ∧ raw.length = 7) ∨ (byteAt raw 0 = 4 ∧ raw.length = 19) ∨
          (byteAt raw 0 = 3 ∧ raw.length = 4 + (byteAt raw 1).val))) ∧
    (Client.getRequest ipString ⟨[[5, 1, 0, 1, 0x7F, 0, 0, 1, 0, 0x50]], [], []⟩).map
        (fun p => p.1.rawAddress) = some (some [1, 0x7F, 0, 0, 1, 0, 0x50]) ∧
    (Client.getRequest ipString ⟨[[5, 1, 0, 3, 0x0B] ++ str "example.com" ++ [1, 0xBB]], [], []⟩).map
        (fun p => p.1.rawAddress)
      = some (some [3, 0x0B, 0x65, 0x78, 0x61, 0x6D, 0x70, 0x6C, 0x65, 0x2E, 0x63, 0x6F, 0x6D,
          1, 0xBB]) := by
  refine ⟨?_, ?_, ?_⟩
  · intro conn req conn' h hok
    obtain ⟨reqLen, hs, hrl, -, -, hrd, -, hfin⟩ := Client.getRequest_ok_inv ipString conn req conn' h hok
    obtain ⟨c1, c2⟩ := Client.reqLenOf_le _ _ hrl
    obtain ⟨-, -, -, -, hraw, -⟩ := Client.finish_inv ipString _ _ _ _ _ hfin
    rw [sliceRaw_take_append _ _ _ _ hs] at hraw
    have hlen : ((conn.rd.bytes.take reqLen).drop 3).length = reqLen - 3 := by
      simp; omega
    have e : 3 + (reqLen - 3) = reqLen := by omega
    have hb0 : byteAt ((conn.rd.bytes.take reqLen).drop 3) 0 = byteAt conn.rd.bytes 3 := by
      rw [byteAt_drop, byteAt_take _ _ _ (by omega)]
    have hb1 : byteAt ((conn.rd.bytes.take reqLen).drop 3) 1 = byteAt conn.rd.bytes 4 := by
      rw [byteAt_drop, byteAt_take _ _ _ (by omega)]
    refine ⟨_, hraw, by rw [hlen, e]; exact hs, by rw [hlen, e]; rfl, by rw [hlen, e]; exact hrd, ?_⟩
    rw [hlen, hb0, hb1]
    unfold Client.reqLenOf at hrl
    simp only [Client.lenIPv4, Client.lenIPv6, Client.lenDmBase, Client.IPv4len, Client.IPv6len,
      Client.idAtyp, Client.idDmLen, Client.typeIPv4, Client.typeIPv6, Client.typeDm] at hrl
    split at hrl
    · rename_i hb; cases hrl; exact Or.inl ⟨hb, rfl⟩
    · split at hrl
      · rename_i hb; cases hrl; exact Or.inr (Or.inl ⟨hb, rfl⟩)
      · split at hrl
        · rename_i hb; cases hrl; exact Or.inr (Or.inr ⟨hb, by omega⟩)
        · cases hrl
  · rfl
  · rfl

/-- C2 at the IPv4 request of the specification, `127.0.0.1:80`. -/
theorem getRequest_rawAddress_witness :
    Client.getRequest ipv4String ⟨[[5, 1, 0, 1, 0x7F, 0, 0, 1, 0, 0x50]], [], []⟩
      = some (⟨some [1, 0x7F, 0, 0, 1, 0, 0x50], str "127.0.0.1:80", none⟩, ⟨[], [], []⟩) ∧
    ∃ raw, some [1, 0x7F, 0, 0, 1, 0, (0x50 : Byte)] = some raw ∧
      3 + raw.length ≤ 10 ∧
      raw = sliceRaw [5, 1, 0, 1, 0x7F, 0, 0, 1, 0, 0x50] 3 (3 + raw.length) ∧
      ([] : List Byte) = List.drop (3 + raw.length) [5, 1, 0, 1, 0x7F, 0, 0, 1, 0, (0x50 : Byte)] ∧
      ((byteAt raw 0 = 1 ∧ raw.length = 7) ∨ (byteAt raw 0 = 4 ∧ raw.length = 19) ∨
        (byteAt raw 0 = 3 ∧ raw.length = 4 + (byteAt raw 1).val)) :=
  ⟨by decide, (getRequest_rawAddress ipv4String).1
    ⟨[[5, 1, 0, 1, 0x7F, 0, 0, 1, 0, 0x50]], [], []⟩
    ⟨some [1, 0x7F, 0, 0, 1, 0, 0x50], str "127.0.0.1:80", none⟩ ⟨[], [], []⟩ (by decide) rfl⟩

/-! ### C3: the CFB round trip -/

theorem byte_xor_cancel (a k : Byte) : (a ^^^ k) ^^^ k = a := by
  apply Fin.ext
  have h1 : (a ^^^ k).val = a.val ^^^ k.val := by
    show (a.val ^^^ k.val) % 256 = _
    exact Nat.mod_eq_of_lt (Nat.xor_lt_two_pow (n := 8) a.isLt k.isLt)
  have h2 : ((a ^^^ k) ^^^ k).val = (a ^^^ k).val ^^^ k.val := by
    show ((a ^^^ k).val ^^^ k.val) % 256 = _
    exact Nat.mod_eq_of_lt (Nat.xor_lt_two_pow (n := 8) (a ^^^ k).isLt k.isLt)
  rw [h2, h1, Nat.xor_assoc, Nat.xor_self, Nat.xor_zero]

theorem step_sync (xe xd : Stream) (hs : Stream.Sync xe xd) (p : Byte) :
    (xd.step (xe.step p).2).2 = p ∧ Stream.Sync (xe.step p).1 (xd.step (xe.step p).2).1 := by
  obtain ⟨hb, hn, ho, hu, he, hd⟩ := hs
  cases xe with
  | mk b1 n1 o1 u1 d1 =>
    cases xd with
    | mk b2 n2 o2 u2 d2 =>
      simp only at hb hn ho hu he hd
      subst hb hn ho hu he hd
      by_cases hu : u1 = o1.length
      · simp [Stream.step, Stream.Sync, hu, byte_xor_cancel]
      · simp [Stream.step, Stream.Sync, hu, byte_xor_cancel]

theorem run_sync (P : List Byte) : ∀ (xe xd : Stream), Stream.Sync xe xd →
    (xd.run (xe.run P).2).2 = P ∧ Stream.Sync (xe.run P).1 (xd.run (xe.run P).2).1 := by
  induction P with
  | nil => intro xe xd hs; exact ⟨rfl, hs⟩
  | cons p P ih =>
    intro xe xd hs
    obtain ⟨h1, h2⟩ := step_sync xe xd hs p
    obtain ⟨h3, h4⟩ := ih _ _ h2
    simp only [Stream.run]
    exact ⟨by rw [h1, h3], h4⟩

theorem length_run (src : List Byte) : ∀ x : Stream, (x.run src).2.length = src.length := by
  induction src with
  | nil => intro x; rfl
  | cons s src ih => intro x; simp [Stream.run, ih]

theorem run_append (a b : List Byte) : ∀ x : Stream,
    x.run (a ++ b) = (((x.run a).1.run b).1, (x.run a).2 ++ ((x.run a).1.run b).2) := by
  induction a with
  | nil => intro x; rfl
  | cons s a ih => intro x; simp [Stream.run, ih]

theorem XORKeyStream_fresh (x : Stream) (src : List Byte) :
    x.XORKeyStream (make src.length) src = some ((x.run src).1, (x.run src).2) := by
  have hl := length_run src x
  simp only [Stream.XORKeyStream, length_make, Nat.lt_irrefl, if_false]
  rw [copy_of_length_le _ _ (by rw [hl, length_make]), hl]
  simp [make]

theorem encryptAll_spec (ps : List (List Byte)) : ∀ (c : Cipher) (x : Stream),
    c.enc = some x →
    ∃ c' cts, encryptAll c ps = some (c', cts) ∧ cts.flatten = (x.run ps.flatten).2 ∧
      c'.enc = some (x.run ps.flatten).1 := by
  induction ps with
  | nil => intro c x h; exact ⟨c, [], rfl, rfl, h⟩
  | cons p ps ih =>
    intro c x h
    obtain ⟨c', cts, h1, h2, h3⟩ := ih { c with enc := some (x.run p).1 } (x.run p).1 rfl
    refine ⟨c', (x.run p).2 :: cts, ?_, ?_, ?_⟩
    · simp only [encryptAll, Cipher.encrypt, h, XORKeyStream_fresh, Option.map_some', h1]
    · simp only [List.flatten_cons, h2, run_append]
    · simp only [List.flatten_cons, h3, run_append]

theorem decryptAll_spec (qs : List (List Byte)) : ∀ (c : Cipher) (x : Stream),
    c.dec = some x →
    ∃ c' outs, decryptAll c qs = some (c', outs) ∧ outs.flatten = (x.run qs.flatten).2 ∧
      c'.dec = some (x.run qs.flatten).1 := by
  induction qs with
  | nil => intro c x h; exact ⟨c, [], rfl, rfl, h⟩
  | cons q qs ih =>
    intro c x h
    obtain ⟨c', outs, h1, h2, h3⟩ := ih { c with dec := some (x.run q).1 } (x.run q).1 rfl
    refine ⟨c', (x.run q).2 :: outs, ?_, ?_, ?_⟩
    · simp only [decryptAll, Cipher.decrypt, h, XORKeyStream_fresh, Option.map_some', h1]
    · simp only [List.flatten_cons, h2, run_append]
    · simp only [List.flatten_cons, h3, run_append]


theorem readFull_make (rd : Reader) (n : Nat) (h : n ≤ rd.bytes.length) :
    (readFull rd (make n)).err = none ∧ (readFull rd (make n)).buf = rd.bytes.take n ∧
    (readFull rd (make n)).rd.bytes = rd.bytes.drop n := by
  obtain ⟨a1, a2, a3, a4, a5, a6, a7⟩ := readAtLeast_spec rd (make n) n (by simp [length_make])
  have hrf : readFull rd (make n) = readAtLeast rd (make n) n := by rw [readFull, length_make]
  rw [length_make] at a1
  have hn : (readAtLeast rd (make n) n).n = n := by have := a6 h; omega
  rw [hrf]
  refine ⟨a5.2 (a6 h), ?_, by rw [a4, hn]⟩
  rw [a3, hn, List.drop_of_length_le (by simp [length_make])]
  simp

theorem length_evpBytesToKey (h : MD5) (pw : GoString) (keyLen : Nat) :
    (evpBytesToKey h pw keyLen).length = keyLen := by
  rw [evpBytesToKey_eq, List.length_take, length_evpStream]; omega

theorem lookup_cipherMethod (aes : AES) (method : GoString)
    (hm : method ∈ [str "aes-128-cfb", str "aes-192-cfb", str "aes-256-cfb"]) :
    ∃ info, (cipherMethod aes).lookup method = some info ∧
      (info.keyLen = 16 ∨ info.keyLen = 24 ∨ info.keyLen = 32) ∧ info.ivLen = 16 ∧
      info.newStream = newAESCFBStream aes := by
  simp only [List.mem_cons, List.mem_singleton, List.not_mem_nil, or_false] at hm
  rcases hm with rfl | rfl | rfl
  · exact ⟨_, rfl, Or.inl rfl, rfl, rfl⟩
  · exact ⟨_, rfl, Or.inr (Or.inl rfl), rfl, rfl⟩
  · exact ⟨_, rfl, Or.inr (Or.inr rfl), rfl, rfl⟩

theorem newAESCFBStream_ok (aes : AES) (key iv : List Byte) (doe : DecOrEnc)
    (hk : key.length = 16 ∨ key.length = 24 ∨ key.length = 32) (hiv : iv.length = 16) :
    ∃ x, newAESCFBStream aes key iv doe = some (some x, none) ∧
      x.b = aes.encryptBlock key ∧ x.next = copy (make 16) iv ∧ x.out = make 16 ∧
      x.outUsed = 16 ∧ x.decrypt = decide (doe = DecOrEnc.Decrypt) := by
  cases doe <;>
    exact ⟨_, by simp [newAESCFBStream, aesNewCipher, hk, newCFB, hiv, blockSize]; rfl,
      rfl, rfl, rfl, rfl, rfl⟩

theorem cfb_sync_inverts (aes : AES) (ce cd : Cipher) (rand : Reader)
    (hk : ce.key.length = 16 ∨ ce.key.length = 24 ∨ ce.key.length = 32)
    (hiv : ce.info.ivLen = 16) (hns : ce.info.newStream = newAESCFBStream aes)
    (hkey : cd.key = ce.key) (hinfo : cd.info = ce.info) (hnil : ce.iv = none)
    (hrand : 16 ≤ rand.bytes.length) (ps : List (List Byte)) :
    ∃ iv c1 rand', ce.initEncrypt rand = some ((some iv, none), c1, rand') ∧
      iv = rand.bytes.take 16 ∧ rand'.bytes = rand.bytes.drop 16 ∧
      ∃ c1' cts, encryptAll c1 ps = some (c1', cts) ∧
        ∃ c2, cd.initDecrypt iv = some (none, c2) ∧
          ∀ qs : List (List Byte), qs.flatten = cts.flatten →
            ∃ c2' outs, decryptAll c2 qs = some (c2', outs) ∧ outs.flatten = ps.flatten := by
  obtain ⟨r1, r2, r3⟩ := readFull_make rand 16 hrand
  have hivl : (rand.bytes.take 16).length = 16 := by simp; omega
  obtain ⟨xe, hE, e1, e2, e3, e4, e5⟩ :=
    newAESCFBStream_ok aes ce.key (rand.bytes.take 16) DecOrEnc.Encrypt hk hivl
  obtain ⟨xd, hD, d1, d2, d3, d4, d5⟩ :=
    newAESCFBStream_ok aes ce.key (rand.bytes.take 16) DecOrEnc.Decrypt hk hivl
  have hsync : Stream.Sync xe xd :=
    ⟨by rw [e1, d1], by rw [e2, d2], by rw [e3, d3], by rw [e4, d4], by rw [e5]; rfl,
      by rw [d5]; rfl⟩
  obtain ⟨c1', cts, f1, f2, -⟩ := encryptAll_spec ps
    { ce with iv := some (rand.bytes.take 16), enc := some xe } xe rfl
  obtain ⟨c2, hc2, hdec⟩ : ∃ c2, cd.initDecrypt (rand.bytes.take 16) = some (none, c2) ∧
      c2.dec = some xd :=
    ⟨{ cd with dec := some xd }, by simp only [Cipher.initDecrypt, hinfo, hkey, hns, hD]; rfl, rfl⟩
  refine ⟨rand.bytes.take 16, _, (readFull rand (make 16)).rd, ?_, rfl, r3, c1', cts, f1,
    c2, hc2, ?_⟩
  · simp only [Cipher.initEncrypt, hnil, hiv, r1, r2, hns, hE]
    rfl
  · intro qs hq
    obtain ⟨c2', outs, g1, g2, -⟩ := decryptAll_spec qs c2 xd hdec
    refine ⟨c2', outs, g1, ?_⟩
    rw [g2, hq, f2]
    exact (run_sync ps.flatten xe xd hsync).1


/-- C3: for each supported method and every key `NewCipher` derives, an
encryptor initialised by `initEncrypt` (drawing a 16-byte IV) that encrypts the
chunks of a plaintext in order, and a decryptor with the same key initialised
by `initDecrypt` with that IV that decrypts the ciphertext, re-chunked in any
way, in order, give back the plaintext; no step panics or fails. -/
theorem cfb_round_trip (h : MD5) (aes : AES) (method password : GoString)
    (hm : method ∈ [str "aes-128-cfb", str "aes-192-cfb", str "aes-256-cfb"])
    (hp : password ≠ []) (rand : Reader) (hrand : 16 ≤ rand.bytes.length)
    (ps : List (List Byte)) :
    ∃ c, NewCipher h aes method password = (some c, none) ∧
      ∀ ce cd : Cipher, ce.key = c.key → ce.info = c.info → ce.iv = none →
        cd.key = c.key → cd.info = c.info →
        ∃ iv c1 rand', ce.initEncrypt rand = some ((some iv, none), c1, rand') ∧
          iv = rand.bytes.take 16 ∧ rand'.bytes = rand.bytes.drop 16 ∧
          ∃ c1' cts, encryptAll c1 ps = some (c1', cts) ∧
            ∃ c2, cd.initDecrypt iv = some (none, c2) ∧
              ∀ qs : List (List Byte), qs.flatten = cts.flatten →
                ∃ c2' outs, decryptAll c2 qs = some (c2', outs) ∧
                  outs.flatten = ps.flatten := by
  obtain ⟨info, hl, hkl, hiv, hns⟩ := lookup_cipherMethod aes method hm
  refine ⟨⟨none, none, evpBytesToKey h password info.keyLen, none, info⟩,
    by simp only [NewCipher, hp, if_false, hl], ?_⟩
  intro ce cd hk1 hi1 hnil hk2 hi2
  simp only at hk1 hi1 hk2 hi2
  refine cfb_sync_inverts aes ce cd rand ?_ (by rw [hi1]; exact hiv) (by rw [hi1]; exact hns)
    (by rw [hk1, hk2]) (by rw [hi1, hi2]) hnil hrand ps
  rw [hk1, length_evpBytesToKey]
  exact hkl

/-- C3 at the toy digest and block function, method `aes-128-cfb`, password
"pw", a random source of 17 bytes and a plaintext in two chunks. -/
theorem cfb_round_trip_witness :
    str "aes-128-cfb" ∈ [str "aes-128-cfb", str "aes-192-cfb", str "aes-256-cfb"] ∧
    str "pw" ≠ [] ∧
    16 ≤ (Reader.bytes [[1, 2, 3, 4, 5, 6, 7, 8, 9, 10, 11, 12, 13, 14, 15, 16, 17]]).length ∧
    ∃ c, NewCipher toyMD5 toyAES (str "aes-128-cfb") (str "pw") = (some c, none) ∧
      ∀ ce cd : Cipher, ce.key = c.key → ce.info = c.info → ce.iv = none →
        cd.key = c.key → cd.info = c.info →
        ∃ iv c1 rand',
          ce.initEncrypt [[1, 2, 3, 4, 5, 6, 7, 8, 9, 10, 11, 12, 13, 14, 15, 16, 17]]
            = some ((some iv, none), c1, rand') ∧
          iv = (Reader.bytes
            [[1, 2, 3, 4, 5, 6, 7, 8, 9, 10, 11, 12, 13, 14, 15, 16, 17]]).take 16 ∧
          rand'.bytes = (Reader.bytes
            [[1, 2, 3, 4, 5, 6, 7, 8, 9, 10, 11, 12, 13, 14, 15, 16, 17]]).drop 16 ∧
          ∃ c1' cts, encryptAll c1 [[1, 2, 3], [4, 5]] = some (c1', cts) ∧
            ∃ c2, cd.initDecrypt iv = some (none, c2) ∧
              ∀ qs : List (List Byte), qs.flatten = cts.flatten →
                ∃ c2' outs, decryptAll c2 qs = some (c2', outs) ∧
                  outs.flatten = List.flatten [[1, 2, 3], [4, 5]] :=
  ⟨by decide, by decide, by decide,
    cfb_round_trip toyMD5 toyAES (str "aes-128-cfb") (str "pw") (by decide) (by decide)
      [[1, 2, 3, 4, 5, 6, 7, 8, 9, 10, 11, 12, 13, 14, 15, 16, 17]] (by decide)
      [[1, 2, 3], [4, 5]]⟩

/-! ### C4: the remote decoder undoes the local capture -/

theorem sliceRaw_raw (s X : List Byte) (n lo hi : Nat) (h1 : 3 + hi ≤ n) (h2 : n ≤ s.length) :
    sliceRaw ((s.take n).drop 3 ++ X) lo hi = sliceRaw s (3 + lo) (3 + hi) := by
  simp only [sliceRaw]
  rw [List.take_append_of_le_length (by simp; omega), List.take_drop, List.take_take,
    Nat.min_eq_left h1, List.drop_drop]

theorem byteAt_raw (s X : List Byte) (n i : Nat) (h1 : 3 + i < n) (h2 : n ≤ s.length) :
    byteAt ((s.take n).drop 3 ++ X) i = byteAt s (3 + i) := by
  rw [byteAt_append_left _ _ _ (by simp; omega), byteAt_drop, byteAt_take _ _ _ h1]

/-- The host text of an accepted local request, by address type. -/
theorem local_hostOf (ip : List Byte → GoString) (s : List Byte) (reqLen : Nat) (host : GoString)
    (hs : reqLen ≤ s.length) (hrl : Client.reqLenOf s = some reqLen)
    (hh : Client.hostOf ip (s.take reqLen ++ make (262 - reqLen)) = some host) :
    (byteAt s 3 = 1 ∧ reqLen = 10 ∧ host = ip (sliceRaw s 4 8)) ∨
    (byteAt s 3 = 4 ∧ reqLen = 22 ∧ host = ip (sliceRaw s 4 20)) ∨
    (byteAt s 3 = 3 ∧ reqLen = 7 + (byteAt s 4).val ∧
      host = sliceRaw s 5 (5 + (byteAt s 4).val)) := by
  obtain ⟨c1, c2⟩ := Client.reqLenOf_le _ _ hrl
  have hb3 : byteAt (s.take reqLen ++ make (262 - reqLen)) 3 = byteAt s 3 :=
    byteAt_take_append _ _ _ _ (by omega) hs
  have hb4 : byteAt (s.take reqLen ++ make (262 - reqLen)) 4 = byteAt s 4 :=
    byteAt_take_append _ _ _ _ (by omega) hs
  have hbl : (s.take reqLen ++ make (262 - reqLen)).length = 262 := by
    simp [length_make]; omega
  unfold Client.reqLenOf at hrl
  unfold Client.hostOf at hh
  simp only [Client.lenIPv4, Client.lenIPv6, Client.lenDmBase, Client.IPv4len, Client.IPv6len,
    Client.idAtyp, Client.idDmLen, Client.idIP0, Client.idDm0, Client.typeIPv4, Client.typeIPv6,
    Client.typeDm, hb3, hb4] at hrl hh
  by_cases h1 : byteAt s 3 = 1
  · rw [if_pos h1] at hrl hh
    cases hrl
    rw [slice_of_take_append _ _ 10 4 (4 + 4) (by omega) (by omega) hs] at hh
    cases hh
    exact Or.inl ⟨h1, rfl, rfl⟩
  · rw [if_neg h1] at hrl hh
    by_cases h4 : byteAt s 3 = 4
    · rw [if_pos h4] at hrl hh
      cases hrl
      rw [slice_of_take_append _ _ 22 4 (4 + 16) (by omega) (by omega) hs] at hh
      cases hh
      exact Or.inr (Or.inl ⟨h4, rfl, rfl⟩)
    · rw [if_neg h4] at hrl hh
      by_cases h3 : byteAt s 3 = 3
      · rw [if_pos h3] at hrl hh
        cases hrl
        have hL := (byteAt s 4).isLt
        have hv : ((Fin.ofNat 5 + byteAt s 4 : Byte)).val = (5 + (byteAt s 4).val) % 256 := by
          rw [Fin.val_add]; rfl
        rw [hv] at hh
        unfold slice at hh
        split at hh
        · rename_i hb
          have hnw : (5 + (byteAt s 4).val) % 256 = 5 + (byteAt s 4).val := by omega
          rw [hnw] at hh
          cases hh
          refine Or.inr (Or.inr ⟨h3, by omega, ?_⟩)
          exact sliceRaw_of_take_append _ _ _ _ _ (by omega) hs
        · cases hh
      · rw [if_neg h3] at hrl
        cases hrl


/-- C4: the remote decoder undoes the local capture. For every request the
local `getRequest` accepts, with results `rawAddress` and `address`, and every
payload `X`, the remote `getRequest` run on a decrypted stream with content
`rawAddress ‖ X`, in any fragmentation, succeeds with the same address string
and leaves exactly `X` unread. -/
theorem remote_undoes_local (ipString : List Byte → GoString) (conn : Conn)
    (req : Client.Request) (conn' : Conn)
    (h : Client.getRequest ipString conn = some (req, conn')) (hok : req.err = none)
    (raw : List Byte) (hraw : req.rawAddress = some raw) (X : List Byte) (rd : Reader)
    (hrd : rd.bytes = raw ++ X) :
    ∃ rd', Server.getRequest ipString rd = some ⟨req.address, none, rd'⟩ ∧ rd'.bytes = X := by
  obtain ⟨reqLen, hs, hrl, -, -, -, -, hfin⟩ :=
    Client.getRequest_ok_inv ipString conn req conn' h hok
  obtain ⟨c1, c2⟩ := Client.reqLenOf_le _ _ hrl
  obtain ⟨-, -, -, -, hr, host, hh, haddr⟩ := Client.finish_inv ipString _ _ _ _ _ hfin
  rw [sliceRaw_take_append _ _ _ _ hs] at hr
  rw [hr] at hraw
  cases hraw
  rw [sliceRaw_of_take_append _ _ reqLen (reqLen - 2) reqLen (le_refl _) hs,
    beUint16_eq _ _ _ (by omega)] at haddr
  have hlen : rd.bytes.length = reqLen - 3 + X.length := by
    rw [hrd]; simp; omega
  have hb : ∀ i, 3 + i < reqLen → byteAt rd.bytes i = byteAt conn.rd.bytes (3 + i) := by
    intro i hi; rw [hrd]; exact byteAt_raw _ _ _ _ hi hs
  have hsl : ∀ lo hi, 3 + hi ≤ reqLen →
      sliceRaw rd.bytes lo hi = sliceRaw conn.rd.bytes (3 + lo) (3 + hi) := by
    intro lo hi hhi; rw [hrd]; exact sliceRaw_raw _ _ _ _ _ hhi hs
  have hdrop : rd.bytes.drop (reqLen - 3) = X := by
    rw [hrd]; exact List.drop_left' (by simp; omega)
  rcases local_hostOf ipString _ _ _ hs hrl hh with ⟨ha, hn, hhost⟩ | ⟨ha, hn, hhost⟩ |
    ⟨ha, hn, hhost⟩
  · subst hn
    obtain ⟨rd', g1, g2⟩ := (Server.remote_ipv4 ipString rd (by rw [hb 0 (by omega)]; exact ha)
      (by omega)).1 (by omega)
    refine ⟨rd', ?_, by rw [g1]; exact hdrop⟩
    rw [g2, haddr, hhost, hsl 1 5 (by omega), hb 5 (by omega), hb 6 (by omega)]
  · subst hn
    obtain ⟨rd', g1, g2⟩ := (Server.remote_ipv6 ipString rd (by rw [hb 0 (by omega)]; exact ha)
      (by omega)).1 (by omega)
    refine ⟨rd', ?_, by rw [g1]; exact hdrop⟩
    rw [g2, haddr, hhost, hsl 1 17 (by omega), hb 17 (by omega), hb 18 (by omega)]
  · subst hn
    have hL : byteAt rd.bytes 1 = byteAt conn.rd.bytes 4 := hb 1 (by omega)
    obtain ⟨rd', g1, g2⟩ := (Server.remote_domain ipString rd
      (by rw [hb 0 (by omega)]; exact ha) (by omega)).1 (by rw [hL]; omega)
    refine ⟨rd', ?_, ?_⟩
    · rw [g2, haddr, hhost, hL, hsl 2 _ (by omega), hb _ (by omega), hb _ (by omega)]
      have e1 : 3 + (2 + (byteAt conn.rd.bytes 4).val) = 5 + (byteAt conn.rd.bytes 4).val := by
        omega
      have e2 : 3 + (3 + (byteAt conn.rd.bytes 4).val)
          = 7 + (byteAt conn.rd.bytes 4).val - 2 + 1 := by omega
      have e3 : 5 + (byteAt conn.rd.bytes 4).val = 7 + (byteAt conn.rd.bytes 4).val - 2 := by
        omega
      rw [e1, e2, ← e3]
    · rw [g1, hL, ← hdrop]
      congr 1
      omega

/-- C4 at the domain request of the specification, `example.com:443`, with a
two-byte payload and the remote stream cut into three fragments. -/
theorem remote_undoes_local_witness :
    Client.getRequest ipv4String
        ⟨[[5, 1, 0, 3, 11] ++ str "example.com" ++ [1, 187]], [], []⟩
      = some (⟨some ([3, 11] ++ str "example.com" ++ [1, 187]), str "example.com:443", none⟩,
          ⟨[], [], []⟩) ∧
    Reader.bytes [[3, 11, 101], str "xample.com" ++ [1], [187, 7, 8]]
      = ([3, 11] ++ str "example.com" ++ [1, 187]) ++ [7, 8] ∧
    ∃ rd', Server.getRequest ipv4String [[3, 11, 101], str "xample.com" ++ [1], [187, 7, 8]]
        = some ⟨str "example.com:443", none, rd'⟩ ∧ rd'.bytes = [7, 8] :=
  ⟨by decide, by decide,
    remote_undoes_local ipv4String ⟨[[5, 1, 0, 3, 11] ++ str "example.com" ++ [1, 187]], [], []⟩
      ⟨some ([3, 11] ++ str "example.com" ++ [1, 187]), str "example.com:443", none⟩ ⟨[], [], []⟩
      (by decide) rfl ([3, 11] ++ str "example.com" ++ [1, 187]) rfl [7, 8]
      [[3, 11, 101], str "xample.com" ++ [1], [187, 7, 8]] (by decide)⟩

/-! ### C5: the remote decoder reads incrementally -/

theorem preambleLen_cases (t : List Byte) :
    (byteAt t 0 = 1 ∧ Server.preambleLen t = 7) ∨ (byteAt t 0 = 4 ∧ Server.preambleLen t = 19) ∨
    (byteAt t 0 = 3 ∧ Server.preambleLen t = 4 + (byteAt t 1).val) ∨
    (byteAt t 0 ≠ 1 ∧ byteAt t 0 ≠ 4 ∧ byteAt t 0 ≠ 3 ∧ Server.preambleLen t = 1) := by
  unfold Server.preambleLen
  by_cases h1 : byteAt t 0 = 1
  · exact Or.inl ⟨h1, by simp [h1]⟩
  · by_cases h4 : byteAt t 0 = 4
    · exact Or.inr (Or.inl ⟨h4, by simp [h4]⟩)
    · by_cases h3 : byteAt t 0 = 3
      · exact Or.inr (Or.inr (Or.inl ⟨h3, by simp [h3]; omega⟩))
      · exact Or.inr (Or.inr (Or.inr ⟨h1, h4, h3, by simp [h1, h4, h3]⟩))

/-- The remote decoder never panics and never reads past the preamble. -/
theorem remote_total (ip : List Byte → GoString) (conn : Reader) :
    ∃ d, Server.getRequest ip conn = some d ∧
      d.rd.bytes = conn.bytes.drop (Server.preambleLen conn.bytes) := by
  rcases Nat.lt_or_ge conn.bytes.length 1 with h0 | h1
  · obtain ⟨e, he⟩ := Server.remote_empty ip conn h0
    refine ⟨_, he, ?_⟩
    have : conn.bytes = [] := List.eq_nil_of_length_eq_zero (by omega)
    rw [this]; rfl
  · have hshort : ∀ n, conn.bytes.length < n → Reader.bytes [] = conn.bytes.drop n := by
      intro n hn; rw [List.drop_of_length_le (by omega)]; rfl
    rcases preambleLen_cases conn.bytes with ⟨ha, hp⟩ | ⟨ha, hp⟩ | ⟨ha, hp⟩ | ⟨h1', h4', h3', hp⟩
    · obtain ⟨g1, g2⟩ := Server.remote_ipv4 ip conn ha h1
      rw [hp]
      rcases Nat.lt_or_ge conn.bytes.length 7 with hs | hs
      · obtain ⟨e, he⟩ := g2 hs; exact ⟨_, he, hshort 7 hs⟩
      · obtain ⟨rd', hr, he⟩ := g1 hs; exact ⟨_, he, hr⟩
    · obtain ⟨g1, g2⟩ := Server.remote_ipv6 ip conn ha h1
      rw [hp]
      rcases Nat.lt_or_ge conn.bytes.length 19 with hs | hs
      · obtain ⟨e, he⟩ := g2 hs; exact ⟨_, he, hshort 19 hs⟩
      · obtain ⟨rd', hr, he⟩ := g1 hs; exact ⟨_, he, hr⟩
    · obtain ⟨g1, g2⟩ := Server.remote_domain ip conn ha h1
      rw [hp]
      rcases Nat.lt_or_ge conn.bytes.length (4 + (byteAt conn.bytes 1).val) with hs | hs
      · obtain ⟨e, he⟩ := g2 hs; exact ⟨_, he, hshort _ hs⟩
      · obtain ⟨rd', hr, he⟩ := g1 hs; exact ⟨_, he, hr⟩
    · obtain ⟨rd', hr, he⟩ := Server.remote_badType ip conn h1 h1' h4' h3'
      rw [hp]; exact ⟨_, he, hr⟩

/-- C5: the remote `getRequest` never panics and reads incrementally without
over-reading: the stream it leaves is the input without its first
`preambleLen` bytes (1, then 6 for ATYP 1, 18 for ATYP 4, the length byte `L`
and `L + 2` for ATYP 3, nothing more otherwise). When the stream supplies
those bytes it returns `JoinHostPort(text(address), decimal(256*p0 + p1))`
for ATYP 1, 4 and 3, the domain text being the `L` raw bytes, and for any
other ATYP it returns the address-type error after one byte. -/
theorem remote_getRequest_incremental (ipString : List Byte → GoString) (conn : Reader) :
    (∃ d, Server.getRequest ipString conn = some d ∧
      d.rd.bytes = conn.bytes.drop (Server.preambleLen conn.bytes)) ∧
    (byteAt conn.bytes 0 = 1 → 1 + 6 ≤ conn.bytes.length →
      ∃ rd', rd'.bytes = conn.bytes.drop (1 + 6) ∧
        Server.getRequest ipString conn = some ⟨joinHostPort (ipString (sliceRaw conn.bytes 1 5))
          (itoa (256 * (byteAt conn.bytes 5).val + (byteAt conn.bytes 6).val)), none, rd'⟩) ∧
    (byteAt conn.bytes 0 = 4 → 1 + 18 ≤ conn.bytes.length →
      ∃ rd', rd'.bytes = conn.bytes.drop (1 + 18) ∧
        Server.getRequest ipString conn = some ⟨joinHostPort (ipString (sliceRaw conn.bytes 1 17))
          (itoa (256 * (byteAt conn.bytes 17).val + (byteAt conn.bytes 18).val)), none, rd'⟩) ∧
    (byteAt conn.bytes 0 = 3 → 1 + 1 + ((byteAt conn.bytes 1).val + 2) ≤ conn.bytes.length →
      ∃ rd', rd'.bytes = conn.bytes.drop (1 + 1 + ((byteAt conn.bytes 1).val + 2)) ∧
        Server.getRequest ipString conn = some ⟨joinHostPort
          (sliceRaw conn.bytes 2 (2 + (byteAt conn.bytes 1).val))
          (itoa (256 * (byteAt conn.bytes (2 + (byteAt conn.bytes 1).val)).val
            + (byteAt conn.bytes (3 + (byteAt conn.bytes 1).val)).val)), none, rd'⟩) ∧
    (1 ≤ conn.bytes.length → byteAt conn.bytes 0 ≠ 1 → byteAt conn.bytes 0 ≠ 4 →
      byteAt conn.bytes 0 ≠ 3 →
      ∃ rd', rd'.bytes = conn.bytes.drop 1 ∧
        Server.getRequest ipString conn
          = some ⟨[], some (Err.addrTypeNotSupported (byteAt conn.bytes 0)), rd'⟩) := by
  refine ⟨remote_total ipString conn, ?_, ?_, ?_, ?_⟩
  · intro h0 hlen
    exact (Server.remote_ipv4 ipString conn h0 (by omega)).1 hlen
  · intro h0 hlen
    exact (Server.remote_ipv6 ipString conn h0 (by omega)).1 hlen
  · intro h0 hlen
    have e : 1 + 1 + ((byteAt conn.bytes 1).val + 2) = 4 + (byteAt conn.bytes 1).val := by omega
    rw [e] at hlen ⊢
    exact (Server.remote_domain ipString conn h0 (by omega)).1 hlen
  · intro h1 ha hb hc
    exact Server.remote_badType ipString conn h1 ha hb hc

/-- C5 at the domain preamble of `example.com:443` followed by two payload
bytes, delivered in two fragments. -/
theorem remote_getRequest_incremental_witness :
    byteAt (Reader.bytes [[3, 11, 101, 120, 97], [109, 112, 108, 101, 46, 99, 111, 109, 1, 187, 7, 8]]) 0 = 3 ∧
    1 + 1 + ((byteAt (Reader.bytes
      [[3, 11, 101, 120, 97], [109, 112, 108, 101, 46, 99, 111, 109, 1, 187, 7, 8]]) 1).val + 2)
      ≤ (Reader.bytes
        [[3, 11, 101, 120, 97], [109, 112, 108, 101, 46, 99, 111, 109, 1, 187, 7, 8]]).length ∧
    Server.getRequest ipv4String
        [[3, 11, 101, 120, 97], [109, 112, 108, 101, 46, 99, 111, 109, 1, 187, 7, 8]]
      = some ⟨str "example.com:443", none, [[7, 8]]⟩ ∧
    ∃ rd', Reader.bytes rd' = [7, 8] ∧
      Server.getRequest ipv4String
          [[3, 11, 101, 120, 97], [109, 112, 108, 101, 46, 99, 111, 109, 1, 187, 7, 8]]
        = some ⟨str "example.com:443", none, rd'⟩ :=
  ⟨by decide, by decide, by decide,
    (remote_getRequest_incremental ipv4String
      [[3, 11, 101, 120, 97], [109, 112, 108, 101, 46, 99, 111, 109, 1, 187, 7, 8]]).2.2.2.1
      (by decide) (by decide)⟩

/-! ### C6: a complete request is consumed exactly -/

/-- The host switch of the local `getRequest` on the buffer of a complete
request: it panics exactly on a domain of 251 bytes or more. -/
theorem local_hostOf_panics_iff (ip : List Byte → GoString) (s : List Byte) (reqLen : Nat)
    (hs : reqLen ≤ s.length) (hrl : Client.reqLenOf s = some reqLen) :
    Client.hostOf ip (s.take reqLen ++ make (262 - reqLen)) = none ↔
      (byteAt s 3 = 3 ∧ 251 ≤ (byteAt s 4).val) := by
  obtain ⟨c1, c2⟩ := Client.reqLenOf_le _ _ hrl
  have hb3 : byteAt (s.take reqLen ++ make (262 - reqLen)) 3 = byteAt s 3 :=
    byteAt_take_append _ _ _ _ (by omega) hs
  have hb4 : byteAt (s.take reqLen ++ make (262 - reqLen)) 4 = byteAt s 4 :=
    byteAt_take_append _ _ _ _ (by omega) hs
  have hbl : (s.take reqLen ++ make (262 - reqLen)).length = 262 := by
    simp [length_make]; omega
  unfold Client.reqLenOf at hrl
  unfold Client.hostOf
  simp only [Client.lenIPv4, Client.lenIPv6, Client.lenDmBase, Client.IPv4len, Client.IPv6len,
    Client.idAtyp, Client.idDmLen, Client.idIP0, Client.idDm0, Client.typeIPv4, Client.typeIPv6,
    Client.typeDm, hb3, hb4] at hrl ⊢
  by_cases h1 : byteAt s 3 = 1
  · rw [if_pos h1] at hrl ⊢
    cases hrl
    rw [slice_of_take_append _ _ 10 4 (4 + 4) (by omega) (by omega) hs]
    simp [h1]
  · rw [if_neg h1] at hrl ⊢
    by_cases h4 : byteAt s 3 = 4
    · rw [if_pos h4] at hrl ⊢
      cases hrl
      rw [slice_of_take_append _ _ 22 4 (4 + 16) (by omega) (by omega) hs]
      simp [h4]
    · rw [if_neg h4] at hrl ⊢
      by_cases h3 : byteAt s 3 = 3
      · rw [if_pos h3] at hrl ⊢
        cases hrl
        have hL := (byteAt s 4).isLt
        have hv : ((Fin.ofNat 5 + byteAt s 4 : Byte)).val = (5 + (byteAt s 4).val) % 256 := by
          rw [Fin.val_add]; rfl
        rw [hv]
        unfold slice
        rw [hbl]
        constructor
        · intro hn
          split at hn
          · cases hn
          · rename_i hb
            exact ⟨h3, by omega⟩
        · rintro ⟨-, hge⟩
          rw [if_neg (by omega)]
      · rw [if_neg h3] at hrl
        cases hrl

/-- The tail of the local `getRequest` on the buffer of a complete request. -/
theorem local_finish_total (ip : List Byte → GoString) (s : List Byte) (reqLen : Nat)
    (con : Conn) (hs : reqLen ≤ s.length) (hrl : Client.reqLenOf s = some reqLen) :
    (byteAt s 3 = 3 ∧ 251 ≤ (byteAt s 4).val →
      Client.finish ip (s.take reqLen ++ make (262 - reqLen)) reqLen con = none) ∧
    (¬ (byteAt s 3 = 3 ∧ 251 ≤ (byteAt s 4).val) →
      ∃ req, Client.finish ip (s.take reqLen ++ make (262 - reqLen)) reqLen con
        = some (req, con) ∧ req.err = none) := by
  obtain ⟨c1, c2⟩ := Client.reqLenOf_le _ _ hrl
  have hp := local_hostOf_panics_iff ip s reqLen hs hrl
  have h1 : slice (s.take reqLen ++ make (262 - reqLen)) Client.idAtyp reqLen
      = some (sliceRaw s 3 reqLen) :=
    slice_of_take_append _ _ reqLen 3 reqLen (by omega) (le_refl _) hs
  have h2 : slice (s.take reqLen ++ make (262 - reqLen)) (reqLen - 2) reqLen
      = some (sliceRaw s (reqLen - 2) reqLen) :=
    slice_of_take_append _ _ reqLen (reqLen - 2) reqLen (by omega) (le_refl _) hs
  constructor
  · intro hb
    simp only [Client.finish, h1, hp.2 hb]
  · intro hb
    cases hh : Client.hostOf ip (s.take reqLen ++ make (262 - reqLen)) with
    | none => exact absurd (hp.1 hh) hb
    | some host =>
      simp only [Client.finish, h1, hh, h2]
      exact ⟨_, rfl, rfl⟩

/-- The local `getRequest` on a complete CONNECT request whose first read does
not run past it: it consumes exactly the request, and it returns unless the
request names a domain of 251 bytes or more, on which it panics. -/
theorem local_getRequest_complete (ip : List Byte → GoString) (conn : Conn) (reqLen : Nat)
    (hv : byteAt conn.rd.bytes 0 = 5) (hc : byteAt conn.rd.bytes 1 = 1)
    (hrl : Client.reqLenOf conn.rd.bytes = some reqLen)
    (hn : (readAtLeast conn.rd (make 262) 5).n ≤ reqLen) (hs : reqLen ≤ conn.rd.bytes.length) :
    (byteAt conn.rd.bytes 3 = 3 ∧ 251 ≤ (byteAt conn.rd.bytes 4).val →
      Client.getRequest ip conn = none) ∧
    (¬ (byteAt conn.rd.bytes 3 = 3 ∧ 251 ≤ (byteAt conn.rd.bytes 4).val) →
      ∃ req rd', Client.getRequest ip conn = some (req, ⟨rd', conn.wr, conn.wout⟩) ∧ req.err = none ∧
        rd'.bytes = conn.rd.bytes.drop reqLen) := by
  obtain ⟨c1, c2⟩ := Client.reqLenOf_le _ _ hrl
  obtain ⟨a1, a2, a3, a4, a5, a6, a7⟩ := readAtLeast_spec conn.rd (make 262) 5
    (by simp [length_make])
  have h0 : (readAtLeast conn.rd (make 262) 5).err = none := a5.2 (a6 (by omega))
  obtain ⟨b1, b2, b3, b4, b5⟩ := Client.firstRead_spec conn.rd _ 262 5 (by omega) rfl h0
  have hb : ∀ i, i < 5 →
      byteAt (readAtLeast conn.rd (make 262) 5).buf i = byteAt conn.rd.bytes i := by
    intro i hi; rw [b4]; exact byteAt_take_append _ _ _ _ (by omega) b3
  have hrl' : Client.reqLenOf (readAtLeast conn.rd (make 262) 5).buf = some reqLen := by
    rw [← hrl]
    simp only [Client.reqLenOf, Client.idAtyp, Client.idDmLen, hb 3 (by omega), hb 4 (by omega)]
  obtain ⟨rd', g1, g2⟩ := (Client.getRequest_run ip conn _ reqLen rfl h0
    (by rw [hb 0 (by omega)]; exact hv) (by rw [hb 1 (by omega)]; exact hc) hrl' hn).1 hs
  obtain ⟨f1, f2⟩ := local_finish_total ip conn.rd.bytes reqLen ⟨rd', conn.wr, conn.wout⟩ hs hrl
  constructor
  · intro hbad; rw [g2]; exact f1 hbad
  · intro hgood
    obtain ⟨req, e1, e2⟩ := f2 hgood
    exact ⟨req, rd', by rw [g2]; exact e1, e2, g1⟩

/-- C6 fails on the code: a CONNECT request for a domain of 251 bytes,
delivered whole, makes the local `getRequest` panic at
`buf[idDm0 : idDm0+buf[idDmLen]]`, whose upper bound `5 + 251` wraps to 0 in
`byte` arithmetic. -/
theorem getRequest_long_domain_panics :
    Client.getRequest ipv4String
      ⟨[[5, 1, 0, 3, 251] ++ List.replicate 251 97 ++ [0, 80]], [], []⟩ = none := by
  decide

/-! ### C7: rejected requests -/

theorem reqLenOf_none_iff (buf : List Byte) :
    Client.reqLenOf buf = none ↔ (byteAt buf 3 ≠ 1 ∧ byteAt buf 3 ≠ 3 ∧ byteAt buf 3 ≠ 4) := by
  unfold Client.reqLenOf
  simp only [Client.idAtyp, Client.typeIPv4, Client.typeIPv6, Client.typeDm]
  by_cases h1 : byteAt buf 3 = 1
  · simp [h1]
  · by_cases h4 : byteAt buf 3 = 4
    · simp [h4]
    · by_cases h3 : byteAt buf 3 = 3
      · simp [h3]
      · simp [h1, h4, h3]

theorem reqLenOf_some (buf : List Byte) :
    (byteAt buf 3 = 1 → Client.reqLenOf buf = some 10) ∧
    (byteAt buf 3 = 4 → Client.reqLenOf buf = some 22) ∧
    (byteAt buf 3 = 3 → Client.reqLenOf buf = some (7 + (byteAt buf 4).val)) := by
  unfold Client.reqLenOf
  simp only [Client.idAtyp, Client.typeIPv4, Client.typeIPv6, Client.typeDm, Client.lenIPv4,
    Client.lenIPv6, Client.lenDmBase, Client.IPv4len, Client.IPv6len, Client.idDmLen]
  refine ⟨fun h => by simp [h], fun h => by simp [h], fun h => by simp [h]; omega⟩

/-- C7: let `r` be the result of the initial read of the local `getRequest`,
without error (so `n ≥ 5` bytes `b`, the first `n` bytes of the stream). Then
`getRequest` returns `errVer` if `b[0] ≠ 5`; otherwise `errCmd` if `b[1] ≠ 1`;
otherwise `errAddrType` if `b[3]` is not 1, 3 or 4; otherwise `errReqExtraData`
if `n` exceeds 10, 22 or `7 + b[4]`. In each case `rawAddress` is nil, the
address is empty and the connection is as the initial read left it (nothing
more is read, nothing is written). The BIND request `05 02 00 01 …` gets
`errCmd`. -/
theorem getRequest_rejects (ipString : List Byte → GoString) (conn : Conn) (r : ReadResult)
    (hr : readAtLeast conn.rd (make 262) 5 = r) (h0 : r.err = none) :
    (5 ≤ r.n ∧ r.buf = conn.rd.bytes.take r.n ++ make (262 - r.n) ∧
      r.rd.bytes = conn.rd.bytes.drop r.n) ∧
    (byteAt r.buf 0 ≠ 5 →
      Client.getRequest ipString conn
        = some (⟨none, [], some Err.errVer⟩, ⟨r.rd, conn.wr, conn.wout⟩)) ∧
    (byteAt r.buf 0 = 5 → byteAt r.buf 1 ≠ 1 →
      Client.getRequest ipString conn
        = some (⟨none, [], some Err.errCmd⟩, ⟨r.rd, conn.wr, conn.wout⟩)) ∧
    (byteAt r.buf 0 = 5 → byteAt r.buf 1 = 1 →
      byteAt r.buf 3 ≠ 1 → byteAt r.buf 3 ≠ 3 → byteAt r.buf 3 ≠ 4 →
      Client.getRequest ipString conn
        = some (⟨none, [], some Err.errAddrType⟩, ⟨r.rd, conn.wr, conn.wout⟩)) ∧
    (byteAt r.buf 0 = 5 → byteAt r.buf 1 = 1 →
      (byteAt r.buf 3 = 1 ∧ 10 < r.n) ∨ (byteAt r.buf 3 = 4 ∧ 22 < r.n) ∨
        (byteAt r.buf 3 = 3 ∧ 7 + (byteAt r.buf 4).val < r.n) →
      Client.getRequest ipString conn
        = some (⟨none, [], some Err.errReqExtraData⟩, ⟨r.rd, conn.wr, conn.wout⟩)) ∧
    Client.getRequest ipString ⟨[[5, 2, 0, 1, 127, 0, 0, 1, 0, 80]], [], []⟩
      = some (⟨none, [], some Err.errCmd⟩, ⟨[], [], []⟩) := by
  obtain ⟨b1, -, b3, b4, b5⟩ := Client.firstRead_spec conn.rd r 262 5 (by omega) hr h0
  refine ⟨⟨b1, b4, b5⟩, ?_, ?_, ?_, ?_, ?_⟩
  · intro h1
    exact Client.getRequest_errVer ipString conn r hr h0 h1
  · intro h1 h2
    exact Client.getRequest_errCmd ipString conn r hr h0 h1 h2
  · intro h1 h2 a1 a3 a4
    exact Client.getRequest_errAddrType ipString conn r hr h0 h1 h2
      ((reqLenOf_none_iff r.buf).2 ⟨a1, a3, a4⟩)
  · intro h1 h2 hx
    obtain ⟨s1, s4, s3⟩ := reqLenOf_some r.buf
    rcases hx with ⟨ha, hlt⟩ | ⟨ha, hlt⟩ | ⟨ha, hlt⟩
    · exact Client.getRequest_errReqExtraData ipString conn r 10 hr h0 h1 h2 (s1 ha) hlt
    · exact Client.getRequest_errReqExtraData ipString conn r 22 hr h0 h1 h2 (s4 ha) hlt
    · exact Client.getRequest_errReqExtraData ipString conn r _ hr h0 h1 h2 (s3 ha) hlt
  · rfl

/-- C7 at an IPv4 request that arrives together with one payload byte. -/
theorem getRequest_rejects_witness :
    readAtLeast [[5, 1, 0, 1, 127, 0, 0, 1, 0, 80, 9]] (make 262) 5
      = ⟨11, none, [5, 1, 0, 1, 127, 0, 0, 1, 0, 80, 9] ++ make 251, []⟩ ∧
    Client.getRequest ipv4String ⟨[[5, 1, 0, 1, 127, 0, 0, 1, 0, 80, 9]], [], []⟩
      = some (⟨none, [], some Err.errReqExtraData⟩, ⟨[], [], []⟩) :=
  ⟨by decide,
    (getRequest_rejects ipv4String ⟨[[5, 1, 0, 1, 127, 0, 0, 1, 0, 80, 9]], [], []⟩
      ⟨11, none, [5, 1, 0, 1, 127, 0, 0, 1, 0, 80, 9] ++ make 251, []⟩ (by decide) rfl).2.2.2.2.1
      (by decide) (by decide) (Or.inl ⟨by decide, by decide⟩)⟩

/-! ### C8: the greeting -/

namespace Client

/-- Unfolding of `handShake` after its first read, with the result of that read named. -/
theorem handShake_eq (con : Conn) (r : ReadResult)
    (hr : readAtLeast con.rd (make 258) 2 = r) :
    handShake con =
      if r.err.isSome then some (r.err, ⟨r.rd, con.wr, con.wout⟩)
      else if byteAt r.buf 0 ≠ 5 then some (some Err.errVer, ⟨r.rd, con.wr, con.wout⟩)
      else if r.n = (byteAt r.buf 1).val + 2 then
        some ((Conn.write ⟨r.rd, con.wr, con.wout⟩ [5, 0]).2,
          (Conn.write ⟨r.rd, con.wr, con.wout⟩ [5, 0]).1)
      else if r.n < (byteAt r.buf 1).val + 2 then
        match readFullAt r.rd r.buf r.n ((byteAt r.buf 1).val + 2) with
        | none => none
        | some r2 =>
          if r2.err.isSome then some (r2.err, ⟨r2.rd, con.wr, con.wout⟩)
          else some ((Conn.write ⟨r2.rd, con.wr, con.wout⟩ [5, 0]).2,
            (Conn.write ⟨r2.rd, con.wr, con.wout⟩ [5, 0]).1)
      else some (some Err.errAuthExtraData, ⟨r.rd, con.wr, con.wout⟩) := by
  subst hr
  rfl

/-- After an accepted greeting `handShake` ends with its one `Write`. -/
theorem handShake_reply (con : Conn)
    (hv : byteAt con.rd.bytes 0 = 5)
    (hn : (readAtLeast con.rd (make 258) 2).n ≤ 2 + (byteAt con.rd.bytes 1).val)
    (hs : 2 + (byteAt con.rd.bytes 1).val ≤ con.rd.bytes.length) :
    ∃ rd', rd'.bytes = con.rd.bytes.drop (2 + (byteAt con.rd.bytes 1).val) ∧
      handShake con = some ((Conn.write ⟨rd', con.wr, con.wout⟩ [5, 0]).2,
        (Conn.write ⟨rd', con.wr, con.wout⟩ [5, 0]).1) := by
  obtain ⟨a1, a2, a3, a4, a5, a6, a7⟩ := readAtLeast_spec con.rd (make 258) 2
    (by simp [length_make])
  have h0 : (readAtLeast con.rd (make 258) 2).err = none := a5.2 (a6 (by omega))
  obtain ⟨b1, b2, b3, b4, b5⟩ := Client.firstRead_spec con.rd _ 258 2 (by omega) rfl h0
  have hL := (byteAt con.rd.bytes 1).isLt
  have hb : ∀ i, i < 2 →
      byteAt (readAtLeast con.rd (make 258) 2).buf i = byteAt con.rd.bytes i := by
    intro i hi; rw [b4]; exact byteAt_take_append _ _ _ _ (by omega) b3
  rw [Client.handShake_eq con _ rfl, h0, if_neg (by simp), if_neg (by simp [hb 0, hv]),
    hb 1 (by omega)]
  rcases Nat.eq_or_lt_of_le hn with heq | hlt
  · rw [if_pos (by omega)]
    exact ⟨_, by rw [b5, heq], rfl⟩
  · rw [if_neg (by omega), if_pos (by omega), b4]
    obtain ⟨res, e1, e2, -⟩ := readFullAt_extend con.rd.bytes 258
      (readAtLeast con.rd (make 258) 2).n ((byteAt con.rd.bytes 1).val + 2)
      (readAtLeast con.rd (make 258) 2).rd (by omega) (by omega) b5 b3
    obtain ⟨f1, f2, f3⟩ := e2 (by omega)
    rw [e1]
    simp only [f1]
    refine ⟨res.rd, ?_, rfl⟩
    rw [f3]
    congr 1
    omega

end Client

/-- C8 fails on the code when the `Write` of the reply fails: the greeting
`05 01 00` arrives in one read, the stream supplies its 3 bytes, and on a
connection whose `Write` returns an error after 0 bytes `handShake` returns that
error and has written nothing. -/
theorem handShake_write_error :
    byteAt (Reader.bytes [[5, 1, 0]]) 0 = 5 ∧
    (readAtLeast [[5, 1, 0]] (make 258) 2).n ≤ 2 + (byteAt (Reader.bytes [[5, 1, 0]]) 1).val ∧
    2 + (byteAt (Reader.bytes [[5, 1, 0]]) 1).val ≤ (Reader.bytes [[5, 1, 0]]).length ∧
    Client.handShake ⟨[[5, 1, 0]], [], [some (0, Err.external 32)]⟩
      = some (some (Err.external 32), ⟨[], [], []⟩) := by
  decide

/-- C8, amended: for a greeting `05 k METHODS[k]` (any `k`, any method bytes)
whose initial read returns at most `2 + k` bytes and whose stream supplies
`2 + k` bytes, `handShake` consumes exactly `2 + k` bytes and then makes one
`Write` call with the bytes `05 00`, whose error it returns: if that `Write`
succeeds, exactly `05 00` is written and the error is nil; if it stops after `n`
bytes with the error `e`, the first `n` bytes of `05 00` are written and `e` is
returned. The greeting `05 01 00` on a connection whose `Write` succeeds gets the
reply `05 00` with nothing more read. -/
theorem handShake_accepts (con : Conn)
    (hv : byteAt con.rd.bytes 0 = 5)
    (hn : (readAtLeast con.rd (make 258) 2).n ≤ 2 + (byteAt con.rd.bytes 1).val)
    (hs : 2 + (byteAt con.rd.bytes 1).val ≤ con.rd.bytes.length) :
    (∃ rd', rd'.bytes = con.rd.bytes.drop (2 + (byteAt con.rd.bytes 1).val) ∧
      (con.wout.headD none = none →
        Client.handShake con = some (none, ⟨rd', con.wr ++ [5, 0], con.wout.tail⟩)) ∧
      (∀ n e, con.wout.headD none = some (n, e) →
        Client.handShake con
          = some (some e, ⟨rd', con.wr ++ [5, 0].take n, con.wout.tail⟩))) ∧
    Client.handShake ⟨[[5, 1, 0]], [], []⟩ = some (none, ⟨[], [5, 0], []⟩) := by
  refine ⟨?_, by decide⟩
  obtain ⟨rd', h1, h2⟩ := Client.handShake_reply con hv hn hs
  refine ⟨rd', h1, ?_, ?_⟩
  · intro hw
    rw [h2]
    simp only [Conn.write, hw]
  · intro n e hw
    rw [h2]
    simp only [Conn.write, hw]

/-- C8, amended, at a greeting offering two methods, neither of them 0x00,
delivered in two fragments and followed by the first byte of the request: once
on a connection whose `Write` succeeds, once on one whose `Write` stops after
one byte. -/
theorem handShake_accepts_witness :
    byteAt (Reader.bytes [[5, 2], [1, 2, 5]]) 0 = 5 ∧
    (readAtLeast [[5, 2], [1, 2, 5]] (make 258) 2).n
      ≤ 2 + (byteAt (Reader.bytes [[5, 2], [1, 2, 5]]) 1).val ∧
    2 + (byteAt (Reader.bytes [[5, 2], [1, 2, 5]]) 1).val
      ≤ (Reader.bytes [[5, 2], [1, 2, 5]]).length ∧
    Client.handShake ⟨[[5, 2], [1, 2, 5]], [], []⟩ = some (none, ⟨[[5]], [5, 0], []⟩) ∧
    (∃ rd', Reader.bytes rd' = [5] ∧
      Client.handShake ⟨[[5, 2], [1, 2, 5]], [], []⟩ = some (none, ⟨rd', [5, 0], []⟩)) ∧
    ∃ rd', Reader.bytes rd' = [5] ∧
      Client.handShake ⟨[[5, 2], [1, 2, 5]], [], [some (1, Err.external 32), none]⟩
        = some (some (Err.external 32), ⟨rd', [5], [none]⟩) :=
  ⟨by decide, by decide, by decide, by decide,
    (handShake_accepts ⟨[[5, 2], [1, 2, 5]], [], []⟩ (by decide) (by decide) (by decide)).1.imp
      (fun _ h => ⟨h.1, h.2.1 rfl⟩),
    (handShake_accepts ⟨[[5, 2], [1, 2, 5]], [], [some (1, Err.external 32), none]⟩
      (by decide) (by decide) (by decide)).1.imp
      (fun _ h => ⟨h.1, h.2.2 1 (Err.external 32) rfl⟩)⟩

/-! ### C9: rejected greetings -/

/-- C9: let `r` be the result of the initial read of `handShake`, without
error (so `n ≥ 2` bytes `b`). If `b[0] ≠ 5`, `handShake` returns `errVer`; if
`b[0] = 5` and `n > 2 + b[1]`, it returns `errAuthExtraData`; in both cases
the bytes written to the client are unchanged (no reply is sent) and nothing
more is read. -/
theorem handShake_rejects (con : Conn) (r : ReadResult)
    (hr : readAtLeast con.rd (make 258) 2 = r) (h0 : r.err = none) :
    (2 ≤ r.n ∧ r.buf = con.rd.bytes.take r.n ++ make (258 - r.n)) ∧
    (byteAt r.buf 0 ≠ 5 →
      Client.handShake con = some (some Err.errVer, ⟨r.rd, con.wr, con.wout⟩)) ∧
    (byteAt r.buf 0 = 5 → r.n > 2 + (byteAt r.buf 1).val →
      Client.handShake con = some (some Err.errAuthExtraData, ⟨r.rd, con.wr, con.wout⟩)) := by
  obtain ⟨b1, -, b3, b4, b5⟩ := Client.firstRead_spec con.rd r 258 2 (by omega) hr h0
  refine ⟨⟨b1, b4⟩, ?_, ?_⟩
  · intro h1
    rw [Client.handShake_eq con r hr, h0, if_neg (by simp), if_pos h1]
  · intro h1 h2
    rw [Client.handShake_eq con r hr, h0, if_neg (by simp), if_neg (by simp [h1]),
      if_neg (by omega), if_neg (by omega)]

/-- C9 at a SOCKS4 greeting and at a greeting followed by one extra byte. -/
theorem handShake_rejects_witness :
    readAtLeast [[4, 1, 0]] (make 258) 2 = ⟨3, none, [4, 1, 0] ++ make 255, []⟩ ∧
    Client.handShake ⟨[[4, 1, 0]], [], []⟩ = some (some Err.errVer, ⟨[], [], []⟩) ∧
    readAtLeast [[5, 1, 0, 5]] (make 258) 2 = ⟨4, none, [5, 1, 0, 5] ++ make 254, []⟩ ∧
    Client.handShake ⟨[[5, 1, 0, 5]], [], []⟩ = some (some Err.errAuthExtraData, ⟨[], [], []⟩) :=
  ⟨by decide,
    (handShake_rejects ⟨[[4, 1, 0]], [], []⟩ ⟨3, none, [4, 1, 0] ++ make 255, []⟩
      (by decide) rfl).2.1 (by decide),
    by decide,
    (handShake_rejects ⟨[[5, 1, 0, 5]], [], []⟩ ⟨4, none, [5, 1, 0, 5] ++ make 254, []⟩
      (by decide) rfl).2.2 (by decide) (by decide)⟩

/-! ### C10: the method table and `NewCipher` -/

theorem lookup_cipherMethod_some (aes : AES) (method : GoString) (info : CipherInfo)
    (h : (cipherMethod aes).lookup method = some info) :
    method ∈ [str "aes-128-cfb", str "aes-192-cfb", str "aes-256-cfb"] := by
  by_cases h1 : method = str "aes-128-cfb"
  · simp [h1]
  · by_cases h2 : method = str "aes-192-cfb"
    · simp [h2]
    · by_cases h3 : method = str "aes-256-cfb"
      · simp [h3]
      · exfalso
        have e1 : (method == str "aes-128-cfb") = false := by simpa using h1
        have e2 : (method == str "aes-192-cfb") = false := by simpa using h2
        have e3 : (method == str "aes-256-cfb") = false := by simpa using h3
        simp [cipherMethod, List.lookup, e1, e2, e3] at h

/-- C10: `NewCipher` fails on an empty password and on every method whose
lowercase form (under any lowering that fixes the three table names, the ASCII
one among them) is none of `aes-128-cfb`, `aes-192-cfb`, `aes-256-cfb`; for each
of these names and every non-empty password it returns a cipher whose key is
`evpBytesToKey(password, keyLen)` with `keyLen` 16, 24 and 32, whose `ivLen` is
16 and whose `enc`, `dec` and `iv` are nil. The table has exactly these three
entries. -/
theorem NewCipher_table (h : MD5) (aes : AES) :
    (∀ method, NewCipher h aes method [] = (none, some Err.emptyPassword)) ∧
    (∀ lower : GoString → GoString,
      (∀ n ∈ [str "aes-128-cfb", str "aes-192-cfb", str "aes-256-cfb"], lower n = n) →
      ∀ method password,
        lower method ∉ [str "aes-128-cfb", str "aes-192-cfb", str "aes-256-cfb"] →
        (NewCipher h aes method password).1.isNone ∧
          (NewCipher h aes method password).2.isSome) ∧
    (∀ n ∈ [str "aes-128-cfb", str "aes-192-cfb", str "aes-256-cfb"], asciiLower n = n) ∧
    (∀ password, password ≠ [] →
      (∃ c, NewCipher h aes (str "aes-128-cfb") password = (some c, none) ∧
        c.key = evpBytesToKey h password 16 ∧ c.info.keyLen = 16 ∧ c.info.ivLen = 16 ∧
        c.enc.isNone ∧ c.dec.isNone ∧ c.iv = none) ∧
      (∃ c, NewCipher h aes (str "aes-192-cfb") password = (some c, none) ∧
        c.key = evpBytesToKey h password 24 ∧ c.info.keyLen = 24 ∧ c.info.ivLen = 16 ∧
        c.enc.isNone ∧ c.dec.isNone ∧ c.iv = none) ∧
      (∃ c, NewCipher h aes (str "aes-256-cfb") password = (some c, none) ∧
        c.key = evpBytesToKey h password 32 ∧ c.info.keyLen = 32 ∧ c.info.ivLen = 16 ∧
        c.enc.isNone ∧ c.dec.isNone ∧ c.iv = none)) ∧
    (cipherMethod aes).map (fun e => (e.1, e.2.keyLen, e.2.ivLen))
      = [(str "aes-128-cfb", 16, 16), (str "aes-192-cfb", 24, 16), (str "aes-256-cfb", 32, 16)] := by
  refine ⟨fun method => by simp [NewCipher], ?_, by decide, ?_, rfl⟩
  · intro lower hfix method password hnot
    by_cases hp : password = []
    · simp [NewCipher, hp]
    · cases hl : (cipherMethod aes).lookup method with
      | none => simp [NewCipher, hp, hl]
      | some info =>
        have hm := lookup_cipherMethod_some aes method info hl
        rw [hfix method hm] at hnot
        exact absurd hm hnot
  · intro password hp
    refine ⟨⟨⟨none, none, evpBytesToKey h password 16, none, ⟨16, 16, newAESCFBStream aes⟩⟩,
        ?_, rfl, rfl, rfl, rfl, rfl, rfl⟩,
      ⟨⟨none, none, evpBytesToKey h password 24, none, ⟨24, 16, newAESCFBStream aes⟩⟩,
        ?_, rfl, rfl, rfl, rfl, rfl, rfl⟩,
      ⟨⟨none, none, evpBytesToKey h password 32, none, ⟨32, 16, newAESCFBStream aes⟩⟩,
        ?_, rfl, rfl, rfl, rfl, rfl, rfl⟩⟩
    all_goals (simp only [NewCipher, hp, if_false]; rfl)

/-- C10 at the ASCII lowering, the method `AES-256-GCM` and the password "pw",
and at the password "pw" for the three table names. -/
theorem NewCipher_table_witness :
    (∀ n ∈ [str "aes-128-cfb", str "aes-192-cfb", str "aes-256-cfb"], asciiLower n = n) ∧
    asciiLower (str "AES-256-GCM") ∉ [str "aes-128-cfb", str "aes-192-cfb", str "aes-256-cfb"] ∧
    ((NewCipher toyMD5 toyAES (str "AES-256-GCM") (str "pw")).1.isNone ∧
      (NewCipher toyMD5 toyAES (str "AES-256-GCM") (str "pw")).2.isSome) ∧
    str "pw" ≠ [] ∧
    ∃ c, NewCipher toyMD5 toyAES (str "aes-192-cfb") (str "pw") = (some c, none) ∧
      c.key = evpBytesToKey toyMD5 (str "pw") 24 ∧ c.info.keyLen = 24 ∧ c.info.ivLen = 16 ∧
      c.enc.isNone ∧ c.dec.isNone ∧ c.iv = none :=
  ⟨by decide, by decide,
    (NewCipher_table toyMD5 toyAES).2.1 asciiLower (by decide) (str "AES-256-GCM") (str "pw")
      (by decide),
    by decide,
    ((NewCipher_table toyMD5 toyAES).2.2.2.1 (str "pw") (by decide)).2.1⟩

/-! ### C11: method selection and case -/

/-- A string whose ASCII-lowercased form is a table name has only ASCII bytes,
so `strings.ToLower` lowers it byte by byte. -/
theorem toLower_eq_asciiLower (mapLower : GoString → GoString) (m : GoString)
    (hm : asciiLower m ∈ [str "aes-128-cfb", str "aes-192-cfb", str "aes-256-cfb"]) :
    toLower mapLower m = asciiLower m := by
  have hnames : ∀ n ∈ [str "aes-128-cfb", str "aes-192-cfb", str "aes-256-cfb"],
      ∀ b ∈ n, b.val < 128 := by decide
  have hall : m.all (fun b => decide (b.val < 128)) = true := by
    rw [List.all_eq_true]
    intro b hb
    have h1 : (if 65 ≤ b.val ∧ b.val ≤ 90 then b + 32 else b) ∈ asciiLower m :=
      List.mem_map.2 ⟨b, hb, rfl⟩
    have h2 := hnames _ hm _ h1
    by_cases hc : 65 ≤ b.val ∧ b.val ≤ 90
    · exact decide_eq_true (by omega)
    · rw [if_neg hc] at h2
      exact decide_eq_true h2
  rw [toLower, if_pos hall]

/-- C11 fails on the code: `AES-256-CFB` lowercases to a table name, yet
`NewCipher` and `CheckCipherMethod` both reject it as written. -/
theorem method_lookup_is_exact :
    asciiLower (str "AES-256-CFB")
      ∈ [str "aes-128-cfb", str "aes-192-cfb", str "aes-256-cfb"] ∧
    str "pw" ≠ [] ∧
    (NewCipher toyMD5 toyAES (str "AES-256-CFB") (str "pw")).1.isNone ∧
    (NewCipher toyMD5 toyAES (str "AES-256-CFB") (str "pw")).2
      = some (Err.unsupportedMethod (str "AES-256-CFB")) ∧
    CheckCipherMethod toyAES (str "AES-256-CFB")
      = some (Err.unsupportedMethod (str "AES-256-CFB")) := by
  decide

theorem checkCipherMethod_of_mem (aes : AES) (method : GoString)
    (hm : method ∈ [str "aes-128-cfb", str "aes-192-cfb", str "aes-256-cfb"]) :
    CheckCipherMethod aes method = none := by
  simp only [List.mem_cons, List.mem_singleton, List.not_mem_nil, or_false] at hm
  rcases hm with rfl | rfl | rfl <;> rfl

/-- C11, amended: the lowering is done by `ParseConfig`, with
`strings.ToLower`, and on the lowercased name selection works. For every method
`m` whose ASCII-lowercased form is a table name, `strings.ToLower(m)` is that
form (whatever the Unicode tables are), and for every non-empty password
`NewCipher(strings.ToLower(m), password)` succeeds with the table entry of the
lowercased name and `CheckCipherMethod(strings.ToLower(m))` returns nil; a
configuration that `ParseConfig` returns carries `strings.ToLower` of the method
that was read; `NewCipher` itself compares the method exactly and succeeds only
on the three names as written. -/
theorem method_selection_after_lowering (h : MD5) (aes : AES)
    (mapLower : GoString → GoString) :
    (∀ m password : GoString,
      asciiLower m ∈ [str "aes-128-cfb", str "aes-192-cfb", str "aes-256-cfb"] →
      password ≠ [] →
      toLower mapLower m = asciiLower m ∧
      ∃ info c, (cipherMethod aes).lookup (toLower mapLower m) = some info ∧
        NewCipher h aes (toLower mapLower m) password = (some c, none) ∧ c.info = info ∧
        c.key = evpBytesToKey h password info.keyLen ∧
        CheckCipherMethod aes (toLower mapLower m) = none) ∧
    (∀ (unmarshal : List Byte → Config → Except Err Config) (file : Except Err (List Byte))
      (cfg : Config), (ParseConfig mapLower unmarshal file).1 = some cfg →
      ∃ data cfg0, file = Except.ok data ∧
        unmarshal data ⟨[], 0, 0, [], str "aes-256-cfb", 15⟩ = Except.ok cfg0 ∧
        cfg = { cfg0 with Method := toLower mapLower cfg0.Method }) ∧
    (∀ m password : GoString, password ≠ [] →
      ((NewCipher h aes m password).2 = none ↔
        m ∈ [str "aes-128-cfb", str "aes-192-cfb", str "aes-256-cfb"])) := by
  refine ⟨?_, ?_, ?_⟩
  · intro m password hm hp
    have hlow := toLower_eq_asciiLower mapLower m hm
    rw [hlow]
    obtain ⟨info, hl, -, -, -⟩ := lookup_cipherMethod aes (asciiLower m) hm
    exact ⟨rfl, info, ⟨none, none, evpBytesToKey h password info.keyLen, none, info⟩, hl,
      by simp only [NewCipher, hp, if_false, hl], rfl, rfl, checkCipherMethod_of_mem aes _ hm⟩
  · intro unmarshal file cfg hcfg
    cases file with
    | error e => simp [ParseConfig] at hcfg
    | ok data =>
      cases hu : unmarshal data ⟨[], 0, 0, [], str "aes-256-cfb", 15⟩ with
      | error e => simp [ParseConfig, hu] at hcfg
      | ok cfg0 =>
        simp only [ParseConfig, hu, Option.some.injEq] at hcfg
        exact ⟨data, cfg0, rfl, hu, hcfg.symm⟩
  · intro m password hp
    constructor
    · intro hnone
      cases hl : (cipherMethod aes).lookup m with
      | none => simp [NewCipher, hp, hl] at hnone
      | some info => exact lookup_cipherMethod_some aes m info hl
    · intro hm
      obtain ⟨info, hl, -, -, -⟩ := lookup_cipherMethod aes m hm
      simp only [NewCipher, hp, if_false, hl]

/-- C11, amended, at the method `AES-256-CFB` and the password "pw", with the
Latin-1 lowering for the Unicode part; that lowering takes the method `ÀES`
(UTF-8 `C3 80 45 53`) to `àes` (`C3 A0 65 73`), which the ASCII lowering does
not. -/
theorem method_selection_after_lowering_witness :
    asciiLower (str "AES-256-CFB")
      ∈ [str "aes-128-cfb", str "aes-192-cfb", str "aes-256-cfb"] ∧
    str "pw" ≠ [] ∧
    (toLower latinLower (str "AES-256-CFB") = asciiLower (str "AES-256-CFB") ∧
      ∃ info c,
        (cipherMethod toyAES).lookup (toLower latinLower (str "AES-256-CFB")) = some info ∧
        NewCipher toyMD5 toyAES (toLower latinLower (str "AES-256-CFB")) (str "pw")
          = (some c, none) ∧
        c.info = info ∧ c.key = evpBytesToKey toyMD5 (str "pw") info.keyLen ∧
        CheckCipherMethod toyAES (toLower latinLower (str "AES-256-CFB")) = none) ∧
    toLower latinLower (str "AES-256-CFB") = str "aes-256-cfb" ∧
    toLower latinLower [0xC3, 0x80, 0x45, 0x53] = [0xC3, 0xA0, 0x65, 0x73] ∧
    asciiLower [0xC3, 0x80, 0x45, 0x53] = [0xC3, 0x80, 0x65, 0x73] :=
  ⟨by decide, by decide,
    (method_selection_after_lowering toyMD5 toyAES latinLower).1 (str "AES-256-CFB") (str "pw")
      (by decide) (by decide),
    by decide, by decide, by decide⟩

/-! ### C12: `Copy` -/

/-- C12: `c.Copy()` returns a new cipher with the key, the method info (and
the cached IV) of `c` and with nil encryptor and decryptor, whatever those of
`c` are; on the heap the call allocates a new cell and leaves every cell that
was there, `c` among them, as it was. -/
theorem copy_resets_streams (c : Cipher) :
    (c.Copy.key = c.key ∧ c.Copy.info = c.info ∧ c.Copy.iv = c.iv ∧
      c.Copy.enc.isNone ∧ c.Copy.dec.isNone) ∧
    (∀ (h : CipherHeap) (p : Nat), h.cells[p]? = some c →
      ∃ h', h.copyCall p = some (h', h.cells.length) ∧
        h'.cells[h.cells.length]? = some c.Copy ∧ h'.cells[p]? = some c ∧
        (∀ q, q < h.cells.length → h'.cells[q]? = h.cells[q]?) ∧ h'.rand = h.rand) := by
  refine ⟨⟨rfl, rfl, rfl, rfl, rfl⟩, ?_⟩
  intro h p hp
  have hlt : p < h.cells.length := by
    rcases Nat.lt_or_ge p h.cells.length with hl | hl
    · exact hl
    · rw [List.getElem?_eq_none hl] at hp; cases hp
  refine ⟨{ h with cells := h.cells ++ [c.Copy] }, by simp only [CipherHeap.copyCall, hp], ?_, ?_,
    ?_, rfl⟩
  · simp
  · simp only [List.getElem?_append_left hlt, hp]
  · intro q hq
    simp only [List.getElem?_append_left hq]

/-- C12 at a cipher with a live encryptor and a cached IV, alone on the heap. -/
theorem copy_resets_streams_witness :
    ∃ h', CipherHeap.copyCall
        ⟨[⟨some ⟨id, [], [], 0, false⟩, none, [1], some [2], ⟨16, 16, newAESCFBStream toyAES⟩⟩],
          []⟩ 0 = some (h', 1) ∧
      h'.cells[1]? = some (Cipher.Copy
        ⟨some ⟨id, [], [], 0, false⟩, none, [1], some [2], ⟨16, 16, newAESCFBStream toyAES⟩⟩) ∧
      h'.cells[0]?
        = some ⟨some ⟨id, [], [], 0, false⟩, none, [1], some [2], ⟨16, 16, newAESCFBStream toyAES⟩⟩ ∧
      (∀ q, q < 1 → h'.cells[q]? = (([⟨some ⟨id, [], [], 0, false⟩, none, [1], some [2],
        ⟨16, 16, newAESCFBStream toyAES⟩⟩] : List Cipher))[q]?) ∧ h'.rand = [] :=
  (copy_resets_streams
    ⟨some ⟨id, [], [], 0, false⟩, none, [1], some [2], ⟨16, 16, newAESCFBStream toyAES⟩⟩).2
    ⟨[⟨some ⟨id, [], [], 0, false⟩, none, [1], some [2], ⟨16, 16, newAESCFBStream toyAES⟩⟩], []⟩
    0 rfl

/-! ### C13: the dial retry -/

theorem dial_fail (d : Dialer) (raw : List Byte) (server : GoString) (c : Cipher)
    (hf : (d.outcome d.calls.length).isSome) :
    (d.dial raw server c).1.2.isSome ∧
    (d.dial raw server c).2.calls = d.calls ++ [⟨raw, server, c⟩] ∧
    (d.dial raw server c).2.outcome = d.outcome := by
  cases ho : d.outcome d.calls.length with
  | none => rw [ho] at hf; cases hf
  | some e => simp [Dialer.dial, ho]

theorem dial_ok (d : Dialer) (raw : List Byte) (server : GoString) (c : Cipher)
    (hs : d.outcome d.calls.length = none) :
    (d.dial raw server c).1 = (some d.calls.length, none) ∧
    (d.dial raw server c).2.calls = d.calls ++ [⟨raw, server, c⟩] ∧
    (d.dial raw server c).2.outcome = d.outcome := by
  simp [Dialer.dial, hs]

/-- The retry loop with `i` iterations left, when the `k`-th coming dial is
the first to succeed. -/
theorem connectLoop_first_success (sc : ServerCipher) (raw : List Byte) (address : GoString)
    (k : Nat) : ∀ (i : Nat) (d : Dialer), k < i →
    (∀ j, j < k → (d.outcome (d.calls.length + j)).isSome) →
    d.outcome (d.calls.length + k) = none →
    (connectLoop sc raw address i d).1 = (some (d.calls.length + k), none) ∧
    (connectLoop sc raw address i d).2.calls
      = d.calls ++ List.replicate (k + 1) ⟨raw, sc.Server, sc.Cipher.Copy⟩ ∧
    (connectLoop sc raw address i d).2.outcome = d.outcome := by
  induction k with
  | zero =>
    intro i d hi _ hs
    obtain ⟨i, rfl⟩ : ∃ i', i = i' + 1 := ⟨i - 1, by omega⟩
    obtain ⟨a1, a2, a3⟩ := dial_ok d raw sc.Server sc.Cipher.Copy (by simpa using hs)
    have hn : ¬ (d.dial raw sc.Server sc.Cipher.Copy).1.2.isSome = true := by rw [a1]; simp
    rw [connectLoop, if_neg hn]
    exact ⟨by rw [a1]; rfl, by rw [a2]; rfl, a3⟩
  | succ k ih =>
    intro i d hi hf hs
    obtain ⟨i, rfl⟩ : ∃ i', i = i' + 1 := ⟨i - 1, by omega⟩
    obtain ⟨a1, a2, a3⟩ := dial_fail d raw sc.Server sc.Cipher.Copy
      (by simpa using hf 0 (by omega))
    have hl : (d.dial raw sc.Server sc.Cipher.Copy).2.calls.length = d.calls.length + 1 := by
      rw [a2]; simp
    obtain ⟨b1, b2, b3⟩ := ih i (d.dial raw sc.Server sc.Cipher.Copy).2 (by omega)
      (fun j hj => by
        rw [a3, hl]
        have := hf (j + 1) (by omega)
        rwa [show d.calls.length + 1 + j = d.calls.length + (j + 1) by omega])
      (by rw [a3, hl, show d.calls.length + 1 + k = d.calls.length + (k + 1) by omega]; exact hs)
    rw [connectLoop, if_pos a1]
    refine ⟨?_, ?_, by rw [b3, a3]⟩
    · rw [b1, hl, show d.calls.length + 1 + k = d.calls.length + (k + 1) by omega]
    · rw [b2, a2, List.append_assoc]
      rfl

/-- The retry loop when every one of the `i` coming dials fails. -/
theorem connectLoop_all_fail (sc : ServerCipher) (raw : List Byte) (address : GoString) :
    ∀ (i : Nat) (d : Dialer), (∀ j, j < i → (d.outcome (d.calls.length + j)).isSome) →
    (connectLoop sc raw address i d).1
      = (none, some (Err.text (str "still failed to connect to " ++ address ++ str " after "
          ++ itoa tryConnectCount ++ str " attempts"))) ∧
    (connectLoop sc raw address i d).2.calls
      = d.calls ++ List.replicate i ⟨raw, sc.Server, sc.Cipher.Copy⟩ ∧
    (connectLoop sc raw address i d).2.outcome = d.outcome := by
  intro i
  induction i with
  | zero => intro d _; simp [connectLoop]
  | succ i ih =>
    intro d hf
    obtain ⟨a1, a2, a3⟩ := dial_fail d raw sc.Server sc.Cipher.Copy
      (by simpa using hf 0 (by omega))
    have hl : (d.dial raw sc.Server sc.Cipher.Copy).2.calls.length = d.calls.length + 1 := by
      rw [a2]; simp
    obtain ⟨b1, b2, b3⟩ := ih (d.dial raw sc.Server sc.Cipher.Copy).2
      (fun j hj => by
        rw [a3, hl]
        have := hf (j + 1) (by omega)
        rwa [show d.calls.length + 1 + j = d.calls.length + (j + 1) by omega])
    rw [connectLoop, if_pos a1]
    refine ⟨b1, ?_, by rw [b3, a3]⟩
    rw [b2, a2, List.append_assoc]
    rfl

/-- C13: `connectToServer` dials in order and stops at the first success,
with at most 3 attempts. If the attempt number `k + 1` (`k < 3`) is the first
to succeed, it makes exactly `k + 1` dials and returns that connection and a
nil error; if the first three dials fail, it makes exactly 3 dials and returns
a nil connection and the error "still failed to connect to <address> after 3
attempts". Every dial is given the raw address, the server address and a
`Copy()` of the cipher template. -/
theorem connectToServer_retries (sc : ServerCipher) (rawAddress : List Byte)
    (address : GoString) (d : Dialer) :
    (∀ k, k < 3 → (∀ j, j < k → (d.outcome (d.calls.length + j)).isSome) →
      d.outcome (d.calls.length + k) = none →
      (connectToServer sc rawAddress address d).1 = (some (d.calls.length + k), none) ∧
      (connectToServer sc rawAddress address d).2.calls
        = d.calls ++ List.replicate (k + 1) ⟨rawAddress, sc.Server, sc.Cipher.Copy⟩) ∧
    ((∀ j, j < 3 → (d.outcome (d.calls.length + j)).isSome) →
      (connectToServer sc rawAddress address d).1
        = (none, some (Err.text
            (str "still failed to connect to " ++ address ++ str " after 3 attempts"))) ∧
      (connectToServer sc rawAddress address d).2.calls
        = d.calls ++ List.replicate 3 ⟨rawAddress, sc.Server, sc.Cipher.Copy⟩) := by
  constructor
  · intro k hk hf hs
    obtain ⟨a, b, -⟩ := connectLoop_first_success sc rawAddress address k 3 d hk hf hs
    exact ⟨a, b⟩
  · intro hf
    obtain ⟨a, b, -⟩ := connectLoop_all_fail sc rawAddress address 3 d hf
    refine ⟨?_, b⟩
    rw [connectToServer, tryConnectCount, a]
    have : itoa tryConnectCount = str "3" := by decide
    rw [this]
    simp [str]


/-- C13 at a network whose first two dials fail and whose third succeeds, and
at a network on which every dial fails. -/
theorem connectToServer_retries_witness :
    (2 < 3 ∧
      (∀ j, j < 2 → (((fun k => if k < 2 then some (Err.external k) else none) :
        Nat → Option Err) (0 + j)).isSome) ∧
      ((fun k => if k < 2 then some (Err.external k) else none) : Nat → Option Err) (0 + 2)
        = none) ∧
    (connectToServer ⟨str "h:1", ⟨none, none, [], none, ⟨16, 16, newAESCFBStream toyAES⟩⟩⟩ [1]
        (str "a:1") ⟨fun k => if k < 2 then some (Err.external k) else none, []⟩).1
      = (some 2, none) ∧
    (∀ j, j < 3 → (((fun k => some (Err.external k)) : Nat → Option Err) (0 + j)).isSome) ∧
    (connectToServer ⟨str "h:1", ⟨none, none, [], none, ⟨16, 16, newAESCFBStream toyAES⟩⟩⟩ [1]
        (str "a:1") ⟨fun k => some (Err.external k), []⟩).1
      = (none, some (Err.text (str "still failed to connect to a:1 after 3 attempts"))) :=
  ⟨⟨by decide, by decide, by decide⟩,
    ((connectToServer_retries
      ⟨str "h:1", ⟨none, none, [], none, ⟨16, 16, newAESCFBStream toyAES⟩⟩⟩ [1] (str "a:1")
      ⟨fun k => if k < 2 then some (Err.external k) else none, []⟩).1 2 (by decide) (by decide)
      (by decide)).1,
    by decide,
    ((connectToServer_retries
      ⟨str "h:1", ⟨none, none, [], none, ⟨16, 16, newAESCFBStream toyAES⟩⟩⟩ [1] (str "a:1")
      ⟨fun k => some (Err.external k), []⟩).2 (by decide)).1⟩

/-! ### C14: the relay pump -/

/-- The bytes a read hands to `Write`: all it delivered, when the buffer can
hold them. -/
theorem read_into_buf (buf data : List Byte) (h : data.length ≤ buf.length) :
    min data.length (copy buf data).length = data.length ∧
    sliceRaw (copy buf data) 0 data.length = data := by
  refine ⟨by rw [length_copy]; omega, ?_⟩
  rw [copy_of_length_le _ _ h, sliceRaw, List.drop_zero, List.take_left' rfl]

/-- The non-empty chunks among the bytes of the first `m` reads. -/
theorem pumped_cons_nil (r : List Byte × Option Err) (rest : List (List Byte × Option Err))
    (m : Nat) (h : r.1 = []) :
    (((r :: rest).take (m + 1)).map (fun x => x.1)).filter (fun b => decide (b ≠ []))
      = ((rest.take m).map (fun x => x.1)).filter (fun b => decide (b ≠ [])) := by
  simp [h]

theorem pumped_cons (r : List Byte × Option Err) (rest : List (List Byte × Option Err))
    (m : Nat) (h : r.1 ≠ []) :
    (((r :: rest).take (m + 1)).map (fun x => x.1)).filter (fun b => decide (b ≠ []))
      = r.1 :: ((rest.take m).map (fun x => x.1)).filter (fun b => decide (b ≠ [])) := by
  simp [h]

/-- The loop of `PipeThenClose`: it performs the first `m` reads, writes their
non-empty chunks in order, and stops at the first read with an error or the
first write with an error. -/
theorem pipeLoop_spec : ∀ (reads : List (List Byte × Option Err)) (buf : List Byte)
    (dst : Endpoint), (∀ r ∈ reads, r.1.length ≤ buf.length) →
    ∃ m, m ≤ reads.length ∧
      (pipeLoop reads buf dst).1 = reads.drop m ∧
      (pipeLoop reads buf dst).2.writes = dst.writes ++
        ((reads.take m).map (fun x => x.1)).filter (fun b => decide (b ≠ [])) ∧
      (pipeLoop reads buf dst).2.closes = dst.closes ∧
      (pipeLoop reads buf dst).2.writeErr = dst.writeErr ∧
      (∀ i r, i + 1 < m → reads[i]? = some r → r.2 = none) ∧
      (∀ j, j + 1 < (((reads.take m).map (fun x => x.1)).filter
          (fun b => decide (b ≠ []))).length →
        dst.writeErr (dst.writes.length + j) = none) ∧
      (m < reads.length → 0 < m ∧ ∃ r, reads[m - 1]? = some r ∧
        (r.2 ≠ none ∨ (r.1 ≠ [] ∧ dst.writeErr (dst.writes.length +
          (((reads.take m).map (fun x => x.1)).filter
            (fun b => decide (b ≠ []))).length - 1) ≠ none))) := by
  intro reads
  induction reads with
  | nil =>
    intro buf dst _
    exact ⟨0, le_refl _, rfl, by simp [pipeLoop], rfl, rfl, by simp, by simp, by simp⟩
  | cons r rest ih =>
    intro buf dst hfit
    have hr : r.1.length ≤ buf.length := hfit r (List.mem_cons_self _ _)
    obtain ⟨hn, hsl⟩ := read_into_buf buf r.1 hr
    have hfit' : ∀ x ∈ rest, x.1.length ≤ (copy buf r.1).length := by
      intro x hx; rw [length_copy]; exact hfit x (List.mem_cons_of_mem _ hx)
    by_cases he : r.1 = []
    · -- a read of no bytes: nothing is written
      have hn0 : ¬ (min r.1.length (copy buf r.1).length > 0) := by rw [hn, he]; simp
      by_cases herr : r.2.isSome
      · refine ⟨1, by simp, ?_, ?_, ?_, ?_, ?_, ?_, ?_⟩
        · simp [pipeLoop, hn0, herr]
        · simp [pipeLoop, hn0, herr, he]
        · simp [pipeLoop, hn0, herr]
        · simp [pipeLoop, hn0, herr]
        · intro i x hi; omega
        · intro j hj; simp [he] at hj
        · intro _
          refine ⟨by omega, r, by simp, Or.inl ?_⟩
          intro h; rw [h] at herr; cases herr
      · obtain ⟨m, h1, h2, h3, h4, h5, h6, h7, h8⟩ := ih (copy buf r.1) dst hfit'
        have hnone : r.2 = none := by
          cases h : r.2 with
          | none => rfl
          | some e => rw [h] at herr; exact absurd rfl herr
        have hstep : pipeLoop (r :: rest) buf dst = pipeLoop rest (copy buf r.1) dst := by
          simp [pipeLoop, hn0, herr]
        refine ⟨m + 1, by simp; omega, ?_, ?_, ?_, ?_, ?_, ?_, ?_⟩
        · rw [hstep, h2]; rfl
        · rw [hstep, h3, pumped_cons_nil r rest m he]
        · rw [hstep, h4]
        · rw [hstep, h5]
        · intro i x hi hx
          cases i with
          | zero => simp at hx; rw [← hx]; exact hnone
          | succ i => exact h6 i x (by omega) (by simpa using hx)
        · intro j hj
          rw [pumped_cons_nil r rest m he] at hj
          exact h7 j hj
        · intro hm
          obtain ⟨hpos, x, hx, hstop⟩ := h8 (by simpa using hm)
          refine ⟨by omega, x, ?_, ?_⟩
          · obtain ⟨m', rfl⟩ : ∃ m', m = m' + 1 := ⟨m - 1, by omega⟩
            simpa using hx
          · rw [pumped_cons_nil r rest m he]; exact hstop
    · -- a read of some bytes: they are written
      have hlen : 0 < r.1.length := List.length_pos.2 he
      have hn1 : min r.1.length (copy buf r.1).length > 0 := by rw [hn]; exact hlen
      have hw : dst.write (sliceRaw (copy buf r.1) 0 (min r.1.length (copy buf r.1).length))
          = (dst.writeErr dst.writes.length, { dst with writes := dst.writes ++ [r.1] }) := by
        rw [hn, hsl]; rfl
      by_cases hwe : (dst.writeErr dst.writes.length).isSome
      · refine ⟨1, by simp, ?_, ?_, ?_, ?_, ?_, ?_, ?_⟩
        · simp [pipeLoop, hn1, hw, hwe]
        · simp [pipeLoop, hn1, hw, hwe, he]
        · simp [pipeLoop, hn1, hw, hwe]
        · simp [pipeLoop, hn1, hw, hwe]
        · intro i x hi; omega
        · intro j hj; simp [he] at hj
        · intro _
          refine ⟨by omega, r, by simp, Or.inr ⟨he, ?_⟩⟩
          have hW1 : (((r :: rest).take 1).map (fun x => x.1)).filter
              (fun b => decide (b ≠ [])) = [r.1] := by
            have := pumped_cons r rest 0 he
            simpa using this
          rw [hW1, List.length_singleton, Nat.add_sub_cancel]
          intro h; rw [h] at hwe; cases hwe
      · have hwnone : dst.writeErr dst.writes.length = none := by
          cases h : dst.writeErr dst.writes.length with
          | none => rfl
          | some e => rw [h] at hwe; exact absurd rfl hwe
        by_cases herr : r.2.isSome
        · refine ⟨1, by simp, ?_, ?_, ?_, ?_, ?_, ?_, ?_⟩
          · simp [pipeLoop, hn1, hw, hwe, herr]
          · simp [pipeLoop, hn1, hw, hwe, herr, he]
          · simp [pipeLoop, hn1, hw, hwe, herr]
          · simp [pipeLoop, hn1, hw, hwe, herr]
          · intro i x hi; omega
          · intro j hj; simp [he] at hj
          · intro _
            refine ⟨by omega, r, by simp, Or.inl ?_⟩
            intro h; rw [h] at herr; cases herr
        · have hnone : r.2 = none := by
            cases h : r.2 with
            | none => rfl
            | some e => rw [h] at herr; exact absurd rfl herr
          obtain ⟨m, h1, h2, h3, h4, h5, h6, h7, h8⟩ :=
            ih (copy buf r.1) { dst with writes := dst.writes ++ [r.1] } hfit'
          have hstep : pipeLoop (r :: rest) buf dst
              = pipeLoop rest (copy buf r.1) { dst with writes := dst.writes ++ [r.1] } := by
            simp [pipeLoop, hn1, hw, hwe, herr]
          simp only [List.length_append, List.length_singleton] at h7 h8
          refine ⟨m + 1, by simp; omega, ?_, ?_, ?_, ?_, ?_, ?_, ?_⟩
          · rw [hstep, h2]; rfl
          · rw [hstep, h3, pumped_cons r rest m he]; simp
          · rw [hstep, h4]
          · rw [hstep, h5]
          · intro i x hi hx
            cases i with
            | zero => simp at hx; rw [← hx]; exact hnone
            | succ i => exact h6 i x (by omega) (by simpa using hx)
          · intro j hj
            rw [pumped_cons r rest m he, List.length_cons] at hj
            cases j with
            | zero => exact hwnone
            | succ j =>
              have := h7 j (by omega)
              rwa [show dst.writes.length + 1 + j = dst.writes.length + (j + 1) by omega] at this
          · intro hm
            obtain ⟨hpos, x, hx, hstop⟩ := h8 (by simpa using hm)
            refine ⟨by omega, x, ?_, ?_⟩
            · obtain ⟨m', rfl⟩ : ∃ m', m = m' + 1 := ⟨m - 1, by omega⟩
              simpa using hx
            · rw [pumped_cons r rest m he, List.length_cons]
              rcases hstop with hs | ⟨hs1, hs2⟩
              · exact Or.inl hs
              · refine Or.inr ⟨hs1, ?_⟩
                have e : dst.writes.length +
                    ((((rest.take m).map (fun x => x.1)).filter
                      (fun b => decide (b ≠ []))).length + 1) - 1
                    = dst.writes.length + 1 +
                    (((rest.take m).map (fun x => x.1)).filter
                      (fun b => decide (b ≠ []))).length - 1 := by omega
                rw [e]; exact hs2


/-- C14: `PipeThenClose(src, dst)` performs the first `m` reads of `src` and
writes to `dst`, in order and unmodified, exactly their non-empty chunks. The
reads before the last one performed returned no error and the writes before
the last one succeeded; when reads are left over, the last read performed
returned an error, or its bytes were written and that write returned an error.
Bytes that come together with a read error are thus written before the pump
stops. Afterwards `dst.Close` has been called exactly once more and `src` has
not been closed. -/
theorem pipeThenClose_pumps (src dst : Endpoint) (buf : List Byte)
    (hfit : ∀ r ∈ src.reads, r.1.length ≤ buf.length) :
    ∃ m, m ≤ src.reads.length ∧
      (PipeThenClose src dst buf).1.reads = src.reads.drop m ∧
      (PipeThenClose src dst buf).2.writes = dst.writes ++
        ((src.reads.take m).map (fun x => x.1)).filter (fun b => decide (b ≠ [])) ∧
      (∀ i r, i + 1 < m → src.reads[i]? = some r → r.2 = none) ∧
      (∀ j, j + 1 < (((src.reads.take m).map (fun x => x.1)).filter
          (fun b => decide (b ≠ []))).length →
        dst.writeErr (dst.writes.length + j) = none) ∧
      (m < src.reads.length → 0 < m ∧ ∃ r, src.reads[m - 1]? = some r ∧
        (r.2 ≠ none ∨ (r.1 ≠ [] ∧ dst.writeErr (dst.writes.length +
          (((src.reads.take m).map (fun x => x.1)).filter
            (fun b => decide (b ≠ []))).length - 1) ≠ none))) ∧
      (PipeThenClose src dst buf).2.closes = dst.closes + 1 ∧
      (PipeThenClose src dst buf).1.closes = src.closes ∧
      (PipeThenClose src dst buf).1.writes = src.writes := by
  obtain ⟨m, h1, h2, h3, h4, -, h6, h7, h8⟩ := pipeLoop_spec src.reads buf dst hfit
  exact ⟨m, h1, h2, h3, h6, h7, h8, by simp [PipeThenClose, Endpoint.close, h4], rfl, rfl⟩

/-- C14 at a source whose third read returns one byte together with `io.EOF`,
after a read of two bytes and a read of none. -/
theorem pipeThenClose_pumps_witness :
    (∀ r ∈ [(([1, 2] : List Byte), (none : Option Err)), ([], none), ([3], some Err.eof),
        ([4], none)], r.1.length ≤ (make 8).length) ∧
    (PipeThenClose ⟨[([1, 2], none), ([], none), ([3], some Err.eof), ([4], none)], [],
        fun _ => none, 0⟩ ⟨[], [], fun _ => none, 0⟩ (make 8)).2.writes = [[1, 2], [3]] ∧
    (PipeThenClose ⟨[([1, 2], none), ([], none), ([3], some Err.eof), ([4], none)], [],
        fun _ => none, 0⟩ ⟨[], [], fun _ => none, 0⟩ (make 8)).2.closes = 1 ∧
    ∃ m, m ≤ 4 ∧
      (PipeThenClose ⟨[([1, 2], none), ([], none), ([3], some Err.eof), ([4], none)], [],
        fun _ => none, 0⟩ ⟨[], [], fun _ => none, 0⟩ (make 8)).1.reads
        = List.drop m [([1, 2], none), ([], none), ([3], some Err.eof), ([4], none)] :=
  ⟨by decide, by decide, by decide,
    (pipeThenClose_pumps
      ⟨[([1, 2], none), ([], none), ([3], some Err.eof), ([4], none)], [], fun _ => none, 0⟩
      ⟨[], [], fun _ => none, 0⟩ (make 8) (by decide)).imp (fun _ h => ⟨h.1, h.2.1⟩)⟩

/-! ### C15 and C16: the remote session handler -/

theorem pipeLoop_closes : ∀ (reads : List (List Byte × Option Err)) (buf : List Byte)
    (dst : Endpoint), (pipeLoop reads buf dst).2.closes = dst.closes := by
  intro reads
  induction reads with
  | nil => intro buf dst; rfl
  | cons r rest ih =>
    intro buf dst
    simp only [pipeLoop]
    split_ifs <;> first | rfl | (rw [ih]; rfl) | (rw [ih])

theorem pipeThenClose_closes (src dst : Endpoint) (buf : List Byte) :
    (PipeThenClose src dst buf).2.closes = dst.closes + 1 := by
  simp [PipeThenClose, Endpoint.close, pipeLoop_closes]

/-- The body of the remote handler, by the result of the decoder. -/
theorem handleBody_eq (ip : List Byte → GoString) (conn : Reader) (connOut : Endpoint)
    (dial : GoString → Except Err Endpoint) (buf : List Byte) (d : Server.Decoded)
    (hd : Server.getRequest ip conn = some d) :
    (d.err ≠ none →
      Server.handleBody ip conn connOut dial buf = some ⟨[], 0, connOut, none, true⟩) ∧
    (d.err = none → (0 : Byte) ∈ d.address →
      Server.handleBody ip conn connOut dial buf = some ⟨[], 0, connOut, none, true⟩) ∧
    (d.err = none → (0 : Byte) ∉ d.address → ∀ e, dial d.address = Except.error e →
      Server.handleBody ip conn connOut dial buf
        = some ⟨[d.address], 0, connOut, none, false⟩) ∧
    (d.err = none → (0 : Byte) ∉ d.address → ∀ remote, dial d.address = Except.ok remote →
      Server.handleBody ip conn connOut dial buf
        = some ⟨[d.address], 2, (PipeThenClose remote connOut buf).2,
            some (PipeThenClose remote connOut buf).1, true⟩) := by
  refine ⟨?_, ?_, ?_, ?_⟩
  · intro he
    have : d.err.isSome = true := by
      cases h : d.err with
      | none => exact absurd h he
      | some e => rfl
    simp only [Server.handleBody, hd, this, if_true]
  · intro he hz
    simp only [Server.handleBody, hd, he, Option.isSome_none, Bool.false_eq_true, if_false, hz,
      if_true]
  · intro he hz e hdial
    simp only [Server.handleBody, hd, he, Option.isSome_none, Bool.false_eq_true, if_false, hz,
      hdial]
  · intro he hz remote hdial
    simp only [Server.handleBody, hd, he, Option.isSome_none, Bool.false_eq_true, if_false, hz,
      hdial]

/-- C15 fails on the code: on an address-decoding error (ATYP 9) the remote
handler returns with `conn.Close` never called. -/
theorem handler_leaves_conn_open :
    (Server.getRequest ipv4String [[9]]).map (fun d => d.err)
      = some (some (Err.addrTypeNotSupported 9)) ∧
    (Server.handleConnection ipv4String [[9]] ⟨[], [], fun _ => none, 0⟩
      (fun _ => Except.error (Err.external 1)) (make 8)).map (fun s => s.conn.closes)
      = some 0 := by
  decide

/-- C15, amended: the remote handler always returns; on a dial failure and at
the normal end of the relay `conn.Close` has been called exactly once by the
time it returns (by the deferred function, or by the relay pump the handler
runs); on an address-decoding error and on a decoded address with a NUL byte
it sets `closed` and returns without calling `conn.Close`. -/
theorem handler_closes_conn (ipString : List Byte → GoString) (conn : Reader)
    (connOut : Endpoint) (dial : GoString → Except Err Endpoint) (buf : List Byte) :
    ∃ d s, Server.getRequest ipString conn = some d ∧
      Server.handleConnection ipString conn connOut dial buf = some s ∧
      (d.err = none → (0 : Byte) ∉ d.address → (∃ e, dial d.address = Except.error e) →
        s.conn.closes = connOut.closes + 1) ∧
      (d.err = none → (0 : Byte) ∉ d.address → (∃ remote, dial d.address = Except.ok remote) →
        s.conn.closes = connOut.closes + 1) ∧
      (d.err ≠ none → s.conn.closes = connOut.closes ∧ s.closed = true) ∧
      (d.err = none → (0 : Byte) ∈ d.address →
        s.conn.closes = connOut.closes ∧ s.closed = true) := by
  obtain ⟨d, hd, -⟩ := remote_total ipString conn
  obtain ⟨b1, b2, b3, b4⟩ := handleBody_eq ipString conn connOut dial buf d hd
  by_cases he : d.err = none
  · by_cases hz : (0 : Byte) ∈ d.address
    · refine ⟨d, _, hd, by rw [Server.handleConnection, b2 he hz]; rfl, ?_, ?_, ?_, ?_⟩
      · intro _ h; exact absurd hz h
      · intro _ h; exact absurd hz h
      · intro h; exact absurd he h
      · intro _ _; exact ⟨rfl, rfl⟩
    · cases hdial : dial d.address with
      | error e =>
        refine ⟨d, _, hd, by rw [Server.handleConnection, b3 he hz e hdial]; rfl, ?_, ?_, ?_, ?_⟩
        · intro _ _ _; rfl
        · rintro _ _ ⟨remote, h⟩; rw [hdial] at h; cases h
        · intro h; exact absurd he h
        · intro _ h; exact absurd h hz
      | ok remote =>
        refine ⟨d, _, hd, by rw [Server.handleConnection, b4 he hz remote hdial]; rfl,
          ?_, ?_, ?_, ?_⟩
        · rintro _ _ ⟨e, h⟩; rw [hdial] at h; cases h
        · intro _ _ _; exact pipeThenClose_closes remote connOut buf
        · intro h; exact absurd he h
        · intro _ h; exact absurd h hz
  · refine ⟨d, _, hd, by rw [Server.handleConnection, b1 he]; rfl, ?_, ?_, ?_, ?_⟩
    · intro h; exact absurd h he
    · intro h; exact absurd h he
    · intro _; exact ⟨rfl, rfl⟩
    · intro h; exact absurd h he


/-- C15, amended, at an IPv4 preamble whose dial fails. -/
theorem handler_closes_conn_witness :
    ∃ s, Server.handleConnection ipv4String [[1, 127, 0, 0, 1, 0, 80]]
        ⟨[], [], fun _ => none, 0⟩ (fun _ => Except.error (Err.external 1)) (make 8) = some s ∧
      s.conn.closes = 0 + 1 := by
  obtain ⟨d, s, hd, hs, h1, -⟩ := handler_closes_conn ipv4String [[1, 127, 0, 0, 1, 0, 80]]
    ⟨[], [], fun _ => none, 0⟩ (fun _ => Except.error (Err.external 1)) (make 8)
  have e : Server.getRequest ipv4String [[1, 127, 0, 0, 1, 0, 80]]
      = some ⟨str "127.0.0.1:80", none, []⟩ := by decide
  rw [e] at hd
  cases hd
  exact ⟨s, hs, h1 rfl (by decide) ⟨_, rfl⟩⟩

/-- C16: when the decoded address contains a NUL byte, the remote handler
returns with no dial made and no relay pump started; when the decoder succeeds
with an address without a NUL byte, the handler dials exactly that address
string, once. -/
theorem handler_dials_clean_address (ipString : List Byte → GoString) (conn : Reader)
    (connOut : Endpoint) (dial : GoString → Except Err Endpoint) (buf : List Byte)
    (d : Server.Decoded) (hd : Server.getRequest ipString conn = some d) (he : d.err = none) :
    ((0 : Byte) ∈ d.address →
      ∃ s, Server.handleConnection ipString conn connOut dial buf = some s ∧
        s.dials = [] ∧ s.pumps = 0 ∧ s.remote.isNone) ∧
    ((0 : Byte) ∉ d.address →
      ∃ s, Server.handleConnection ipString conn connOut dial buf = some s ∧
        s.dials = [d.address]) := by
  obtain ⟨-, b2, b3, b4⟩ := handleBody_eq ipString conn connOut dial buf d hd
  constructor
  · intro hz
    exact ⟨Server.deferred ⟨[], 0, connOut, none, true⟩,
      by rw [Server.handleConnection, b2 he hz]; rfl, rfl, rfl, rfl⟩
  · intro hz
    cases hdial : dial d.address with
    | error e =>
      exact ⟨Server.deferred ⟨[d.address], 0, connOut, none, false⟩,
        by rw [Server.handleConnection, b3 he hz e hdial]; rfl, rfl⟩
    | ok remote =>
      exact ⟨Server.deferred ⟨[d.address], 2, (PipeThenClose remote connOut buf).2,
          some (PipeThenClose remote connOut buf).1, true⟩,
        by rw [Server.handleConnection, b4 he hz remote hdial]; rfl, rfl⟩

/-- C16 at the preamble of the specification with the domain `ex\0mple.com`,
and at the preamble of `example.com:443`. -/
theorem handler_dials_clean_address_witness :
    (Server.getRequest ipv4String [[3, 11] ++ str "ex" ++ [0] ++ str "mple.com" ++ [1, 187]]
      = some ⟨str "ex" ++ [0] ++ str "mple.com:443", none, []⟩ ∧
      (0 : Byte) ∈ str "ex" ++ [0] ++ str "mple.com:443" ∧
      ∃ s, Server.handleConnection ipv4String
          [[3, 11] ++ str "ex" ++ [0] ++ str "mple.com" ++ [1, 187]]
          ⟨[], [], fun _ => none, 0⟩ (fun _ => Except.error (Err.external 1)) (make 8) = some s ∧
        s.dials = [] ∧ s.pumps = 0 ∧ s.remote.isNone) ∧
    (Server.getRequest ipv4String [[3, 11] ++ str "example.com" ++ [1, 187]]
      = some ⟨str "example.com:443", none, []⟩ ∧
      (0 : Byte) ∉ str "example.com:443" ∧
      ∃ s, Server.handleConnection ipv4String [[3, 11] ++ str "example.com" ++ [1, 187]]
          ⟨[], [], fun _ => none, 0⟩ (fun _ => Except.error (Err.external 1)) (make 8) = some s ∧
        s.dials = [str "example.com:443"]) :=
  ⟨⟨by decide, by decide,
      (handler_dials_clean_address ipv4String
        [[3, 11] ++ str "ex" ++ [0] ++ str "mple.com" ++ [1, 187]] ⟨[], [], fun _ => none, 0⟩
        (fun _ => Except.error (Err.external 1)) (make 8)
        ⟨str "ex" ++ [0] ++ str "mple.com:443", none, []⟩ (by decide) rfl).1 (by decide)⟩,
    ⟨by decide, by decide,
      (handler_dials_clean_address ipv4String [[3, 11] ++ str "example.com" ++ [1, 187]]
        ⟨[], [], fun _ => none, 0⟩ (fun _ => Except.error (Err.external 1)) (make 8)
        ⟨str "example.com:443", none, []⟩ (by decide) rfl).2 (by decide)⟩⟩

/-! ### C17: the block count of the key derivation -/

/-- C17 fails on the code: for the key length 24 the block count is 2, not
`ceil(24/16) + 1 = 3`. -/
theorem evpCnt_24_is_two : evpCnt 24 = 2 ∧ evpCnt 24 ≠ (24 + 15) / 16 + 1 := by
  decide

/-- C17, amended: for every key length the block count of `evpBytesToKey` is
`floor(keyLen/16) + 1`, and the buffer `m` it fills has that many 16-byte
blocks. That is `ceil(keyLen/16) + 1`, one block more than needed, when
`keyLen` is a multiple of 16 (2 for 16, 3 for 32) and `ceil(keyLen/16)`,
exactly the blocks needed, otherwise (2 for 24). -/
theorem evpCnt_floor (keyLen : Nat) :
    evpCnt keyLen = keyLen / 16 + 1 ∧
    (keyLen % 16 = 0 → evpCnt keyLen = (keyLen + 15) / 16 + 1) ∧
    (keyLen % 16 ≠ 0 → evpCnt keyLen = (keyLen + 15) / 16) ∧
    evpCnt 16 = 2 ∧ evpCnt 24 = 2 ∧ evpCnt 32 = 3 := by
  have h := evpCnt_eq keyLen
  refine ⟨h, ?_, ?_, by decide, by decide, by decide⟩
  · intro hm; rw [h]; omega
  · intro hm; rw [h]; omega

/-- C17, amended, at the key lengths 32 and 24. -/
theorem evpCnt_floor_witness :
    32 % 16 = 0 ∧ evpCnt 32 = (32 + 15) / 16 + 1 ∧ 24 % 16 ≠ 0 ∧ evpCnt 24 = (24 + 15) / 16 :=
  ⟨by decide, (evpCnt_floor 32).2.1 (by decide), by decide, (evpCnt_floor 24).2.2.1 (by decide)⟩

/-! ### C18: the startup check and the constructor -/

/-- The startup check and the constructor agree on every method but the empty
string. -/
theorem check_iff_newCipher (h : MD5) (aes : AES) (m password : GoString) (hm : m ≠ [])
    (hp : password ≠ []) :
    CheckCipherMethod aes m = none ↔ (NewCipher h aes m password).2 = none := by
  simp only [CheckCipherMethod, hm, if_false, NewCipher, hp]
  cases (cipherMethod aes).lookup m <;> simp

/-- C18 fails on the code: the empty method passes `CheckCipherMethod`, which
reads it as `aes-256-cfb`, and fails `NewCipher`, which looks it up as
written. -/
theorem empty_method_passes_check_only :
    str "pw" ≠ [] ∧ CheckCipherMethod toyAES [] = none ∧
    (NewCipher toyMD5 toyAES [] (str "pw")).1.isNone ∧
    (NewCipher toyMD5 toyAES [] (str "pw")).2 = some (Err.unsupportedMethod []) := by
  decide

/-! ### C19: buffer bounds of the decoders -/

theorem length_readAtLeast_buf (rd : Reader) (N min : Nat) (hmin : min ≤ N) :
    (readAtLeast rd (make N) min).buf.length = N := by
  obtain ⟨a1, a2, a3, -⟩ := readAtLeast_spec rd (make N) min (by simp [length_make, hmin])
  rw [length_make] at a1
  rw [a3]
  simp [length_make]
  omega

/-- The greeting decoder never panics: `buf[n:msgLen]` is only taken with
`n < msgLen ≤ 257`. -/
theorem handShake_total (con : Conn) : ∃ r, Client.handShake con = some r := by
  have hbl := length_readAtLeast_buf con.rd 258 2 (by omega)
  rw [Client.handShake_eq con _ rfl]
  split_ifs with h1 h2 h3 h4
  · exact ⟨_, rfl⟩
  · exact ⟨_, rfl⟩
  · exact ⟨_, rfl⟩
  · have hL := (byteAt (readAtLeast con.rd (make 258) 2).buf 1).isLt
    obtain ⟨res, e1, -⟩ := readFullAt_spec (readAtLeast con.rd (make 258) 2).rd
      (readAtLeast con.rd (make 258) 2).buf (readAtLeast con.rd (make 258) 2).n
      ((byteAt (readAtLeast con.rd (make 258) 2).buf 1).val + 2) (by omega) (by omega)
    rw [e1]
    simp only []
    split_ifs
    · exact ⟨_, rfl⟩
    · exact ⟨_, rfl⟩
  · exact ⟨_, rfl⟩

/-- The request decoder of the local agent panics only on a domain of 251
bytes or more: every other slice it takes is within its 262-byte buffer. -/
theorem local_getRequest_panics_only (ip : List Byte → GoString) (conn : Conn)
    (hp : Client.getRequest ip conn = none) :
    byteAt conn.rd.bytes 3 = 3 ∧ 251 ≤ (byteAt conn.rd.bytes 4).val := by
  generalize hr : readAtLeast conn.rd (make 262) 5 = r at *
  by_cases h0 : r.err = none
  swap
  · rw [Client.getRequest_eq ip conn r hr, if_pos (by cases h : r.err <;> simp_all)] at hp
    cases hp
  obtain ⟨b1, b2, b3, b4, b5⟩ := Client.firstRead_spec conn.rd r 262 5 (by omega) hr h0
  have hb : ∀ i, i < 5 → byteAt r.buf i = byteAt conn.rd.bytes i := by
    intro i hi; rw [b4]; exact byteAt_take_append _ _ _ _ (by omega) b3
  have hrl : Client.reqLenOf r.buf = Client.reqLenOf conn.rd.bytes := by
    simp only [Client.reqLenOf, Client.idAtyp, Client.idDmLen, hb 3 (by omega), hb 4 (by omega)]
  by_cases h1 : byteAt r.buf 0 = 5
  swap
  · rw [Client.getRequest_errVer ip conn r hr h0 h1] at hp; cases hp
  by_cases h2 : byteAt r.buf 1 = 1
  swap
  · rw [Client.getRequest_errCmd ip conn r hr h0 h1 h2] at hp; cases hp
  cases h3 : Client.reqLenOf r.buf with
  | none => rw [Client.getRequest_errAddrType ip conn r hr h0 h1 h2 h3] at hp; cases hp
  | some reqLen =>
    rcases Nat.lt_or_ge reqLen r.n with h4 | h4
    · rw [Client.getRequest_errReqExtraData ip conn r reqLen hr h0 h1 h2 h3 h4] at hp; cases hp
    · obtain ⟨g1, g2⟩ := Client.getRequest_run ip conn r reqLen hr h0 h1 h2 h3 h4
      rcases Nat.lt_or_ge conn.rd.bytes.length reqLen with hs | hs
      · obtain ⟨e, he⟩ := g2 hs
        rw [he] at hp; cases hp
      · obtain ⟨rd', -, hg⟩ := g1 hs
        obtain ⟨-, f2⟩ := local_finish_total ip conn.rd.bytes reqLen ⟨rd', conn.wr, conn.wout⟩ hs
          (by rw [← hrl, h3])
        by_contra hgood
        obtain ⟨req, e1, -⟩ := f2 hgood
        rw [hg, e1] at hp
        cases hp

/-- C19 fails on the code for the local `getRequest`: on a request for a
domain of 255 bytes, delivered in two fragments, the upper bound of
`buf[idDm0 : idDm0+buf[idDmLen]]` is `5 + 255` in `byte` arithmetic, that is
4, below the lower bound 5, and the decoder panics. -/
theorem domain_slice_bound_wraps :
    ((Fin.ofNat Client.idDm0 + (255 : Byte) : Byte)).val = 4 ∧
    slice (make 262) Client.idDm0 ((Fin.ofNat Client.idDm0 + (255 : Byte) : Byte)).val = none ∧
    Client.getRequest ipv4String
      ⟨[[5, 1, 0, 3, 255], List.replicate 255 97 ++ [0, 80]], [], []⟩ = none := by
  decide

/-! ### C20: the template and its copies -/

/-- What `NewCipher` returns on success. -/
theorem newCipher_inv (h : MD5) (aes : AES) (method password : GoString) (c : Cipher)
    (hc : NewCipher h aes method password = (some c, none)) :
    c.iv = none ∧ c.enc.isNone ∧ c.dec.isNone ∧
    (c.key.length = 16 ∨ c.key.length = 24 ∨ c.key.length = 32) ∧ c.info.ivLen = 16 ∧
    c.info.newStream = newAESCFBStream aes := by
  by_cases hp : password = []
  · simp [NewCipher, hp] at hc
  · cases hl : (cipherMethod aes).lookup method with
    | none => simp [NewCipher, hp, hl] at hc
    | some info =>
      have hm := lookup_cipherMethod_some aes method info hl
      obtain ⟨info', hl', hk, hiv, hns⟩ := lookup_cipherMethod aes method hm
      rw [hl] at hl'
      cases hl'
      simp only [NewCipher, hp, if_false, hl, Prod.mk.injEq, Option.some.injEq, and_true] at hc
      subst hc
      refine ⟨rfl, rfl, rfl, ?_, hiv, hns⟩
      show (evpBytesToKey h password info.keyLen).length = 16 ∨ _
      rw [length_evpBytesToKey]
      exact hk

/-- The first `initEncrypt` of a cipher without a cached IV: it draws 16 bytes
and caches them. -/
theorem initEncrypt_fresh (aes : AES) (ce : Cipher) (rand : Reader)
    (hk : ce.key.length = 16 ∨ ce.key.length = 24 ∨ ce.key.length = 32)
    (hiv : ce.info.ivLen = 16) (hns : ce.info.newStream = newAESCFBStream aes)
    (hnil : ce.iv = none) (hrand : 16 ≤ rand.bytes.length) :
    ∃ nc rand', ce.initEncrypt rand = some ((some (rand.bytes.take 16), none), nc, rand') ∧
      rand'.bytes = rand.bytes.drop 16 ∧ nc.iv = some (rand.bytes.take 16) ∧
      nc.key = ce.key ∧ nc.info = ce.info := by
  obtain ⟨r1, r2, r3⟩ := readFull_make rand 16 hrand
  have hivl : (rand.bytes.take 16).length = 16 := by simp; omega
  obtain ⟨xe, hE, -⟩ :=
    newAESCFBStream_ok aes ce.key (rand.bytes.take 16) DecOrEnc.Encrypt hk hivl
  refine ⟨{ ce with iv := some (rand.bytes.take 16), enc := some xe },
    (readFull rand (make 16)).rd, ?_, r3, rfl, rfl, rfl⟩
  simp only [Cipher.initEncrypt, hnil, hiv, r1, r2, hns, hE]
  rfl

/-- A later `initEncrypt` of a cipher with a cached IV: it draws nothing and
returns the cached IV. -/
theorem initEncrypt_cached (aes : AES) (ce : Cipher) (iv : List Byte) (rand : Reader)
    (hk : ce.key.length = 16 ∨ ce.key.length = 24 ∨ ce.key.length = 32)
    (hns : ce.info.newStream = newAESCFBStream aes)
    (hc : ce.iv = some iv) (hivl : iv.length = 16) :
    ∃ nc, ce.initEncrypt rand = some ((some iv, none), nc, rand) ∧ nc.iv = some iv := by
  obtain ⟨xe, hE, -⟩ := newAESCFBStream_ok aes ce.key iv DecOrEnc.Encrypt hk hivl
  refine ⟨{ ce with enc := some xe }, ?_, hc⟩
  simp only [Cipher.initEncrypt, hc, hns, hE]
  rfl

/-- A call on the heap leaves every cell but the one `initEncrypt` is called
on as it was, and frees none. -/
theorem heap_step_frame (h h' : CipherHeap) (op : CipherOp) (q : Nat)
    (hq : q < h.cells.length) (hop : op ≠ CipherOp.initEncrypt q)
    (hs : h.step op = some h') :
    h'.cells[q]? = h.cells[q]? ∧ q < h'.cells.length := by
  cases op with
  | copy p =>
    simp only [CipherHeap.step, CipherHeap.copyCall] at hs
    cases hp : h.cells[p]? with
    | none => simp [hp] at hs
    | some c =>
      simp only [hp, Option.map_some', Option.some.injEq] at hs
      subst hs
      exact ⟨List.getElem?_append_left hq, by simp; omega⟩
  | initEncrypt p =>
    have hne : p ≠ q := fun e => hop (by rw [e])
    simp only [CipherHeap.step, CipherHeap.initEncryptCall] at hs
    cases hp : h.cells[p]? with
    | none => simp [hp] at hs
    | some c =>
      cases hi : c.initEncrypt h.rand with
      | none => simp [hp, hi] at hs
      | some r =>
        simp only [hp, hi, Option.map_some', Option.some.injEq] at hs
        subst hs
        exact ⟨by simp [List.getElem?_set_ne hne], by simpa using hq⟩

theorem heap_run_frame (ops : List CipherOp) : ∀ (h h' : CipherHeap) (q : Nat),
    q < h.cells.length → CipherOp.initEncrypt q ∉ ops → h.run ops = some h' →
    h'.cells[q]? = h.cells[q]? := by
  induction ops with
  | nil => intro h h' q _ _ hs; simp only [CipherHeap.run, Option.some.injEq] at hs; rw [hs]
  | cons op ops ih =>
    intro h h' q hq hno hs
    simp only [CipherHeap.run] at hs
    cases h1 : h.step op with
    | none => simp [h1] at hs
    | some hm =>
      simp only [h1] at hs
      obtain ⟨f1, f2⟩ := heap_step_frame h hm op q hq
        (fun e => hno (by rw [e]; exact List.mem_cons_self _ _)) h1
      rw [ih hm h' q f2 (fun hmem => hno (List.mem_cons_of_mem _ hmem)) hs, f1]

/-- C20: let `c` be the template `NewCipher` returns. Its `iv` is nil and it
stays as it is under every sequence of `Copy()` calls, on the template or on
copies, and `initEncrypt` calls on the copies. An `initEncrypt` call changes
no cell but its own. The first `initEncrypt` on a copy of the template draws
exactly 16 bytes from the random source, returns them as the IV and caches
them in the copy; a later `initEncrypt` on the same copy, or on a `Copy()` of
it, draws nothing and returns the same IV. -/
theorem template_iv_stays_nil (h : MD5) (aes : AES) (method password : GoString) (c : Cipher)
    (hc : NewCipher h aes method password = (some c, none)) :
    c.iv = none ∧
    (∀ (rand : Reader) (ops : List CipherOp) (hp : CipherHeap),
      CipherOp.initEncrypt 0 ∉ ops → CipherHeap.run ⟨[c], rand⟩ ops = some hp →
      hp.cells[0]? = some c) ∧
    (∀ (hp hp' : CipherHeap) (p q : Nat) (r : Option (List Byte) × Option Err),
      q ≠ p → hp.initEncryptCall p = some (r, hp') → hp'.cells[q]? = hp.cells[q]?) ∧
    (∀ rand : Reader, 16 ≤ rand.bytes.length →
      ∃ nc rand', c.Copy.initEncrypt rand = some ((some (rand.bytes.take 16), none), nc, rand') ∧
        rand'.bytes = rand.bytes.drop 16 ∧ nc.iv = some (rand.bytes.take 16) ∧
        (∀ rand2 : Reader, ∃ nc2,
          nc.initEncrypt rand2 = some ((some (rand.bytes.take 16), none), nc2, rand2) ∧
          nc2.iv = some (rand.bytes.take 16)) ∧
        (∀ rand2 : Reader, ∃ nc3,
          nc.Copy.initEncrypt rand2
            = some ((some (rand.bytes.take 16), none), nc3, rand2))) := by
  obtain ⟨hnil, -, -, hk, hiv, hns⟩ := newCipher_inv h aes method password c hc
  refine ⟨hnil, ?_, ?_, ?_⟩
  · intro rand ops hp hno hrun
    exact heap_run_frame ops ⟨[c], rand⟩ hp 0 (by simp) hno hrun
  · intro hp hp' p q r hne hcall
    simp only [CipherHeap.initEncryptCall] at hcall
    cases hcell : hp.cells[p]? with
    | none => simp [hcell] at hcall
    | some x =>
      cases hi : x.initEncrypt hp.rand with
      | none => simp [hcell, hi] at hcall
      | some res =>
        simp only [hcell, hi, Option.some.injEq, Prod.mk.injEq] at hcall
        rw [← hcall.2]
        simp [List.getElem?_set_ne (Ne.symm hne)]
  · intro rand hrand
    obtain ⟨nc, rand', e1, e2, e3, e4, e5⟩ :=
      initEncrypt_fresh aes c.Copy rand hk hiv hns hnil hrand
    have hivl : (rand.bytes.take 16).length = 16 := by simp; omega
    have k1 : nc.key.length = 16 ∨ nc.key.length = 24 ∨ nc.key.length = 32 := by
      rw [e4]; exact hk
    have n1 : nc.info.newStream = newAESCFBStream aes := by
      rw [e5]; exact hns
    refine ⟨nc, rand', e1, e2, e3, ?_, ?_⟩
    · intro rand2
      exact initEncrypt_cached aes nc _ rand2 k1 n1 e3 hivl
    · intro rand2
      obtain ⟨nc3, f1, -⟩ := initEncrypt_cached aes nc.Copy (rand.bytes.take 16) rand2 k1 n1
        e3 hivl
      exact ⟨nc3, f1⟩

/-- C20 at the template of `aes-128-cfb` and the password "pw": a copy is
made, `initEncrypt` is called on it, and the copy is copied again. -/
theorem template_iv_stays_nil_witness :
    NewCipher toyMD5 toyAES (str "aes-128-cfb") (str "pw")
      = (some ⟨none, none, evpBytesToKey toyMD5 (str "pw") 16, none,
          ⟨16, 16, newAESCFBStream toyAES⟩⟩, none) ∧
    CipherOp.initEncrypt 0 ∉ [CipherOp.copy 0, CipherOp.initEncrypt 1, CipherOp.copy 1] ∧
    ∃ hp, CipherHeap.run
        ⟨[⟨none, none, evpBytesToKey toyMD5 (str "pw") 16, none,
            ⟨16, 16, newAESCFBStream toyAES⟩⟩],
          [[1, 2, 3, 4, 5, 6, 7, 8, 9, 10, 11, 12, 13, 14, 15, 16, 17]]⟩
        [CipherOp.copy 0, CipherOp.initEncrypt 1, CipherOp.copy 1] = some hp ∧
      hp.cells[0]? = some ⟨none, none, evpBytesToKey toyMD5 (str "pw") 16, none,
          ⟨16, 16, newAESCFBStream toyAES⟩⟩ ∧
      hp.cells.length = 3 ∧ hp.rand = [[17]] ∧
      hp.cells.map (fun x => x.iv)
        = [none, some [1, 2, 3, 4, 5, 6, 7, 8, 9, 10, 11, 12, 13, 14, 15, 16],
            some [1, 2, 3, 4, 5, 6, 7, 8, 9, 10, 11, 12, 13, 14, 15, 16]] := by
  refine ⟨rfl, by decide, ?_⟩
  cases hrun : CipherHeap.run
      ⟨[⟨none, none, evpBytesToKey toyMD5 (str "pw") 16, none,
          ⟨16, 16, newAESCFBStream toyAES⟩⟩],
        [[1, 2, 3, 4, 5, 6, 7, 8, 9, 10, 11, 12, 13, 14, 15, 16, 17]]⟩
      [CipherOp.copy 0, CipherOp.initEncrypt 1, CipherOp.copy 1] with
  | none =>
    exact absurd hrun (by
      intro hn
      have : (CipherHeap.run
        ⟨[⟨none, none, evpBytesToKey toyMD5 (str "pw") 16, none,
            ⟨16, 16, newAESCFBStream toyAES⟩⟩],
          [[1, 2, 3, 4, 5, 6, 7, 8, 9, 10, 11, 12, 13, 14, 15, 16, 17]]⟩
        [CipherOp.copy 0, CipherOp.initEncrypt 1, CipherOp.copy 1]).isSome = true := by decide
      rw [hn] at this
      cases this)
  | some hp =>
    have h0 := (template_iv_stays_nil toyMD5 toyAES (str "aes-128-cfb") (str "pw")
      ⟨none, none, evpBytesToKey toyMD5 (str "pw") 16, none, ⟨16, 16, newAESCFBStream toyAES⟩⟩
      rfl).2.1 [[1, 2, 3, 4, 5, 6, 7, 8, 9, 10, 11, 12, 13, 14, 15, 16, 17]]
      [CipherOp.copy 0, CipherOp.initEncrypt 1, CipherOp.copy 1] hp (by decide) hrun
    have hl : ((CipherHeap.run
        ⟨[⟨none, none, evpBytesToKey toyMD5 (str "pw") 16, none,
            ⟨16, 16, newAESCFBStream toyAES⟩⟩],
          [[1, 2, 3, 4, 5, 6, 7, 8, 9, 10, 11, 12, 13, 14, 15, 16, 17]]⟩
        [CipherOp.copy 0, CipherOp.initEncrypt 1, CipherOp.copy 1]).map
          (fun x => (x.cells.length, x.rand, x.cells.map (fun y => y.iv))))
        = some (3, [[17]], [none, some [1, 2, 3, 4, 5, 6, 7, 8, 9, 10, 11, 12, 13, 14, 15, 16],
            some [1, 2, 3, 4, 5, 6, 7, 8, 9, 10, 11, 12, 13, 14, 15, 16]]) := by decide
    rw [hrun] at hl
    simp only [Option.map_some', Option.some.injEq, Prod.mk.injEq] at hl
    exact ⟨hp, rfl, h0, hl.1, hl.2.1, hl.2.2⟩

end Shine
